import Mathlib

/-!
Course catalog AVL tree (`CourseCatalogAVL.cpp`)

A shallow embedding of the `BinarySearchTree` class of `CourseCatalogAVL.cpp`
and a verification of its ordering, balance and lookup properties.

Modelling conventions

* `std::string` is `String`; `operator<` on strings is `strLt` (lexicographic on
  the character sequence, a proper prefix being smaller).
* `Node*` is the inductive type `Node`, `nullptr` being `Node.null`.  A function
  that reads a field through a pointer returns `none` when that pointer is null.
* `int` fields (`height`, `size`) are `Int`.  `Insert` and `Delete` count in
  `size` without a bound; `InsertInt` and `DeleteInt` are the same calls with
  the 32-bit range of `int` enforced (`++size` at `INT_MAX` is undefined and has
  no result), and `ReachableInt` is reachability by such calls.  What is said
  about the count of records is said about these.
* The `bool&` out-parameters `inserted` and `deleted` are threaded through as an
  explicit argument and a second component of the result.
* The `[DEBUG]` trace written to `cout` has no effect on results.  The plain
  functions leave it out; the traced functions (`insertRecT`, `deleteRecT`, ...)
  return it as a list of `Event`s, and dropping the trace gives the plain ones.
* A file is its content, read line by line as `getline` does; a file that cannot
  be opened is `none`.
* The original, unbalanced tree of `CS300 Project Two ORIGINAL.cpp` is embedded
  under the prefix `Original`; its insertion loop is written as a recursion.
-/

namespace CourseCatalogAVL

/-! ## Data model -/

/-- Comparison `a < b` of two `std::string` values. -/
def strLt (a b : String) : Bool := decide (a.data < b.data)

/-- The `Course` record: identifier, title and prerequisite identifiers. -/
structure Course where
  courseNumber : String
  courseName : String
  preReqs : List String
deriving DecidableEq

/-- The value-initialised record `{}` that `searchRec` returns on a miss. -/
def Course.empty : Course := ⟨"", "", []⟩

/-- A tree node (`Node*`): either `nullptr` or a node holding a course, two
children and the stored height. -/
inductive Node where
  | null : Node
  | mk (course : Course) (left right : Node) (height : Int) : Node
deriving DecidableEq

/-- The class state: `root` and `size`.  The field `size` is an `int`; its range
is enforced by `InsertInt` and `DeleteInt`. -/
structure BinarySearchTree where
  root : Node
  size : Int
deriving DecidableEq

/-! ## Private helpers of `BinarySearchTree` -/

/-- The test `!n` on a `Node*`. -/
def isNull : Node → Bool
  | .null => true
  | .mk _ _ _ _ => false

/-- Models `nodeHeight`: the stored height, `0` for `nullptr`. -/
def nodeHeight : Node → Int
  | .null => 0
  | .mk _ _ _ h => h

/-- Models `updateHeight`: recompute the stored height from the children's stored heights. -/
def updateHeight : Node → Node
  | .null => .null
  | .mk c l r _ => .mk c l r (1 + max (nodeHeight l) (nodeHeight r))

/-- Models `balanceFactor`: stored height of the left child minus that of the right child. -/
def balanceFactor : Node → Int
  | .null => 0
  | .mk _ l r _ => nodeHeight l - nodeHeight r

/-- Models `rotateRight(y)`: `x = y->left` becomes the subtree root; `none` when `y` or
`y->left` is null. -/
def rotateRight : Node → Option Node
  | .mk yc (.mk xc xl T2 xh) yr yh =>
      some (updateHeight (.mk xc xl (updateHeight (.mk yc T2 yr yh)) xh))
  | _ => none

/-- Models `rotateLeft(x)`: `y = x->right` becomes the subtree root; `none` when `x` or
`x->right` is null. -/
def rotateLeft : Node → Option Node
  | .mk xc xl (.mk yc T2 yr yh) xh =>
      some (updateHeight (.mk yc (updateHeight (.mk xc xl T2 xh)) yr yh))
  | _ => none

/-- The tail of `insertRec` (lines 110-127): update the height of `node`, then
apply the rotation selected by the balance factor and by the inserted key's
relation to the child's key. -/
def insertRebalance (node : Node) (c : Course) : Option Node :=
  match updateHeight node with
  | .null => none
  | .mk nc l r h =>
    if balanceFactor (.mk nc l r h) > 1 then
      match l with
      | .null => none
      | .mk lc ll lr lh =>
        if strLt c.courseNumber lc.courseNumber then rotateRight (.mk nc l r h)
        else if strLt lc.courseNumber c.courseNumber then
          match rotateLeft (.mk lc ll lr lh) with
          | none => none
          | some l' => rotateRight (.mk nc l' r h)
        else some (.mk nc l r h)
    else if balanceFactor (.mk nc l r h) < -1 then
      match r with
      | .null => none
      | .mk rc rl rr rh =>
        if strLt rc.courseNumber c.courseNumber then rotateLeft (.mk nc l r h)
        else if strLt c.courseNumber rc.courseNumber then
          match rotateRight (.mk rc rl rr rh) with
          | none => none
          | some r' => rotateLeft (.mk nc l r' h)
        else some (.mk nc l r h)
    else some (.mk nc l r h)

/-- Models `insertRec(node, c, inserted)`: the new subtree and the value of `inserted`. -/
def insertRec : Node → Course → Bool → Option (Node × Bool)
  | .null, c, _ => some (.mk c .null .null 1, true)
  | .mk nc l r h, c, inserted =>
    if strLt c.courseNumber nc.courseNumber then
      match insertRec l c inserted with
      | none => none
      | some (l', ins) =>
        match insertRebalance (.mk nc l' r h) c with
        | none => none
        | some n => some (n, ins)
    else if strLt nc.courseNumber c.courseNumber then
      match insertRec r c inserted with
      | none => none
      | some (r', ins) =>
        match insertRebalance (.mk nc l r' h) c with
        | none => none
        | some n => some (n, ins)
    else some (.mk nc l r h, false)

/-- Models `minValueNode`: the leftmost node of a subtree (`nullptr` for `nullptr`). -/
def minValueNode : Node → Node
  | .null => .null
  | .mk c .null r h => .mk c .null r h
  | .mk _ (.mk lc ll lr lh) _ _ => minValueNode (.mk lc ll lr lh)

/-- The tail of `deleteRec` (lines 173-190): update the height of `root`, then
apply the rotation selected by the balance factors of `root` and of its child. -/
def deleteRebalance (root : Node) : Option Node :=
  match updateHeight root with
  | .null => none
  | .mk nc l r h =>
    if balanceFactor (.mk nc l r h) > 1 then
      if balanceFactor l ≥ 0 then rotateRight (.mk nc l r h)
      else
        match rotateLeft l with
        | none => none
        | some l' => rotateRight (.mk nc l' r h)
    else if balanceFactor (.mk nc l r h) < -1 then
      if balanceFactor r ≤ 0 then rotateLeft (.mk nc l r h)
      else
        match rotateRight r with
        | none => none
        | some r' => rotateLeft (.mk nc l r' h)
    else some (.mk nc l r h)

/-- Models `deleteRec(root, courseNumber, deleted)`: the new subtree and the value of
`deleted`. -/
def deleteRec : Node → String → Bool → Option (Node × Bool)
  | .null, _, deleted => some (.null, deleted)
  | .mk rc l r h, courseNumber, deleted =>
    if strLt courseNumber rc.courseNumber then
      match deleteRec l courseNumber deleted with
      | none => none
      | some (l', d) =>
        match deleteRebalance (.mk rc l' r h) with
        | none => none
        | some n => some (n, d)
    else if strLt rc.courseNumber courseNumber then
      match deleteRec r courseNumber deleted with
      | none => none
      | some (r', d) =>
        match deleteRebalance (.mk rc l r' h) with
        | none => none
        | some n => some (n, d)
    else
      if isNull l || isNull r then
        -- `temp = root->left ? root->left : root->right`, then `*root = *temp`
        let temp := if isNull l then r else l
        if isNull temp then some (.null, true)
        else
          match deleteRebalance temp with
          | none => none
          | some n => some (n, true)
      else
        match minValueNode r with
        | .null => none
        | .mk tc _ _ _ =>
          match deleteRec r tc.courseNumber true with
          | none => none
          | some (r', d) =>
            match deleteRebalance (.mk tc l r' h) with
            | none => none
            | some n => some (n, d)

/-- Models `searchRec`: binary search by key; the empty record on a miss. -/
def searchRec : Node → String → Course
  | .null, _ => Course.empty
  | .mk nc l r _, courseId =>
    if nc.courseNumber = courseId then nc
    else if strLt courseId nc.courseNumber then searchRec l courseId
    else searchRec r courseId

/-- Models `inOrderRec`: the records in the order their lines are printed. -/
def inOrderRec : Node → List Course
  | .null => []
  | .mk c l r _ => inOrderRec l ++ c :: inOrderRec r

/-- Models `preOrderRec`: the records in the order their lines are printed. -/
def preOrderRec : Node → List Course
  | .null => []
  | .mk c l r _ => c :: (preOrderRec l ++ preOrderRec r)

/-- Models `postOrderRec`: the records in the order their lines are printed. -/
def postOrderRec : Node → List Course
  | .null => []
  | .mk c l r _ => postOrderRec l ++ postOrderRec r ++ [c]

/-! ## Public interface -/

/-- The constructor: `root(nullptr), size(0)`. -/
def BinarySearchTree.new : BinarySearchTree := ⟨.null, 0⟩

/-- Models `Insert`: run `insertRec` from the root with `inserted = false`; the result
also carries the final value of the local flag `inserted`. -/
def Insert (t : BinarySearchTree) (aCourse : Course) : Option (BinarySearchTree × Bool) :=
  match insertRec t.root aCourse false with
  | none => none
  | some (r, inserted) => some (⟨r, if inserted then t.size + 1 else t.size⟩, inserted)

/-- Models `Delete`: run `deleteRec` from the root with `deleted = false`; returns the
new state and the returned flag. -/
def Delete (t : BinarySearchTree) (courseNumber : String) : Option (BinarySearchTree × Bool) :=
  match deleteRec t.root courseNumber false with
  | none => none
  | some (r, deleted) => some (⟨r, if deleted then t.size - 1 else t.size⟩, deleted)

/-- The `transform(..., ::toupper)` pass over a string: `toupper` in the "C"
locale maps `a`..`z` to `A`..`Z` and leaves every other character alone. -/
def toUpper (s : String) : String := ⟨s.data.map Char.toUpper⟩

/-- Models `Search`: upper-case the identifier, then `searchRec` from the root. -/
def Search (t : BinarySearchTree) (courseId : String) : Course :=
  searchRec t.root (toUpper courseId)

/-- Models `Size`. -/
def Size (t : BinarySearchTree) : Int := t.size

/-- Models `InOrder`. -/
def InOrder (t : BinarySearchTree) : List Course := inOrderRec t.root

/-- Models `PreOrder`. -/
def PreOrder (t : BinarySearchTree) : List Course := preOrderRec t.root

/-- Models `PostOrder`. -/
def PostOrder (t : BinarySearchTree) : List Course := postOrderRec t.root

/-! ## Operation sequences -/

/-- One call on the public interface that changes the tree. -/
inductive Op where
  | insert (c : Course) : Op
  | delete (k : String) : Op
deriving DecidableEq

/-- Apply one operation. -/
def applyOp (t : BinarySearchTree) : Op → Option BinarySearchTree
  | .insert c => (Insert t c).map Prod.fst
  | .delete k => (Delete t k).map Prod.fst

/-- Apply a sequence of operations, left to right, starting from `t`. -/
def runOps (t : BinarySearchTree) : List Op → Option BinarySearchTree
  | [] => some t
  | op :: rest =>
    match applyOp t op with
    | none => none
    | some t' => runOps t' rest

/-- A tree is reachable when some sequence of `Insert` and `Delete` calls on
the empty tree produces it. -/
def Reachable (t : BinarySearchTree) : Prop :=
  ∃ ops : List Op, runOps BinarySearchTree.new ops = some t

/-! ### The range of `int`

The field `size` is an `int`.  `Insert` and `Delete` above count without a
bound.  Below are the same calls with the range of a 32-bit `int` enforced:
`++size` at `INT_MAX` and `--size` at `INT_MIN` are undefined, and the call has
no result. -/

/-- The greatest `int`, `INT_MAX`. -/
def intMax : Int := 2147483647

/-- The least `int`, `INT_MIN`. -/
def intMin : Int := -2147483648

/-- Models `Insert` with `size` an `int`: `if (inserted) ++size;` has a result
only when `size` is below `INT_MAX`. -/
def InsertInt (t : BinarySearchTree) (aCourse : Course) : Option (BinarySearchTree × Bool) :=
  match insertRec t.root aCourse false with
  | none => none
  | some (r, inserted) =>
    if inserted then
      if t.size < intMax then some (⟨r, t.size + 1⟩, true) else none
    else some (⟨r, t.size⟩, false)

/-- Models `Delete` with `size` an `int`: `if (deleted) --size;` has a result
only when `size` is above `INT_MIN`. -/
def DeleteInt (t : BinarySearchTree) (courseNumber : String) :
    Option (BinarySearchTree × Bool) :=
  match deleteRec t.root courseNumber false with
  | none => none
  | some (r, deleted) =>
    if deleted then
      if intMin < t.size then some (⟨r, t.size - 1⟩, true) else none
    else some (⟨r, t.size⟩, false)

/-- Apply one operation, `size` being an `int`. -/
def applyOpInt (t : BinarySearchTree) : Op → Option BinarySearchTree
  | .insert c => (InsertInt t c).map Prod.fst
  | .delete k => (DeleteInt t k).map Prod.fst

/-- Apply a sequence of operations, left to right, `size` being an `int`. -/
def runOpsInt (t : BinarySearchTree) : List Op → Option BinarySearchTree
  | [] => some t
  | op :: rest =>
    match applyOpInt t op with
    | none => none
    | some t' => runOpsInt t' rest

/-- A tree is reachable by the program when some sequence of `Insert` and
`Delete` calls on the empty tree produces it with `size` staying an `int`. -/
def ReachableInt (t : BinarySearchTree) : Prop :=
  ∃ ops : List Op, runOpsInt BinarySearchTree.new ops = some t

/-! ## Specification vocabulary -/

/-- The keys of a subtree, in in-order. -/
def keys (t : Node) : List String := (inOrderRec t).map Course.courseNumber

/-- Search-tree order: the in-order key sequence is strictly ascending. -/
def Ordered (t : Node) : Prop :=
  (inOrderRec t).Pairwise (fun a b => a.courseNumber < b.courseNumber)

/-! ### Balance -/

/-- The height of a subtree: the number of nodes on its longest downward path. -/
def height : Node → Nat
  | .null => 0
  | .mk _ l r _ => 1 + max (height l) (height r)

/-- Every node's two subtrees differ in height by at most one. -/
def HeightBalanced : Node → Prop
  | .null => True
  | .mk _ l r _ =>
    HeightBalanced l ∧ HeightBalanced r ∧ |(height l : Int) - (height r : Int)| ≤ 1

/-- The working invariant on stored heights: every stored height is one more
than the larger stored height of the children, and the stored heights of the
two children differ by at most one. -/
def AVL : Node → Prop
  | .null => True
  | .mk _ l r h =>
    AVL l ∧ AVL r ∧ h = 1 + max (nodeHeight l) (nodeHeight r) ∧
      -1 ≤ nodeHeight l - nodeHeight r ∧ nodeHeight l - nodeHeight r ≤ 1

/-- The subtree root has its taller side on the side of the key of `c`. -/
def Heavy (c : Course) : Node → Prop
  | .null => False
  | .mk k l r _ =>
    (c.courseNumber < k.courseNumber ∧ nodeHeight l = nodeHeight r + 1) ∨
    (k.courseNumber < c.courseNumber ∧ nodeHeight r = nodeHeight l + 1)

/-- How the stored height of a subtree may change under `insertRec`: it is kept,
or it grows by one, and then the old subtree was empty or the new root leans
towards the inserted key. -/
def Grown (c : Course) (t t' : Node) : Prop :=
  nodeHeight t' = nodeHeight t ∨
    (nodeHeight t' = nodeHeight t + 1 ∧ (t = Node.null ∨ Heavy c t'))

/-! ### The class invariant -/

/-- The invariant of `BinarySearchTree`: exact stored heights and balance,
search-tree order, and `size` equal to the number of nodes. -/
def Inv (t : BinarySearchTree) : Prop :=
  AVL t.root ∧ Ordered t.root ∧ t.size = ((inOrderRec t.root).length : Int)

/-! ### Bulk insertion and deletion -/

/-- Calls `Insert` on each record of a list, in order. -/
def insertAll (t : BinarySearchTree) : List Course → Option BinarySearchTree
  | [] => some t
  | c :: cs =>
    match Insert t c with
    | none => none
    | some (t', _) => insertAll t' cs

/-- Calls `Delete` on each key of a list, in order, collecting the returned flags. -/
def deleteAll (t : BinarySearchTree) : List String → Option (BinarySearchTree × List Bool)
  | [] => some (t, [])
  | k :: ks =>
    match Delete t k with
    | none => none
    | some (t', b) =>
      match deleteAll t' ks with
      | none => none
      | some (t'', bs) => some (t'', b :: bs)

/-! ### Sample catalog -/

/-- The record `CSCI101`. -/
def csci101 : Course := ⟨"CSCI101", "Intro to Programming", []⟩

/-- The record `CSCI201`, which requires `CSCI101`. -/
def csci201 : Course := ⟨"CSCI201", "Data Structures", ["CSCI101"]⟩

/-- The record `CSCI301`. -/
def csci301 : Course := ⟨"CSCI301", "Algorithms", ["CSCI201"]⟩

/-- The tree after inserting `CSCI101` and `CSCI201` into the empty tree. -/
def sampleTree : BinarySearchTree :=
  ⟨Node.mk csci101 Node.null (Node.mk csci201 Node.null Node.null 1) 2, 2⟩

/-- A record whose identifier is written in lower case. -/
def lowerCourse : Course := ⟨"csci101", "Intro to Programming", []⟩

/-- The tree holding only the empty record. -/
def emptyRecordTree : BinarySearchTree := ⟨Node.mk Course.empty Node.null Node.null 1, 1⟩

/-- The tree holding only `CSCI101`. -/
def singleTree : BinarySearchTree := ⟨Node.mk csci101 Node.null Node.null 1, 1⟩

/-! ### The diagnostic trace

`DEBUG_MODE` is a global flag, read at every trace statement; here it is the
argument `dbg`.  The functions below are the functions above together with the
lines they write to `cout`, one `Event` per output statement. -/

/-- One line written to `cout` by the tree or by the loader. -/
inductive Event where
  | rotateRightAt (k : String) : Event
  | rotateLeftAt (k : String) : Event
  | insertAt (k : String) : Event
  | goingLeftFrom (k : String) : Event
  | goingRightFrom (k : String) : Event
  | duplicateCourse (k : String) : Event
  | balanceFactorAt (k : String) (bf : Int) : Event
  | goingLeftToDelete (k : String) : Event
  | goingRightToDelete (k : String) : Event
  | deleting (k : String) : Event
  | balanceFactorAfterDeletionAt (k : String) (bf : Int) : Event
  | couldNotOpenFile (path : String) : Event
deriving DecidableEq

/-- The statement `if (DEBUG_MODE) cout << ...`. -/
def trace (dbg : Bool) (e : Event) : List Event := if dbg then [e] else []

/-- Whether a trace line reports a rotation. -/
def Event.isRotation : Event → Bool
  | .rotateRightAt _ => true
  | .rotateLeftAt _ => true
  | _ => false

/-- Traced `rotateRight`. -/
def rotateRightT (dbg : Bool) : Node → Option (Node × List Event)
  | .mk yc (.mk xc xl T2 xh) yr yh =>
      some (updateHeight (.mk xc xl (updateHeight (.mk yc T2 yr yh)) xh),
        trace dbg (.rotateRightAt yc.courseNumber))
  | _ => none

/-- Traced `rotateLeft`. -/
def rotateLeftT (dbg : Bool) : Node → Option (Node × List Event)
  | .mk xc xl (.mk yc T2 yr yh) xh =>
      some (updateHeight (.mk yc (updateHeight (.mk xc xl T2 xh)) yr yh),
        trace dbg (.rotateLeftAt xc.courseNumber))
  | _ => none

/-- Traced tail of `insertRec` (lines 110-127). -/
def insertRebalanceT (dbg : Bool) (node : Node) (c : Course) : Option (Node × List Event) :=
  match updateHeight node with
  | .null => none
  | .mk nc l r h =>
    if balanceFactor (.mk nc l r h) > 1 then
      match l with
      | .null => none
      | .mk lc ll lr lh =>
        if strLt c.courseNumber lc.courseNumber then
          match rotateRightT dbg (.mk nc l r h) with
          | none => none
          | some (n, ev) =>
            some (n, trace dbg (.balanceFactorAt nc.courseNumber (balanceFactor (.mk nc l r h))) ++ ev)
        else if strLt lc.courseNumber c.courseNumber then
          match rotateLeftT dbg (.mk lc ll lr lh) with
          | none => none
          | some (l', ev1) =>
            match rotateRightT dbg (.mk nc l' r h) with
            | none => none
            | some (n, ev2) =>
              some (n, trace dbg (.balanceFactorAt nc.courseNumber (balanceFactor (.mk nc l r h)))
                ++ ev1 ++ ev2)
        else some (.mk nc l r h,
          trace dbg (.balanceFactorAt nc.courseNumber (balanceFactor (.mk nc l r h))))
    else if balanceFactor (.mk nc l r h) < -1 then
      match r with
      | .null => none
      | .mk rc rl rr rh =>
        if strLt rc.courseNumber c.courseNumber then
          match rotateLeftT dbg (.mk nc l r h) with
          | none => none
          | some (n, ev) =>
            some (n, trace dbg (.balanceFactorAt nc.courseNumber (balanceFactor (.mk nc l r h))) ++ ev)
        else if strLt c.courseNumber rc.courseNumber then
          match rotateRightT dbg (.mk rc rl rr rh) with
          | none => none
          | some (r', ev1) =>
            match rotateLeftT dbg (.mk nc l r' h) with
            | none => none
            | some (n, ev2) =>
              some (n, trace dbg (.balanceFactorAt nc.courseNumber (balanceFactor (.mk nc l r h)))
                ++ ev1 ++ ev2)
        else some (.mk nc l r h,
          trace dbg (.balanceFactorAt nc.courseNumber (balanceFactor (.mk nc l r h))))
    else some (.mk nc l r h,
      trace dbg (.balanceFactorAt nc.courseNumber (balanceFactor (.mk nc l r h))))

/-- Traced `insertRec`: the new subtree, the flag and the lines written. -/
def insertRecT (dbg : Bool) : Node → Course → Bool → Option (Node × Bool × List Event)
  | .null, c, _ => some (.mk c .null .null 1, true, trace dbg (.insertAt c.courseNumber))
  | .mk nc l r h, c, inserted =>
    if strLt c.courseNumber nc.courseNumber then
      match insertRecT dbg l c inserted with
      | none => none
      | some (l', ins, ev1) =>
        match insertRebalanceT dbg (.mk nc l' r h) c with
        | none => none
        | some (n, ev2) => some (n, ins, trace dbg (.goingLeftFrom nc.courseNumber) ++ ev1 ++ ev2)
    else if strLt nc.courseNumber c.courseNumber then
      match insertRecT dbg r c inserted with
      | none => none
      | some (r', ins, ev1) =>
        match insertRebalanceT dbg (.mk nc l r' h) c with
        | none => none
        | some (n, ev2) => some (n, ins, trace dbg (.goingRightFrom nc.courseNumber) ++ ev1 ++ ev2)
    else some (.mk nc l r h, false, trace dbg (.duplicateCourse c.courseNumber))

/-- Traced tail of `deleteRec` (lines 173-190). -/
def deleteRebalanceT (dbg : Bool) (root : Node) : Option (Node × List Event) :=
  match updateHeight root with
  | .null => none
  | .mk nc l r h =>
    if balanceFactor (.mk nc l r h) > 1 then
      if balanceFactor l ≥ 0 then
        match rotateRightT dbg (.mk nc l r h) with
        | none => none
        | some (n, ev) =>
          some (n, trace dbg
            (.balanceFactorAfterDeletionAt nc.courseNumber (balanceFactor (.mk nc l r h))) ++ ev)
      else
        match rotateLeftT dbg l with
        | none => none
        | some (l', ev1) =>
          match rotateRightT dbg (.mk nc l' r h) with
          | none => none
          | some (n, ev2) =>
            some (n, trace dbg
              (.balanceFactorAfterDeletionAt nc.courseNumber (balanceFactor (.mk nc l r h)))
              ++ ev1 ++ ev2)
    else if balanceFactor (.mk nc l r h) < -1 then
      if balanceFactor r ≤ 0 then
        match rotateLeftT dbg (.mk nc l r h) with
        | none => none
        | some (n, ev) =>
          some (n, trace dbg
            (.balanceFactorAfterDeletionAt nc.courseNumber (balanceFactor (.mk nc l r h))) ++ ev)
      else
        match rotateRightT dbg r with
        | none => none
        | some (r', ev1) =>
          match rotateLeftT dbg (.mk nc l r' h) with
          | none => none
          | some (n, ev2) =>
            some (n, trace dbg
              (.balanceFactorAfterDeletionAt nc.courseNumber (balanceFactor (.mk nc l r h)))
              ++ ev1 ++ ev2)
    else some (.mk nc l r h,
      trace dbg (.balanceFactorAfterDeletionAt nc.courseNumber (balanceFactor (.mk nc l r h))))

/-- Traced `deleteRec`: the new subtree, the flag and the lines written. -/
def deleteRecT (dbg : Bool) : Node → String → Bool → Option (Node × Bool × List Event)
  | .null, _, deleted => some (.null, deleted, [])
  | .mk rc l r h, courseNumber, deleted =>
    if strLt courseNumber rc.courseNumber then
      match deleteRecT dbg l courseNumber deleted with
      | none => none
      | some (l', d, ev1) =>
        match deleteRebalanceT dbg (.mk rc l' r h) with
        | none => none
        | some (n, ev2) => some (n, d, trace dbg (.goingLeftToDelete courseNumber) ++ ev1 ++ ev2)
    else if strLt rc.courseNumber courseNumber then
      match deleteRecT dbg r courseNumber deleted with
      | none => none
      | some (r', d, ev1) =>
        match deleteRebalanceT dbg (.mk rc l r' h) with
        | none => none
        | some (n, ev2) => some (n, d, trace dbg (.goingRightToDelete courseNumber) ++ ev1 ++ ev2)
    else
      if isNull l || isNull r then
        let temp := if isNull l then r else l
        if isNull temp then some (.null, true, trace dbg (.deleting courseNumber))
        else
          match deleteRebalanceT dbg temp with
          | none => none
          | some (n, ev) => some (n, true, trace dbg (.deleting courseNumber) ++ ev)
      else
        match minValueNode r with
        | .null => none
        | .mk tc _ _ _ =>
          match deleteRecT dbg r tc.courseNumber true with
          | none => none
          | some (r', d, ev1) =>
            match deleteRebalanceT dbg (.mk tc l r' h) with
            | none => none
            | some (n, ev2) => some (n, d, trace dbg (.deleting courseNumber) ++ ev1 ++ ev2)

/-- Traced `Insert`. -/
def InsertT (dbg : Bool) (t : BinarySearchTree) (aCourse : Course) :
    Option (BinarySearchTree × Bool × List Event) :=
  match insertRecT dbg t.root aCourse false with
  | none => none
  | some (r, inserted, ev) => some (⟨r, if inserted then t.size + 1 else t.size⟩, inserted, ev)

/-- Traced `Delete`. -/
def DeleteT (dbg : Bool) (t : BinarySearchTree) (courseNumber : String) :
    Option (BinarySearchTree × Bool × List Event) :=
  match deleteRecT dbg t.root courseNumber false with
  | none => none
  | some (r, deleted, ev) => some (⟨r, if deleted then t.size - 1 else t.size⟩, deleted, ev)

/-! ### The catalog loader -/

/-- The loop `while (getline(stream, token, delim))` over a character stream:
each token runs up to the next delimiter, which is consumed; a call that finds
the stream exhausted fails and ends the loop, so no token follows a final
delimiter. -/
def getlineAll (delim : Char) : List Char → List (List Char)
  | [] => []
  | c :: cs =>
    if c = delim then [] :: getlineAll delim cs
    else
      match getlineAll delim cs with
      | [] => [[c]]
      | tok :: rest => (c :: tok) :: rest

/-- Membership in the set `" \t\r\n"`. -/
def isSpace (c : Char) : Bool := c = ' ' || c = '\t' || c = '\r' || c = '\n'

/-- The two `erase` calls of `Split`: drop the characters before the first and
after the last character outside `" \t\r\n"`. -/
def trimToken (tok : List Char) : List Char :=
  ((tok.dropWhile isSpace).reverse.dropWhile isSpace).reverse

/-- Models `Split`: cut the line at commas and trim every token. -/
def Split (lineFeed : String) : List String :=
  (getlineAll ',' lineFeed.data).map (fun tok => String.mk (trimToken tok))

/-- The body of the loop of `loadCourses` over the lines still to be read: the
tree after the remaining lines and the lines written to `cout`. -/
def loadLines (dbg : Bool) : List String → BinarySearchTree →
    Option (BinarySearchTree × List Event)
  | [], courseList => some (courseList, [])
  | line :: rest, courseList =>
    if line = "" then loadLines dbg rest courseList
    else if (Split line).length < 2 then loadLines dbg rest courseList
    else
      match InsertT dbg courseList
          ⟨(Split line).getD 0 "", (Split line).getD 1 "",
            ((Split line).drop 2).filter (fun tok => tok ≠ "")⟩ with
      | none => none
      | some (t', _, ev1) =>
        match loadLines dbg rest t' with
        | none => none
        | some (t'', ev2) => some (t'', ev1 ++ ev2)

/-- Models `loadCourses`: `file` is the content of the file at `filePath`, or
`none` when it cannot be opened. -/
def loadCourses (dbg : Bool) (file : Option String) (filePath : String)
    (courseList : BinarySearchTree) : Option (BinarySearchTree × List Event) :=
  match file with
  | none => some (courseList, [Event.couldNotOpenFile filePath])
  | some content =>
    loadLines dbg ((getlineAll '\n' content.data).map String.mk) courseList

/-- The record a source line stands for, in the words of the specification:
none for a blank line or a line with fewer than two fields; otherwise the first
field is the id, the second the name, and the non-empty fields from the third
onward are the prerequisites. -/
def recordOfLine (line : String) : Option Course :=
  match Split line with
  | id :: name :: more => some ⟨id, name, more.filter (fun tok => tok ≠ "")⟩
  | _ => none

/-- The example source of the specification. -/
def sampleSource : String :=
  "CSCI101, Intro to Programming\nCSCI201, Data Structures, CSCI101\n"

/-! ### Counting and exact heights -/

/-- The number of nodes of a subtree. -/
def countNodes : Node → Nat
  | .null => 0
  | .mk _ l r _ => countNodes l + 1 + countNodes r

/-- Every stored height is the height of its subtree; then it is at least 1
and `balanceFactor` is the difference of the children's heights. -/
def HeightsExact : Node → Prop
  | .null => True
  | .mk c l r h =>
    HeightsExact l ∧ HeightsExact r ∧
      h = (height (.mk c l r h) : Int) ∧ 1 ≤ h ∧
      balanceFactor (.mk c l r h) = (height l : Int) - (height r : Int)

/-- The record `CSCI401`. -/
def csci401 : Course := ⟨"CSCI401", "Capstone", ["CSCI301"]⟩

/-- The tree after inserting `CSCI101`, `CSCI201`, `CSCI301` and `CSCI401`, in
that order: `CSCI201` over the leaf `CSCI101` and over `CSCI301`, whose only
child is the right child `CSCI401`. -/
def fourTree : BinarySearchTree :=
  ⟨Node.mk csci201 (Node.mk csci101 Node.null Node.null 1)
    (Node.mk csci301 Node.null (Node.mk csci401 Node.null Node.null 1) 2) 3, 4⟩

/-! ### Building a given balanced tree by insertions

These are proof devices, not functions of the program: a leaf at the greatest
depth, and the tree without it. -/

/-- The record of a leaf at the greatest depth, following the taller subtree
(the left one on a tie). -/
def deepest : Node → Course
  | .null => Course.empty
  | .mk c l r _ =>
    if isNull l && isNull r then c
    else if nodeHeight r ≤ nodeHeight l then deepest l
    else deepest r

/-- The tree without the leaf chosen by `deepest`, heights recomputed on the
path to it. -/
def removeDeepest : Node → Node
  | .null => .null
  | .mk c l r h =>
    if isNull l && isNull r then .null
    else if nodeHeight r ≤ nodeHeight l then updateHeight (.mk c (removeDeepest l) r h)
    else updateHeight (.mk c l (removeDeepest r) h)

/-- The `i`-th key of an ascending sequence of keys: `i` letters `a`. -/
def indexKey (i : Nat) : String := String.mk (List.replicate i 'a')

/-- The sparsest balanced tree of height `h` (a Fibonacci tree), holding the
keys `indexKey lo`, `indexKey (lo + 1)`, ... in in-order: its left subtree has
height `h - 1` and its right subtree height `h - 2`. -/
def fibTree : Nat → Nat → Node
  | 0, _ => .null
  | 1, lo => .mk ⟨indexKey lo, "", []⟩ .null .null 1
  | h + 2, lo =>
    .mk ⟨indexKey (lo + (Nat.fib (h + 3) - 1)), "", []⟩
      (fibTree (h + 1) lo) (fibTree h (lo + Nat.fib (h + 3))) ((h : Int) + 2)

/-- The Fibonacci tree of height 4553 with its node count as `size`. -/
def sparseTree : BinarySearchTree := ⟨fibTree 4553 0, (Nat.fib 4555 : Int) - 1⟩

/-! ### Insertion with the rotation chosen by balance factors -/

/-- The variant of `insertRec` that the comparison with `deleteRec` speaks of:
the same descent, but on the way back the four rebalancing cases are selected
as in `deleteRec`, by the balance factor of the node and of its child (this is
`deleteRebalance`), not by comparing the inserted key with the child's key. -/
def insertRecByBalance : Node → Course → Bool → Option (Node × Bool)
  | .null, c, _ => some (.mk c .null .null 1, true)
  | .mk nc l r h, c, inserted =>
    if strLt c.courseNumber nc.courseNumber then
      match insertRecByBalance l c inserted with
      | none => none
      | some (l', ins) =>
        match deleteRebalance (.mk nc l' r h) with
        | none => none
        | some n => some (n, ins)
    else if strLt nc.courseNumber c.courseNumber then
      match insertRecByBalance r c inserted with
      | none => none
      | some (r', ins) =>
        match deleteRebalance (.mk nc l r' h) with
        | none => none
        | some n => some (n, ins)
    else some (.mk nc l r h, false)

/-! ### Pointer reads that need a present child

The plain functions return `none` when a null pointer is read.  The lists
below name, in execution order, every call and read of `insertRec` and
`deleteRec` that is undefined on an absent node, with the node it is applied
to; a list ends at the first such read that fails. -/

/-- A call or read that goes through a child pointer. -/
inductive Deref where
  | rotateRight (y : Node) : Deref
  | rotateLeft (x : Node) : Deref
  | leftCourse (node : Node) : Deref
  | rightCourse (node : Node) : Deref
  | course (temp : Node) : Deref
deriving DecidableEq

/-- The field `n->left` of a present node. -/
def leftOf : Node → Node
  | .null => .null
  | .mk _ l _ _ => l

/-- The field `n->right` of a present node. -/
def rightOf : Node → Node
  | .null => .null
  | .mk _ _ r _ => r

/-- Whether the pointers read are present: `rotateRight(y)` reads
`y->left->right`, `rotateLeft(x)` reads `x->right->left`, the two tests of
`insertRec` read `node->left->course` and `node->right->course`, and the
two-child case of `deleteRec` reads `temp->course`. -/
def Deref.safe : Deref → Bool
  | .rotateRight y => !isNull y && !isNull (leftOf y)
  | .rotateLeft x => !isNull x && !isNull (rightOf x)
  | .leftCourse node => !isNull node && !isNull (leftOf node)
  | .rightCourse node => !isNull node && !isNull (rightOf node)
  | .course temp => !isNull temp

/-- The reads and rotation calls of the tail of `insertRec` (lines 116-125). -/
def insertRebalanceDerefs (node : Node) (c : Course) : List Deref :=
  match updateHeight node with
  | .null => []
  | .mk nc l r h =>
    if balanceFactor (.mk nc l r h) > 1 then
      .leftCourse (.mk nc l r h) ::
        match l with
        | .null => []
        | .mk lc ll lr lh =>
          if strLt c.courseNumber lc.courseNumber then [.rotateRight (.mk nc l r h)]
          else
            .leftCourse (.mk nc l r h) ::
              if strLt lc.courseNumber c.courseNumber then
                .rotateLeft (.mk lc ll lr lh) ::
                  match rotateLeft (.mk lc ll lr lh) with
                  | none => []
                  | some l' => [.rotateRight (.mk nc l' r h)]
              else []
    else if balanceFactor (.mk nc l r h) < -1 then
      .rightCourse (.mk nc l r h) ::
        match r with
        | .null => []
        | .mk rc rl rr rh =>
          if strLt rc.courseNumber c.courseNumber then [.rotateLeft (.mk nc l r h)]
          else
            .rightCourse (.mk nc l r h) ::
              if strLt c.courseNumber rc.courseNumber then
                .rotateRight (.mk rc rl rr rh) ::
                  match rotateRight (.mk rc rl rr rh) with
                  | none => []
                  | some r' => [.rotateLeft (.mk nc l r' h)]
              else []
    else []

/-- The reads and rotation calls of a whole `insertRec` call. -/
def insertRecDerefs : Node → Course → Bool → List Deref
  | .null, _, _ => []
  | .mk nc l r h, c, inserted =>
    if strLt c.courseNumber nc.courseNumber then
      insertRecDerefs l c inserted ++
        match insertRec l c inserted with
        | none => []
        | some (l', _) => insertRebalanceDerefs (.mk nc l' r h) c
    else if strLt nc.courseNumber c.courseNumber then
      insertRecDerefs r c inserted ++
        match insertRec r c inserted with
        | none => []
        | some (r', _) => insertRebalanceDerefs (.mk nc l r' h) c
    else []

/-- The rotation calls of the tail of `deleteRec` (lines 179-188). -/
def deleteRebalanceDerefs (root : Node) : List Deref :=
  match updateHeight root with
  | .null => []
  | .mk nc l r h =>
    if balanceFactor (.mk nc l r h) > 1 then
      if balanceFactor l ≥ 0 then [.rotateRight (.mk nc l r h)]
      else
        .rotateLeft l ::
          match rotateLeft l with
          | none => []
          | some l' => [.rotateRight (.mk nc l' r h)]
    else if balanceFactor (.mk nc l r h) < -1 then
      if balanceFactor r ≤ 0 then [.rotateLeft (.mk nc l r h)]
      else
        .rotateRight r ::
          match rotateRight r with
          | none => []
          | some r' => [.rotateLeft (.mk nc l r' h)]
    else []

/-- The reads and rotation calls of a whole `deleteRec` call. -/
def deleteRecDerefs : Node → String → Bool → List Deref
  | .null, _, _ => []
  | .mk rc l r h, courseNumber, deleted =>
    if strLt courseNumber rc.courseNumber then
      deleteRecDerefs l courseNumber deleted ++
        match deleteRec l courseNumber deleted with
        | none => []
        | some (l', _) => deleteRebalanceDerefs (.mk rc l' r h)
    else if strLt rc.courseNumber courseNumber then
      deleteRecDerefs r courseNumber deleted ++
        match deleteRec r courseNumber deleted with
        | none => []
        | some (r', _) => deleteRebalanceDerefs (.mk rc l r' h)
    else
      if isNull l || isNull r then
        if isNull (if isNull l then r else l) then []
        else deleteRebalanceDerefs (if isNull l then r else l)
      else
        .course (minValueNode r) ::
          match minValueNode r with
          | .null => []
          | .mk tc _ _ _ =>
            deleteRecDerefs r tc.courseNumber true ++
              match deleteRec r tc.courseNumber true with
              | none => []
              | some (r', _) => deleteRebalanceDerefs (.mk tc l r' h)

/-! ### The original unbalanced tree (`CS300 Project Two ORIGINAL.cpp`) -/

/-- The original `Node`: a course and two children, no stored height. -/
inductive Original.Node where
  | null : Original.Node
  | mk (course : Course) (left right : Original.Node) : Original.Node
deriving DecidableEq

/-- The original class state: `root` and `size` (initialised to 0). -/
structure Original.BinarySearchTree where
  root : Original.Node
  size : Int
deriving DecidableEq

/-- The original constructor. -/
def Original.BinarySearchTree.new : Original.BinarySearchTree := ⟨.null, 0⟩

/-- The loop of the original `Insert` from `currentNode`: go left when the new
key is smaller, right otherwise, and hang a new node on the first null link. -/
def Original.insertLoop : Original.Node → Course → Original.Node
  | .null, aCourse => .mk aCourse .null .null
  | .mk nc l r, aCourse =>
    if strLt aCourse.courseNumber nc.courseNumber then .mk nc (Original.insertLoop l aCourse) r
    else .mk nc l (Original.insertLoop r aCourse)

/-- The original `Insert`: place the node, then `size++`. -/
def Original.Insert (t : Original.BinarySearchTree) (aCourse : Course) :
    Original.BinarySearchTree :=
  ⟨Original.insertLoop t.root aCourse, t.size + 1⟩

/-- The loop of the original `Search`; a default `Course` on a miss. -/
def Original.searchLoop : Original.Node → String → Course
  | .null, _ => Course.empty
  | .mk nc l r, courseId =>
    if nc.courseNumber = courseId then nc
    else if strLt courseId nc.courseNumber then Original.searchLoop l courseId
    else Original.searchLoop r courseId

/-- The original `Search`: no case conversion, the caller does it. -/
def Original.Search (t : Original.BinarySearchTree) (courseId : String) : Course :=
  Original.searchLoop t.root courseId

/-- The original `inOrder`: the records in the order their lines are printed. -/
def Original.inOrder : Original.Node → List Course
  | .null => []
  | .mk c l r => Original.inOrder l ++ c :: Original.inOrder r

/-- The original `InOrder`. -/
def Original.InOrder (t : Original.BinarySearchTree) : List Course :=
  Original.inOrder t.root

/-- The original `Size`. -/
def Original.Size (t : Original.BinarySearchTree) : Int := t.size

/-- Calls the original `Insert` on each record of a list, in order. -/
def Original.insertAll (t : Original.BinarySearchTree) :
    List Course → Original.BinarySearchTree
  | [] => t
  | c :: cs => Original.insertAll (Original.Insert t c) cs

/-! ## Order on keys -/

theorem strLt_iff (a b : String) : strLt a b = true ↔ a < b := by
  simp [strLt, String.lt_iff_toList_lt]

theorem strLt_false_iff (a b : String) : strLt a b = false ↔ ¬ a < b := by
  rw [← strLt_iff]; simp

/-! ## Rotations and rebalancing keep the in-order sequence -/

theorem rotateRight_inOrder {t t' : Node} (h : rotateRight t = some t') :
    inOrderRec t' = inOrderRec t := by
  cases t with
  | null => simp [rotateRight] at h
  | mk yc l yr yh =>
    cases l with
    | null => simp [rotateRight] at h
    | mk xc xl xr xh =>
      simp only [rotateRight, updateHeight, Option.some.injEq] at h
      subst h
      simp [inOrderRec]

theorem rotateLeft_inOrder {t t' : Node} (h : rotateLeft t = some t') :
    inOrderRec t' = inOrderRec t := by
  cases t with
  | null => simp [rotateLeft] at h
  | mk xc xl r xh =>
    cases r with
    | null => simp [rotateLeft] at h
    | mk yc yl yr yh =>
      simp only [rotateLeft, updateHeight, Option.some.injEq] at h
      subst h
      simp [inOrderRec]

theorem updateHeight_inOrder (t : Node) : inOrderRec (updateHeight t) = inOrderRec t := by
  cases t <;> simp [updateHeight, inOrderRec]

theorem insertRebalance_inOrder {t t' : Node} {c : Course}
    (h : insertRebalance t c = some t') : inOrderRec t' = inOrderRec t := by
  cases t with
  | null => simp [insertRebalance, updateHeight] at h
  | mk nc l r hh =>
    simp only [insertRebalance, updateHeight] at h
    split_ifs at h with h1 h2
    · cases l with
      | null => simp at h
      | mk lc ll lr lh =>
        simp only at h
        split_ifs at h with h3 h4
        · rw [rotateRight_inOrder h]; simp [inOrderRec]
        · cases hl : rotateLeft (Node.mk lc ll lr lh) with
          | none => simp [hl] at h
          | some l' =>
            simp only [hl] at h
            rw [rotateRight_inOrder h]
            simp [inOrderRec, rotateLeft_inOrder hl]
        · simp only [Option.some.injEq] at h
          subst h; simp [inOrderRec]
    · cases r with
      | null => simp at h
      | mk rc rl rr rh =>
        simp only at h
        split_ifs at h with h3 h4
        · rw [rotateLeft_inOrder h]; simp [inOrderRec]
        · cases hr : rotateRight (Node.mk rc rl rr rh) with
          | none => simp [hr] at h
          | some r' =>
            simp only [hr] at h
            rw [rotateLeft_inOrder h]
            simp [inOrderRec, rotateRight_inOrder hr]
        · simp only [Option.some.injEq] at h
          subst h; simp [inOrderRec]
    · simp only [Option.some.injEq] at h
      subst h; simp [inOrderRec]

theorem deleteRebalance_inOrder {t t' : Node}
    (h : deleteRebalance t = some t') : inOrderRec t' = inOrderRec t := by
  cases t with
  | null => simp [deleteRebalance, updateHeight] at h
  | mk nc l r hh =>
    simp only [deleteRebalance, updateHeight] at h
    split_ifs at h with h1 h2 h3 h4
    · rw [rotateRight_inOrder h]; simp [inOrderRec]
    · cases hl : rotateLeft l with
      | none => simp [hl] at h
      | some l' =>
        simp only [hl] at h
        rw [rotateRight_inOrder h]
        simp [inOrderRec, rotateLeft_inOrder hl]
    · rw [rotateLeft_inOrder h]; simp [inOrderRec]
    · cases hr : rotateRight r with
      | none => simp [hr] at h
      | some r' =>
        simp only [hr] at h
        rw [rotateLeft_inOrder h]
        simp [inOrderRec, rotateRight_inOrder hr]
    · simp only [Option.some.injEq] at h
      subst h; simp [inOrderRec]

/-! ## Search-tree order -/

theorem ordered_null : Ordered Node.null := by
  simp [Ordered, inOrderRec]

theorem ordered_mk (c : Course) (l r : Node) (h : Int) :
    Ordered (Node.mk c l r h) ↔
      Ordered l ∧ Ordered r ∧
      (∀ x ∈ inOrderRec l, x.courseNumber < c.courseNumber) ∧
      (∀ x ∈ inOrderRec r, c.courseNumber < x.courseNumber) := by
  simp only [Ordered, inOrderRec, List.pairwise_append, List.pairwise_cons, List.mem_cons]
  constructor
  · rintro ⟨hl, ⟨hr1, hr2⟩, hlr⟩
    exact ⟨hl, hr2, fun x hx => hlr x hx c (Or.inl rfl), hr1⟩
  · rintro ⟨hl, hr, h1, h2⟩
    refine ⟨hl, ⟨h2, hr⟩, ?_⟩
    intro a ha b hb
    rcases hb with rfl | hb
    · exact h1 a ha
    · exact lt_trans (h1 a ha) (h2 b hb)

theorem ordered_of_inOrder_eq {t t' : Node} (h : inOrderRec t' = inOrderRec t)
    (ho : Ordered t) : Ordered t' := by
  unfold Ordered at *
  rw [h]; exact ho

theorem mem_keys {t : Node} {k : String} :
    k ∈ keys t ↔ ∃ x ∈ inOrderRec t, x.courseNumber = k := by
  simp [keys]

theorem keys_mk (c : Course) (l r : Node) (h : Int) :
    keys (Node.mk c l r h) = keys l ++ c.courseNumber :: keys r := by
  simp [keys, inOrderRec]

/-- The in-order effect of `insertRec`: either the record is placed between the
smaller and the larger records, or the key is already stored and the sequence
is kept. -/
theorem insertRec_inOrder (c : Course) :
    ∀ (t : Node) (d : Bool) (t' : Node) (b : Bool), Ordered t →
      insertRec t c d = some (t', b) →
      (b = true ∧ ∃ pre post, inOrderRec t = pre ++ post ∧
          inOrderRec t' = pre ++ c :: post ∧
          (∀ x ∈ pre, x.courseNumber < c.courseNumber) ∧
          (∀ x ∈ post, c.courseNumber < x.courseNumber)) ∨
      (b = false ∧ inOrderRec t' = inOrderRec t ∧ c.courseNumber ∈ keys t) := by
  intro t
  induction t with
  | null =>
    intro d t' b _ h
    simp only [insertRec, Option.some.injEq, Prod.mk.injEq] at h
    obtain ⟨rfl, rfl⟩ := h
    exact Or.inl ⟨rfl, [], [], by simp [inOrderRec]⟩
  | mk nc l r hh ihl ihr =>
    intro d t' b ho h
    rw [ordered_mk] at ho
    obtain ⟨hol, hor, hlt, hgt⟩ := ho
    simp only [insertRec, strLt_iff] at h
    split_ifs at h with h1 h2
    · cases hl : insertRec l c d with
      | none => simp [hl] at h
      | some p =>
        obtain ⟨l', ins⟩ := p
        simp only [hl] at h
        cases hb : insertRebalance (Node.mk nc l' r hh) c with
        | none => simp [hb] at h
        | some n =>
          simp only [hb, Option.some.injEq, Prod.mk.injEq] at h
          obtain ⟨rfl, rfl⟩ := h
          have hn := insertRebalance_inOrder hb
          rcases ihl d l' ins hol hl with ⟨hi, pre, post, e1, e2, hp, hq⟩ | ⟨hi, e, hm⟩
          · refine Or.inl ⟨hi, pre, post ++ nc :: inOrderRec r, ?_, ?_, hp, ?_⟩
            · simp [inOrderRec, e1]
            · rw [hn]; simp [inOrderRec, e2]
            · intro x hx
              rcases List.mem_append.1 hx with hx | hx
              · exact hq x hx
              · rcases List.mem_cons.1 hx with rfl | hx
                · exact h1
                · exact lt_trans h1 (hgt x hx)
          · refine Or.inr ⟨hi, ?_, ?_⟩
            · rw [hn]; simp [inOrderRec, e]
            · rw [keys_mk]; exact List.mem_append_left _ hm
    · cases hr : insertRec r c d with
      | none => simp [hr] at h
      | some p =>
        obtain ⟨r', ins⟩ := p
        simp only [hr] at h
        cases hb : insertRebalance (Node.mk nc l r' hh) c with
        | none => simp [hb] at h
        | some n =>
          simp only [hb, Option.some.injEq, Prod.mk.injEq] at h
          obtain ⟨rfl, rfl⟩ := h
          have hn := insertRebalance_inOrder hb
          rcases ihr d r' ins hor hr with ⟨hi, pre, post, e1, e2, hp, hq⟩ | ⟨hi, e, hm⟩
          · refine Or.inl ⟨hi, inOrderRec l ++ nc :: pre, post, ?_, ?_, ?_, hq⟩
            · simp [inOrderRec, e1]
            · rw [hn]; simp [inOrderRec, e2]
            · intro x hx
              rcases List.mem_append.1 hx with hx | hx
              · exact lt_trans (hlt x hx) h2
              · rcases List.mem_cons.1 hx with rfl | hx
                · exact h2
                · exact hp x hx
          · refine Or.inr ⟨hi, ?_, ?_⟩
            · rw [hn]; simp [inOrderRec, e]
            · rw [keys_mk]
              exact List.mem_append_right _ (List.mem_cons_of_mem _ hm)
    · simp only [Option.some.injEq, Prod.mk.injEq] at h
      obtain ⟨rfl, rfl⟩ := h
      refine Or.inr ⟨rfl, rfl, ?_⟩
      have : c.courseNumber = nc.courseNumber := by
        rcases lt_trichotomy c.courseNumber nc.courseNumber with h3 | h3 | h3
        · exact absurd h3 h1
        · exact h3
        · exact absurd h3 h2
      rw [keys_mk, this]
      simp

/-- The leftmost node holds the first record of the in-order sequence. -/
theorem minValueNode_inOrder :
    ∀ (t : Node) (c : Course) (l r : Node) (h : Int), t = Node.mk c l r h →
      ∃ tc tr th, minValueNode t = Node.mk tc Node.null tr th ∧
        ∃ rest, inOrderRec t = tc :: rest := by
  intro t
  induction t with
  | null => intro c l r h e; cases e
  | mk nc nl nr nh ihl _ =>
    intro c l r h _
    cases nl with
    | null => exact ⟨nc, nr, nh, by simp [minValueNode], inOrderRec nr, by simp [inOrderRec]⟩
    | mk lc ll lr lh =>
      obtain ⟨tc, tr, th, e1, rest, e2⟩ := ihl lc ll lr lh rfl
      refine ⟨tc, tr, th, by simp [minValueNode, e1], rest ++ nc :: inOrderRec nr, ?_⟩
      simp only [inOrderRec] at e2 ⊢
      rw [e2]; simp

/-- One unfolding of `deleteRec` at a node. -/
theorem deleteRec_mk (rc : Course) (l r : Node) (h : Int) (k : String) (d : Bool) :
    deleteRec (Node.mk rc l r h) k d =
      if strLt k rc.courseNumber then
        match deleteRec l k d with
        | none => none
        | some (l', d') =>
          match deleteRebalance (Node.mk rc l' r h) with
          | none => none
          | some n => some (n, d')
      else if strLt rc.courseNumber k then
        match deleteRec r k d with
        | none => none
        | some (r', d') =>
          match deleteRebalance (Node.mk rc l r' h) with
          | none => none
          | some n => some (n, d')
      else
        if isNull l || isNull r then
          if isNull (if isNull l then r else l) then some (Node.null, true)
          else
            match deleteRebalance (if isNull l then r else l) with
            | none => none
            | some n => some (n, true)
        else
          match minValueNode r with
          | Node.null => none
          | Node.mk tc _ _ _ =>
            match deleteRec r tc.courseNumber true with
            | none => none
            | some (r', d') =>
              match deleteRebalance (Node.mk tc l r' h) with
              | none => none
              | some n => some (n, d') := by
  rw [deleteRec]

theorem filter_ne_self {L : List Course} {k : String}
    (h : ∀ x ∈ L, x.courseNumber ≠ k) :
    L.filter (fun x => decide (x.courseNumber ≠ k)) = L := by
  rw [List.filter_eq_self]
  intro x hx
  simpa using h x hx

theorem filter_ne_node {L R : List Course} {c : Course} {k : String}
    (hL : ∀ x ∈ L, x.courseNumber < c.courseNumber)
    (hR : ∀ x ∈ R, c.courseNumber < x.courseNumber) (hk : c.courseNumber = k) :
    (L ++ c :: R).filter (fun x => decide (x.courseNumber ≠ k)) = L ++ R := by
  rw [List.filter_append, List.filter_cons]
  have h1 : L.filter (fun x => decide (x.courseNumber ≠ k)) = L :=
    filter_ne_self (fun x hx => by rw [← hk]; exact ne_of_lt (hL x hx))
  have h2 : R.filter (fun x => decide (x.courseNumber ≠ k)) = R :=
    filter_ne_self (fun x hx => by rw [← hk]; exact ne_of_gt (hR x hx))
  rw [h1, h2]
  simp [hk]

/-- The in-order effect of `deleteRec`: the record with the given key is
dropped, every other record is kept in place; the flag is set exactly when the
key is stored. -/
theorem deleteRec_inOrder :
    ∀ (t : Node) (k : String) (d : Bool) (t' : Node) (b : Bool), Ordered t →
      deleteRec t k d = some (t', b) →
      inOrderRec t' = (inOrderRec t).filter (fun x => decide (x.courseNumber ≠ k)) ∧
      b = (d || decide (k ∈ keys t)) := by
  intro t
  induction t with
  | null =>
    intro k d t' b _ h
    simp only [deleteRec, Option.some.injEq, Prod.mk.injEq] at h
    obtain ⟨rfl, rfl⟩ := h
    simp [inOrderRec, keys]
  | mk rc l r hh ihl ihr =>
    intro k d t' b ho h
    have ho' := ho
    rw [ordered_mk] at ho
    obtain ⟨hol, hor, hlt, hgt⟩ := ho
    by_cases h1 : k < rc.courseNumber
    · have hnr : ∀ x ∈ inOrderRec r, x.courseNumber ≠ k :=
        fun x hx => ne_of_gt (lt_trans h1 (hgt x hx))
      rw [deleteRec_mk] at h
      simp only [strLt_iff, h1, if_true] at h
      cases hl : deleteRec l k d with
      | none => simp [hl] at h
      | some p =>
        obtain ⟨l', d'⟩ := p
        simp only [hl] at h
        cases hb : deleteRebalance (Node.mk rc l' r hh) with
        | none => simp [hb] at h
        | some n =>
          simp only [hb, Option.some.injEq, Prod.mk.injEq] at h
          obtain ⟨rfl, rfl⟩ := h
          obtain ⟨e, hd⟩ := ihl k d l' d' hol hl
          constructor
          · rw [deleteRebalance_inOrder hb]
            simp only [inOrderRec, List.filter_append, List.filter_cons, e]
            rw [filter_ne_self hnr]
            simp [ne_of_gt h1]
          · rw [hd, keys_mk]
            have : k ∉ keys r := by
              intro hm
              obtain ⟨x, hx, he⟩ := mem_keys.1 hm
              exact hnr x hx he
            simp [this, ne_of_lt h1]
    · by_cases h2 : rc.courseNumber < k
      · have hnl : ∀ x ∈ inOrderRec l, x.courseNumber ≠ k :=
          fun x hx => ne_of_lt (lt_trans (hlt x hx) h2)
        rw [deleteRec_mk] at h
        simp only [strLt_iff, h1, h2, if_true, if_false] at h
        cases hr : deleteRec r k d with
        | none => simp [hr] at h
        | some p =>
          obtain ⟨r', d'⟩ := p
          simp only [hr] at h
          cases hb : deleteRebalance (Node.mk rc l r' hh) with
          | none => simp [hb] at h
          | some n =>
            simp only [hb, Option.some.injEq, Prod.mk.injEq] at h
            obtain ⟨rfl, rfl⟩ := h
            obtain ⟨e, hd⟩ := ihr k d r' d' hor hr
            constructor
            · rw [deleteRebalance_inOrder hb]
              simp only [inOrderRec, List.filter_append, List.filter_cons, e]
              rw [filter_ne_self hnl]
              simp [ne_of_lt h2]
            · rw [hd, keys_mk]
              have : k ∉ keys l := by
                intro hm
                obtain ⟨x, hx, he⟩ := mem_keys.1 hm
                exact hnl x hx he
              simp [this, ne_of_gt h2]
      · have hk : rc.courseNumber = k := by
          rcases lt_trichotomy k rc.courseNumber with h3 | h3 | h3
          · exact absurd h3 h1
          · exact h3.symm
          · exact absurd h3 h2
        have hfil := filter_ne_node hlt hgt hk
        have hmem : k ∈ keys (Node.mk rc l r hh) := by
          rw [keys_mk, hk]; simp
        simp only [inOrderRec, hmem, decide_True, Bool.or_true]
        rw [hfil]
        cases l with
        | null =>
          cases r with
          | null =>
            rw [deleteRec_mk] at h
            simp [isNull, strLt_iff, h1, h2] at h
            obtain ⟨rfl, rfl⟩ := h
            simp [inOrderRec]
          | mk c2 rl rr rh =>
            rw [deleteRec_mk] at h
            simp only [isNull, strLt_iff, h1, h2, if_false, if_true,
              Bool.true_or, Bool.false_eq_true] at h
            cases hb : deleteRebalance (Node.mk c2 rl rr rh) with
            | none => simp [hb] at h
            | some n =>
              simp only [hb, Option.some.injEq, Prod.mk.injEq] at h
              obtain ⟨rfl, rfl⟩ := h
              simp [deleteRebalance_inOrder hb, inOrderRec]
        | mk lc ll lr lh =>
          cases r with
          | null =>
            rw [deleteRec_mk] at h
            simp only [isNull, strLt_iff, h1, h2, if_false, if_true,
              Bool.or_true, Bool.false_eq_true] at h
            cases hb : deleteRebalance (Node.mk lc ll lr lh) with
            | none => simp [hb] at h
            | some n =>
              simp only [hb, Option.some.injEq, Prod.mk.injEq] at h
              obtain ⟨rfl, rfl⟩ := h
              simp [deleteRebalance_inOrder hb, inOrderRec]
          | mk c2 rl rr rh =>
            obtain ⟨tc, tr, th, e1, rest, e2⟩ := minValueNode_inOrder _ c2 rl rr rh rfl
            rw [deleteRec_mk] at h
            simp only [isNull, strLt_iff, h1, h2, if_false, e1, Bool.or_self,
              Bool.false_eq_true] at h
            cases hr : deleteRec (Node.mk c2 rl rr rh) tc.courseNumber true with
            | none => simp [hr] at h
            | some p =>
              obtain ⟨r', d'⟩ := p
              simp only [hr] at h
              cases hb : deleteRebalance (Node.mk tc (Node.mk lc ll lr lh) r' hh) with
              | none => simp [hb] at h
              | some n =>
                simp only [hb, Option.some.injEq, Prod.mk.injEq] at h
                obtain ⟨rfl, rfl⟩ := h
                obtain ⟨e, hd⟩ := ihr tc.courseNumber true r' d' hor hr
                refine ⟨?_, by simpa using hd⟩
                rw [deleteRebalance_inOrder hb]
                have hrest : ∀ x ∈ rest, x.courseNumber ≠ tc.courseNumber := by
                  intro x hx
                  have hp : (tc :: rest).Pairwise
                      (fun a b => a.courseNumber < b.courseNumber) := by
                    rw [← e2]; exact hor
                  exact ne_of_gt ((List.pairwise_cons.1 hp).1 x hx)
                simp only [inOrderRec] at e e2 ⊢
                rw [e, e2, List.filter_cons, filter_ne_self hrest]
                simp

/-! ## Balance -/

theorem avl_mk (c : Course) (l r : Node) (h : Int) :
    AVL (Node.mk c l r h) ↔
      AVL l ∧ AVL r ∧ h = 1 + max (nodeHeight l) (nodeHeight r) ∧
        -1 ≤ nodeHeight l - nodeHeight r ∧ nodeHeight l - nodeHeight r ≤ 1 :=
  Iff.rfl

theorem nodeHeight_null : nodeHeight Node.null = 0 := rfl

theorem nodeHeight_mk (c : Course) (l r : Node) (h : Int) :
    nodeHeight (Node.mk c l r h) = h := rfl

theorem nodeHeight_nonneg : ∀ t : Node, AVL t → 0 ≤ nodeHeight t := by
  intro t
  induction t with
  | null => intro _; simp [nodeHeight_null]
  | mk c l r h ihl ihr =>
    intro ha
    obtain ⟨hl, hr, hh, _, _⟩ := (avl_mk c l r h).1 ha
    have := ihl hl
    have := ihr hr
    rw [nodeHeight_mk]
    omega

theorem nodeHeight_eq_height : ∀ t : Node, AVL t → nodeHeight t = (height t : Int) := by
  intro t
  induction t with
  | null => intro _; simp [nodeHeight, height]
  | mk c l r h ihl ihr =>
    intro ha
    obtain ⟨hl, hr, hh, _, _⟩ := (avl_mk c l r h).1 ha
    have e1 := ihl hl
    have e2 := ihr hr
    simp only [nodeHeight_mk, height]
    rw [hh, e1, e2]
    push_cast
    rfl

theorem heightBalanced_of_avl : ∀ t : Node, AVL t → HeightBalanced t := by
  intro t
  induction t with
  | null => intro _; trivial
  | mk c l r h ihl ihr =>
    intro ha
    obtain ⟨hl, hr, hh, h1, h2⟩ := (avl_mk c l r h).1 ha
    refine ⟨ihl hl, ihr hr, ?_⟩
    rw [← nodeHeight_eq_height l hl, ← nodeHeight_eq_height r hr]
    exact abs_le.2 ⟨h1, h2⟩

theorem insertRebalance_left {c nc : Course} {l l' r : Node} (h : Int)
    (hl : AVL l) (hl' : AVL l') (hr : AVL r)
    (hc : c.courseNumber < nc.courseNumber) (hg : Grown c l l')
    (hb1 : -1 ≤ nodeHeight l - nodeHeight r) (hb2 : nodeHeight l - nodeHeight r ≤ 1) :
    ∃ t', insertRebalance (Node.mk nc l' r h) c = some t' ∧ AVL t' ∧
      Grown c (Node.mk nc l r (1 + max (nodeHeight l) (nodeHeight r))) t' := by
  have nl := nodeHeight_nonneg l hl
  have nl' := nodeHeight_nonneg l' hl'
  have nr := nodeHeight_nonneg r hr
  simp only [insertRebalance, updateHeight, balanceFactor]
  by_cases hbf : nodeHeight l' - nodeHeight r > 1
  · rw [if_pos hbf]
    cases l' with
    | null => rw [nodeHeight_null] at hbf; omega
    | mk lc ll lr lh =>
      obtain ⟨hll, hlr, hlh, hlb1, hlb2⟩ := (avl_mk lc ll lr lh).1 hl'
      have nll := nodeHeight_nonneg ll hll
      have nlr := nodeHeight_nonneg lr hlr
      rw [nodeHeight_mk] at hbf nl'
      have hheavy : Heavy c (Node.mk lc ll lr lh) := by
        rcases hg with hg | ⟨hg, hg' | hg'⟩
        · rw [nodeHeight_mk] at hg; omega
        · subst hg'; rw [nodeHeight_mk, nodeHeight_null] at hg; omega
        · exact hg'
      have hgh : lh = nodeHeight l + 1 := by
        rcases hg with hg | ⟨hg, _⟩
        · rw [nodeHeight_mk] at hg; omega
        · rw [nodeHeight_mk] at hg; exact hg
      rcases hheavy with ⟨hk, hh1⟩ | ⟨hk, hh1⟩
      · simp only [strLt_iff, hk, if_true, rotateRight, updateHeight]
        refine ⟨_, rfl, ?_, ?_⟩
        · rw [avl_mk, avl_mk]
          refine ⟨hll, ⟨hlr, hr, rfl, ?_, ?_⟩, rfl, ?_, ?_⟩ <;>
            (try simp only [nodeHeight_mk]) <;> omega
        · left; simp only [nodeHeight_mk]; omega
      · have hk' : ¬ c.courseNumber < lc.courseNumber := lt_asymm hk
        simp only [strLt_iff, hk, hk', if_true, if_false]
        cases lr with
        | null => rw [nodeHeight_null] at hh1; omega
        | mk mc ml mr mh =>
          obtain ⟨hml, hmr, hmh, hmb1, hmb2⟩ := (avl_mk mc ml mr mh).1 hlr
          have nml := nodeHeight_nonneg ml hml
          have nmr := nodeHeight_nonneg mr hmr
          simp only [nodeHeight_mk] at hh1 hlh hlb1 hlb2
          simp only [rotateLeft, rotateRight, updateHeight]
          refine ⟨_, rfl, ?_, ?_⟩
          · rw [avl_mk, avl_mk, avl_mk]
            refine ⟨⟨hll, hml, rfl, ?_, ?_⟩, ⟨hmr, hr, rfl, ?_, ?_⟩, rfl, ?_, ?_⟩ <;>
              (try simp only [nodeHeight_mk]) <;> omega
          · left; simp only [nodeHeight_mk]; omega
  · rw [if_neg hbf]
    have hbf2 : ¬ nodeHeight l' - nodeHeight r < -1 := by
      rcases hg with hg | ⟨hg, _⟩ <;> omega
    rw [if_neg hbf2]
    refine ⟨_, rfl, ?_, ?_⟩
    · rw [avl_mk]
      refine ⟨hl', hr, rfl, ?_, ?_⟩ <;> omega
    · rcases hg with hg | ⟨hg, _⟩
      · left; simp only [nodeHeight_mk]; omega
      · by_cases hcase : nodeHeight l' = nodeHeight r + 1
        · right
          refine ⟨by simp only [nodeHeight_mk]; omega, Or.inr (Or.inl ⟨hc, hcase⟩)⟩
        · left; simp only [nodeHeight_mk]; omega

theorem insertRebalance_right {c nc : Course} {l r r' : Node} (h : Int)
    (hl : AVL l) (hr : AVL r) (hr' : AVL r')
    (hc : nc.courseNumber < c.courseNumber) (hg : Grown c r r')
    (hb1 : -1 ≤ nodeHeight l - nodeHeight r) (hb2 : nodeHeight l - nodeHeight r ≤ 1) :
    ∃ t', insertRebalance (Node.mk nc l r' h) c = some t' ∧ AVL t' ∧
      Grown c (Node.mk nc l r (1 + max (nodeHeight l) (nodeHeight r))) t' := by
  have nl := nodeHeight_nonneg l hl
  have nr := nodeHeight_nonneg r hr
  have nr' := nodeHeight_nonneg r' hr'
  simp only [insertRebalance, updateHeight, balanceFactor]
  have hbf : ¬ nodeHeight l - nodeHeight r' > 1 := by
    rcases hg with hg | ⟨hg, _⟩ <;> omega
  rw [if_neg hbf]
  by_cases hbf2 : nodeHeight l - nodeHeight r' < -1
  · rw [if_pos hbf2]
    cases r' with
    | null => rw [nodeHeight_null] at hbf2; omega
    | mk rc rl rr rh =>
      obtain ⟨hrl, hrr, hrh, hrb1, hrb2⟩ := (avl_mk rc rl rr rh).1 hr'
      have nrl := nodeHeight_nonneg rl hrl
      have nrr := nodeHeight_nonneg rr hrr
      rw [nodeHeight_mk] at hbf2 nr'
      have hheavy : Heavy c (Node.mk rc rl rr rh) := by
        rcases hg with hg | ⟨hg, hg' | hg'⟩
        · rw [nodeHeight_mk] at hg; omega
        · subst hg'; rw [nodeHeight_mk, nodeHeight_null] at hg; omega
        · exact hg'
      have hgh : rh = nodeHeight r + 1 := by
        rcases hg with hg | ⟨hg, _⟩
        · rw [nodeHeight_mk] at hg; omega
        · rw [nodeHeight_mk] at hg; exact hg
      rcases hheavy with ⟨hk, hh1⟩ | ⟨hk, hh1⟩
      · have hk' : ¬ rc.courseNumber < c.courseNumber := lt_asymm hk
        simp only [strLt_iff, hk, hk', if_true, if_false]
        cases rl with
        | null => rw [nodeHeight_null] at hh1; omega
        | mk mc ml mr mh =>
          obtain ⟨hml, hmr, hmh, hmb1, hmb2⟩ := (avl_mk mc ml mr mh).1 hrl
          have nml := nodeHeight_nonneg ml hml
          have nmr := nodeHeight_nonneg mr hmr
          simp only [nodeHeight_mk] at hh1 hrh hrb1 hrb2
          simp only [rotateLeft, rotateRight, updateHeight]
          refine ⟨_, rfl, ?_, ?_⟩
          · rw [avl_mk, avl_mk, avl_mk]
            refine ⟨⟨hl, hml, rfl, ?_, ?_⟩, ⟨hmr, hrr, rfl, ?_, ?_⟩, rfl, ?_, ?_⟩ <;>
              (try simp only [nodeHeight_mk]) <;> omega
          · left; simp only [nodeHeight_mk]; omega
      · simp only [strLt_iff, hk, if_true, rotateLeft, updateHeight]
        refine ⟨_, rfl, ?_, ?_⟩
        · rw [avl_mk, avl_mk]
          refine ⟨⟨hl, hrl, rfl, ?_, ?_⟩, hrr, rfl, ?_, ?_⟩ <;>
            (try simp only [nodeHeight_mk]) <;> omega
        · left; simp only [nodeHeight_mk]; omega
  · rw [if_neg hbf2]
    refine ⟨_, rfl, ?_, ?_⟩
    · rw [avl_mk]
      refine ⟨hl, hr', rfl, ?_, ?_⟩ <;> omega
    · rcases hg with hg | ⟨hg, _⟩
      · left; simp only [nodeHeight_mk]; omega
      · by_cases hcase : nodeHeight r' = nodeHeight l + 1
        · right
          refine ⟨by simp only [nodeHeight_mk]; omega, Or.inr (Or.inr ⟨hc, hcase⟩)⟩
        · left; simp only [nodeHeight_mk]; omega

/-- On a tree satisfying the height invariant `insertRec` returns a tree that
satisfies it again, whose height is kept or grows by one. -/
theorem insertRec_avl (c : Course) :
    ∀ (t : Node) (d : Bool), AVL t →
      ∃ t' b, insertRec t c d = some (t', b) ∧ AVL t' ∧ Grown c t t' := by
  intro t
  induction t with
  | null =>
    intro d _
    refine ⟨_, _, rfl, ?_, ?_⟩
    · rw [avl_mk]
      simp [AVL, nodeHeight_null]
    · right
      exact ⟨by simp [nodeHeight_null, nodeHeight_mk], Or.inl rfl⟩
  | mk nc l r hh ihl ihr =>
    intro d ha
    obtain ⟨hl, hr, hhh, hb1, hb2⟩ := (avl_mk nc l r hh).1 ha
    subst hhh
    simp only [insertRec, strLt_iff]
    by_cases h1 : c.courseNumber < nc.courseNumber
    · rw [if_pos h1]
      obtain ⟨l', b, e, hl', hg⟩ := ihl d hl
      obtain ⟨t', e', ht', hg'⟩ :=
        insertRebalance_left (1 + max (nodeHeight l) (nodeHeight r)) hl hl' hr h1 hg hb1 hb2
      exact ⟨t', b, by simp only [e, e'], ht', hg'⟩
    · rw [if_neg h1]
      by_cases h2 : nc.courseNumber < c.courseNumber
      · rw [if_pos h2]
        obtain ⟨r', b, e, hr', hg⟩ := ihr d hr
        obtain ⟨t', e', ht', hg'⟩ :=
          insertRebalance_right (1 + max (nodeHeight l) (nodeHeight r)) hl hr hr' h2 hg hb1 hb2
        exact ⟨t', b, by simp only [e, e'], ht', hg'⟩
      · rw [if_neg h2]
        exact ⟨_, _, rfl, ha, Or.inl rfl⟩

/-- The rebalancing step of `deleteRec` on a node whose subtrees satisfy the
invariant and differ in height by at most two: it succeeds, restores the
invariant, loses at most one level, and leaves an already balanced node as it is
(up to the recomputed height). -/
theorem deleteRebalance_avl (c : Course) {l r : Node} (h : Int)
    (hl : AVL l) (hr : AVL r)
    (hb1 : -2 ≤ nodeHeight l - nodeHeight r) (hb2 : nodeHeight l - nodeHeight r ≤ 2) :
    ∃ t', deleteRebalance (Node.mk c l r h) = some t' ∧ AVL t' ∧
      nodeHeight t' ≤ 1 + max (nodeHeight l) (nodeHeight r) ∧
      max (nodeHeight l) (nodeHeight r) ≤ nodeHeight t' ∧
      ((-1 ≤ nodeHeight l - nodeHeight r ∧ nodeHeight l - nodeHeight r ≤ 1) →
        t' = Node.mk c l r (1 + max (nodeHeight l) (nodeHeight r))) := by
  have nl := nodeHeight_nonneg l hl
  have nr := nodeHeight_nonneg r hr
  simp only [deleteRebalance, updateHeight, balanceFactor]
  by_cases hbf : nodeHeight l - nodeHeight r > 1
  · rw [if_pos hbf]
    cases l with
    | null => rw [nodeHeight_null] at hbf; omega
    | mk lc ll lr lh =>
      obtain ⟨hll, hlr, hlh, hlb1, hlb2⟩ := (avl_mk lc ll lr lh).1 hl
      have nll := nodeHeight_nonneg ll hll
      have nlr := nodeHeight_nonneg lr hlr
      simp only [nodeHeight_mk, balanceFactor] at *
      by_cases hc : nodeHeight ll - nodeHeight lr ≥ 0
      · rw [if_pos hc]
        simp only [rotateRight, updateHeight]
        refine ⟨_, rfl, ?_, ?_, ?_, ?_⟩
        · rw [avl_mk, avl_mk]
          refine ⟨hll, ⟨hlr, hr, rfl, ?_, ?_⟩, rfl, ?_, ?_⟩ <;>
            (try simp only [nodeHeight_mk]) <;> omega
        · simp only [nodeHeight_mk]; omega
        · simp only [nodeHeight_mk]; omega
        · intro hbal; omega
      · rw [if_neg hc]
        cases lr with
        | null => rw [nodeHeight_null] at hc; omega
        | mk mc ml mr mh =>
          obtain ⟨hml, hmr, hmh, hmb1, hmb2⟩ := (avl_mk mc ml mr mh).1 hlr
          have nml := nodeHeight_nonneg ml hml
          have nmr := nodeHeight_nonneg mr hmr
          simp only [nodeHeight_mk] at hc hlh hlb1 hlb2
          simp only [rotateLeft, rotateRight, updateHeight]
          refine ⟨_, rfl, ?_, ?_, ?_, ?_⟩
          · rw [avl_mk, avl_mk, avl_mk]
            refine ⟨⟨hll, hml, rfl, ?_, ?_⟩, ⟨hmr, hr, rfl, ?_, ?_⟩, rfl, ?_, ?_⟩ <;>
              (try simp only [nodeHeight_mk]) <;> omega
          · simp only [nodeHeight_mk]; omega
          · simp only [nodeHeight_mk]; omega
          · intro hbal; omega
  · rw [if_neg hbf]
    by_cases hbf2 : nodeHeight l - nodeHeight r < -1
    · rw [if_pos hbf2]
      cases r with
      | null => rw [nodeHeight_null] at hbf2; omega
      | mk rc rl rr rh =>
        obtain ⟨hrl, hrr, hrh, hrb1, hrb2⟩ := (avl_mk rc rl rr rh).1 hr
        have nrl := nodeHeight_nonneg rl hrl
        have nrr := nodeHeight_nonneg rr hrr
        simp only [nodeHeight_mk, balanceFactor] at *
        by_cases hc : nodeHeight rl - nodeHeight rr ≤ 0
        · rw [if_pos hc]
          simp only [rotateLeft, updateHeight]
          refine ⟨_, rfl, ?_, ?_, ?_, ?_⟩
          · rw [avl_mk, avl_mk]
            refine ⟨⟨hl, hrl, rfl, ?_, ?_⟩, hrr, rfl, ?_, ?_⟩ <;>
              (try simp only [nodeHeight_mk]) <;> omega
          · simp only [nodeHeight_mk]; omega
          · simp only [nodeHeight_mk]; omega
          · intro hbal; omega
        · rw [if_neg hc]
          cases rl with
          | null => rw [nodeHeight_null] at hc; omega
          | mk mc ml mr mh =>
            obtain ⟨hml, hmr, hmh, hmb1, hmb2⟩ := (avl_mk mc ml mr mh).1 hrl
            have nml := nodeHeight_nonneg ml hml
            have nmr := nodeHeight_nonneg mr hmr
            simp only [nodeHeight_mk] at hc hrh hrb1 hrb2
            simp only [rotateLeft, rotateRight, updateHeight]
            refine ⟨_, rfl, ?_, ?_, ?_, ?_⟩
            · rw [avl_mk, avl_mk, avl_mk]
              refine ⟨⟨hl, hml, rfl, ?_, ?_⟩, ⟨hmr, hrr, rfl, ?_, ?_⟩, rfl, ?_, ?_⟩ <;>
                (try simp only [nodeHeight_mk]) <;> omega
            · simp only [nodeHeight_mk]; omega
            · simp only [nodeHeight_mk]; omega
            · intro hbal; omega
    · rw [if_neg hbf2]
      refine ⟨_, rfl, ?_, ?_, ?_, ?_⟩
      · rw [avl_mk]
        refine ⟨hl, hr, rfl, ?_, ?_⟩ <;> omega
      · simp only [nodeHeight_mk]; omega
      · simp only [nodeHeight_mk]; omega
      · intro _; rfl

theorem minValueNode_ne_null (c : Course) (l r : Node) (h : Int) :
    ∃ tc tr th, minValueNode (Node.mk c l r h) = Node.mk tc Node.null tr th := by
  obtain ⟨tc, tr, th, e, _⟩ := minValueNode_inOrder (Node.mk c l r h) c l r h rfl
  exact ⟨tc, tr, th, e⟩

/-- On a tree satisfying the height invariant `deleteRec` returns a tree that
satisfies it again, whose height is kept or shrinks by one. -/
theorem deleteRec_avl :
    ∀ (t : Node) (k : String) (d : Bool), AVL t →
      ∃ t' b, deleteRec t k d = some (t', b) ∧ AVL t' ∧
        (nodeHeight t' = nodeHeight t ∨ nodeHeight t' = nodeHeight t - 1) := by
  intro t
  induction t with
  | null =>
    intro k d _
    exact ⟨_, _, rfl, trivial, Or.inl rfl⟩
  | mk rc l r hh ihl ihr =>
    intro k d ha
    obtain ⟨hl, hr, hhh, hb1, hb2⟩ := (avl_mk rc l r hh).1 ha
    have nl := nodeHeight_nonneg l hl
    have nr := nodeHeight_nonneg r hr
    rw [deleteRec_mk]
    simp only [strLt_iff, nodeHeight_mk]
    by_cases h1 : k < rc.courseNumber
    · rw [if_pos h1]
      obtain ⟨l', b, e, hl', hg⟩ := ihl k d hl
      have nl' := nodeHeight_nonneg l' hl'
      obtain ⟨t', e', ht', hu, hlo, hid⟩ :=
        deleteRebalance_avl rc hh hl' hr (by omega) (by omega)
      have hex : (-1 ≤ nodeHeight l' - nodeHeight r ∧ nodeHeight l' - nodeHeight r ≤ 1) →
          nodeHeight t' = 1 + max (nodeHeight l') (nodeHeight r) :=
        fun hb => by rw [hid hb, nodeHeight_mk]
      refine ⟨t', b, by simp only [e, e'], ht', ?_⟩
      omega
    · rw [if_neg h1]
      by_cases h2 : rc.courseNumber < k
      · rw [if_pos h2]
        obtain ⟨r', b, e, hr', hg⟩ := ihr k d hr
        have nr' := nodeHeight_nonneg r' hr'
        obtain ⟨t', e', ht', hu, hlo, hid⟩ :=
          deleteRebalance_avl rc hh hl hr' (by omega) (by omega)
        have hex : (-1 ≤ nodeHeight l - nodeHeight r' ∧ nodeHeight l - nodeHeight r' ≤ 1) →
            nodeHeight t' = 1 + max (nodeHeight l) (nodeHeight r') :=
          fun hb => by rw [hid hb, nodeHeight_mk]
        refine ⟨t', b, by simp only [e, e'], ht', ?_⟩
        omega
      · rw [if_neg h2]
        cases l with
        | null =>
          cases r with
          | null =>
            refine ⟨Node.null, true, by simp [isNull], trivial, ?_⟩
            simp only [nodeHeight_null] at hhh ⊢
            omega
          | mk c2 rl rr rh =>
            obtain ⟨hrl, hrr, hrh, hrb1, hrb2⟩ := (avl_mk c2 rl rr rh).1 hr
            obtain ⟨t', e', ht', hu, hlo, hid⟩ :=
              deleteRebalance_avl c2 rh hrl hrr (by omega) (by omega)
            have hex : nodeHeight t' = rh := by
              rw [hid ⟨hrb1, hrb2⟩, nodeHeight_mk, hrh]
            refine ⟨t', true, by simp [isNull, e'], ht', ?_⟩
            simp only [nodeHeight_null, nodeHeight_mk] at hhh nr hb1 hb2 ⊢
            omega
        | mk lc ll lr lh =>
          cases r with
          | null =>
            obtain ⟨hll, hlr, hlh, hlb1, hlb2⟩ := (avl_mk lc ll lr lh).1 hl
            obtain ⟨t', e', ht', hu, hlo, hid⟩ :=
              deleteRebalance_avl lc lh hll hlr (by omega) (by omega)
            have hex : nodeHeight t' = lh := by
              rw [hid ⟨hlb1, hlb2⟩, nodeHeight_mk, hlh]
            refine ⟨t', true, by simp [isNull, e'], ht', ?_⟩
            simp only [nodeHeight_null, nodeHeight_mk] at hhh nl hb1 hb2 ⊢
            omega
          | mk c2 rl rr rh =>
            obtain ⟨tc, tr, th, e1⟩ := minValueNode_ne_null c2 rl rr rh
            obtain ⟨r', b, e, hr', hg⟩ := ihr tc.courseNumber true hr
            have nr' := nodeHeight_nonneg r' hr'
            obtain ⟨t', e', ht', hu, hlo, hid⟩ :=
              deleteRebalance_avl tc hh hl hr' (by omega) (by omega)
            have hex : (-1 ≤ nodeHeight (Node.mk lc ll lr lh) - nodeHeight r' ∧
                nodeHeight (Node.mk lc ll lr lh) - nodeHeight r' ≤ 1) →
                nodeHeight t' =
                  1 + max (nodeHeight (Node.mk lc ll lr lh)) (nodeHeight r') :=
              fun hb => by rw [hid hb, nodeHeight_mk]
            refine ⟨t', b, by simp [isNull, e1, e, e'], ht', ?_⟩
            omega

/-! ## Operations that change nothing -/

theorem insertRebalance_id {nc : Course} {l r : Node} {h : Int} (c : Course)
    (ha : AVL (Node.mk nc l r h)) :
    insertRebalance (Node.mk nc l r h) c = some (Node.mk nc l r h) := by
  obtain ⟨_, _, hh, hb1, hb2⟩ := (avl_mk nc l r h).1 ha
  simp only [insertRebalance, updateHeight, balanceFactor]
  rw [if_neg (by omega), if_neg (by omega), hh]

theorem deleteRebalance_id {nc : Course} {l r : Node} {h : Int}
    (ha : AVL (Node.mk nc l r h)) :
    deleteRebalance (Node.mk nc l r h) = some (Node.mk nc l r h) := by
  obtain ⟨_, _, hh, hb1, hb2⟩ := (avl_mk nc l r h).1 ha
  simp only [deleteRebalance, updateHeight, balanceFactor]
  rw [if_neg (by omega), if_neg (by omega), hh]

/-- Inserting a stored key returns the very same subtree and clears the flag. -/
theorem insertRec_dup (c : Course) :
    ∀ (t : Node) (d : Bool), AVL t → Ordered t → c.courseNumber ∈ keys t →
      insertRec t c d = some (t, false) := by
  intro t
  induction t with
  | null => intro d _ _ hm; simp [keys, inOrderRec] at hm
  | mk nc l r hh ihl ihr =>
    intro d ha ho hm
    obtain ⟨hl, hr, _, _, _⟩ := (avl_mk nc l r hh).1 ha
    obtain ⟨hol, hor, hlt, hgt⟩ := (ordered_mk nc l r hh).1 ho
    simp only [insertRec, strLt_iff]
    rw [keys_mk, List.mem_append, List.mem_cons] at hm
    by_cases h1 : c.courseNumber < nc.courseNumber
    · rw [if_pos h1]
      have hml : c.courseNumber ∈ keys l := by
        rcases hm with hm | hm | hm
        · exact hm
        · exact absurd hm (ne_of_lt h1)
        · obtain ⟨x, hx, he⟩ := mem_keys.1 hm
          have := hgt x hx
          rw [he] at this
          exact absurd (lt_trans h1 this) (lt_irrefl _)
      simp only [ihl d hl hol hml, insertRebalance_id c ha]
    · rw [if_neg h1]
      by_cases h2 : nc.courseNumber < c.courseNumber
      · rw [if_pos h2]
        have hmr : c.courseNumber ∈ keys r := by
          rcases hm with hm | hm | hm
          · obtain ⟨x, hx, he⟩ := mem_keys.1 hm
            have := hlt x hx
            rw [he] at this
            exact absurd (lt_trans h2 this) (lt_irrefl _)
          · exact absurd hm (ne_of_gt h2)
          · exact hm
        simp only [ihr d hr hor hmr, insertRebalance_id c ha]
      · rw [if_neg h2]

/-- Deleting a key that is not stored returns the very same subtree and leaves
the flag as it was. -/
theorem deleteRec_absent (k : String) :
    ∀ (t : Node) (d : Bool), AVL t → k ∉ keys t →
      deleteRec t k d = some (t, d) := by
  intro t
  induction t with
  | null => intro d _ _; rfl
  | mk nc l r hh ihl ihr =>
    intro d ha hm
    obtain ⟨hl, hr, _, _, _⟩ := (avl_mk nc l r hh).1 ha
    rw [keys_mk, List.mem_append, List.mem_cons] at hm
    push_neg at hm
    obtain ⟨hml, hne, hmr⟩ := hm
    rw [deleteRec_mk]
    simp only [strLt_iff]
    by_cases h1 : k < nc.courseNumber
    · rw [if_pos h1]
      simp only [ihl d hl hml, deleteRebalance_id ha]
    · rw [if_neg h1]
      have h2 : nc.courseNumber < k := by
        rcases lt_trichotomy k nc.courseNumber with h3 | h3 | h3
        · exact absurd h3 h1
        · exact absurd h3 hne
        · exact h3
      rw [if_pos h2]
      simp only [ihr d hr hmr, deleteRebalance_id ha]

/-! ## Lookup -/

theorem searchRec_absent (k : String) :
    ∀ t : Node, k ∉ keys t → searchRec t k = Course.empty := by
  intro t
  induction t with
  | null => intro _; rfl
  | mk nc l r hh ihl ihr =>
    intro hm
    rw [keys_mk, List.mem_append, List.mem_cons] at hm
    push_neg at hm
    obtain ⟨hml, hne, hmr⟩ := hm
    simp only [searchRec]
    rw [if_neg (fun e => hne e.symm)]
    split_ifs
    · exact ihl hml
    · exact ihr hmr

theorem searchRec_found :
    ∀ (t : Node) (x : Course), Ordered t → x ∈ inOrderRec t →
      searchRec t x.courseNumber = x := by
  intro t
  induction t with
  | null => intro x _ hx; simp [inOrderRec] at hx
  | mk nc l r hh ihl ihr =>
    intro x ho hx
    obtain ⟨hol, hor, hlt, hgt⟩ := (ordered_mk nc l r hh).1 ho
    simp only [inOrderRec, List.mem_append, List.mem_cons] at hx
    simp only [searchRec, strLt_iff]
    rcases hx with hx | hx | hx
    · have h1 := hlt x hx
      rw [if_neg (ne_of_gt h1), if_pos h1]
      exact ihl x hol hx
    · subst hx; simp
    · have h1 := hgt x hx
      rw [if_neg (ne_of_lt h1), if_neg (lt_asymm h1)]
      exact ihr x hor hx

theorem toUpper_eq_empty {s : String} (h : toUpper s = "") : s = "" := by
  have h1 : (toUpper s).data = [] := by rw [h]
  simp only [toUpper, List.map_eq_nil_iff] at h1
  exact String.ext h1

/-! ## The class invariant -/

theorem inv_new : Inv BinarySearchTree.new :=
  ⟨trivial, ordered_null, rfl⟩

theorem pairwise_insert {pre post : List Course} {c : Course}
    (h : (pre ++ post).Pairwise (fun a b => a.courseNumber < b.courseNumber))
    (hp : ∀ x ∈ pre, x.courseNumber < c.courseNumber)
    (hq : ∀ x ∈ post, c.courseNumber < x.courseNumber) :
    (pre ++ c :: post).Pairwise (fun a b => a.courseNumber < b.courseNumber) := by
  rw [List.pairwise_append] at h ⊢
  obtain ⟨h1, h2, h3⟩ := h
  refine ⟨h1, List.pairwise_cons.2 ⟨hq, h2⟩, ?_⟩
  intro a ha b hb
  rcases List.mem_cons.1 hb with rfl | hb
  · exact hp a ha
  · exact h3 a ha b hb

theorem split_of_mem_sorted {L : List Course} {x : Course}
    (h : L.Pairwise (fun a b => a.courseNumber < b.courseNumber)) (hx : x ∈ L) :
    ∃ pre post, L = pre ++ x :: post ∧
      L.filter (fun y => decide (y.courseNumber ≠ x.courseNumber)) = pre ++ post ∧
      (∀ y ∈ pre ++ post, y.courseNumber ≠ x.courseNumber) := by
  obtain ⟨pre, post, rfl⟩ := List.append_of_mem hx
  rw [List.pairwise_append, List.pairwise_cons] at h
  obtain ⟨_, ⟨h2, _⟩, h3⟩ := h
  have hL : ∀ y ∈ pre, y.courseNumber < x.courseNumber :=
    fun y hy => h3 y hy x (List.mem_cons_self _ _)
  refine ⟨pre, post, rfl, filter_ne_node hL h2 rfl, ?_⟩
  intro y hy
  rcases List.mem_append.1 hy with hy | hy
  · exact ne_of_lt (hL y hy)
  · exact ne_of_gt (h2 y hy)

/-- What `Insert` does on a tree satisfying the invariant. -/
theorem Insert_spec (t : BinarySearchTree) (c : Course) (h : Inv t) :
    ∃ t' b, Insert t c = some (t', b) ∧ Inv t' ∧
      ((b = true ∧ c.courseNumber ∉ keys t.root ∧ t'.size = t.size + 1 ∧
          ∃ pre post, inOrderRec t.root = pre ++ post ∧
            inOrderRec t'.root = pre ++ c :: post ∧
            (∀ x ∈ pre, x.courseNumber < c.courseNumber) ∧
            (∀ x ∈ post, c.courseNumber < x.courseNumber)) ∨
       (b = false ∧ c.courseNumber ∈ keys t.root ∧ t' = t)) := by
  obtain ⟨ha, ho, hs⟩ := h
  obtain ⟨r', b, e, ha', _⟩ := insertRec_avl c t.root false ha
  rcases insertRec_inOrder c t.root false r' b ho e with
    ⟨hb, pre, post, e1, e2, hp, hq⟩ | ⟨hb, _, hm⟩
  · subst hb
    refine ⟨⟨r', t.size + 1⟩, true, by simp [Insert, e], ⟨ha', ?_, ?_⟩, Or.inl ⟨rfl, ?_, rfl, pre, post, e1, e2, hp, hq⟩⟩
    · show (inOrderRec r').Pairwise _
      rw [e2]
      refine pairwise_insert ?_ hp hq
      rw [← e1]; exact ho
    · show t.size + 1 = ((inOrderRec r').length : Int)
      rw [e2, hs, e1]
      simp only [List.length_append, List.length_cons]
      push_cast
      ring
    · intro hm
      obtain ⟨x, hx, he⟩ := mem_keys.1 hm
      rw [e1] at hx
      rcases List.mem_append.1 hx with hx | hx
      · exact absurd he (ne_of_lt (hp x hx))
      · exact absurd he (ne_of_gt (hq x hx))
  · subst hb
    have e' := insertRec_dup c t.root false ha ho hm
    refine ⟨t, false, by simp [Insert, e'], ⟨ha, ho, hs⟩, Or.inr ⟨rfl, hm, rfl⟩⟩

/-- What `Delete` does on a tree satisfying the invariant. -/
theorem Delete_spec (t : BinarySearchTree) (k : String) (h : Inv t) :
    ∃ t' b, Delete t k = some (t', b) ∧ Inv t' ∧
      inOrderRec t'.root =
        (inOrderRec t.root).filter (fun x => decide (x.courseNumber ≠ k)) ∧
      ((b = true ∧ t'.size = t.size - 1 ∧
          ∃ pre x post, inOrderRec t.root = pre ++ x :: post ∧ x.courseNumber = k ∧
            inOrderRec t'.root = pre ++ post ∧
            (∀ y ∈ pre ++ post, y.courseNumber ≠ k)) ∨
       (b = false ∧ k ∉ keys t.root ∧ t' = t)) := by
  obtain ⟨ha, ho, hs⟩ := h
  obtain ⟨r', b, e, ha', _⟩ := deleteRec_avl t.root k false ha
  obtain ⟨e1, hb⟩ := deleteRec_inOrder t.root k false r' b ho e
  have ho' : Ordered r' := by
    show (inOrderRec r').Pairwise _
    rw [e1]
    exact List.Pairwise.filter _ ho
  by_cases hm : k ∈ keys t.root
  · have hbt : b = true := by simp [hb, hm]
    subst hbt
    obtain ⟨x, hx, he⟩ := mem_keys.1 hm
    obtain ⟨pre, post, e2, e3, hne⟩ := split_of_mem_sorted ho hx
    rw [he] at e3 hne
    refine ⟨⟨r', t.size - 1⟩, true, by simp [Delete, e], ⟨ha', ho', ?_⟩, e1,
      Or.inl ⟨rfl, rfl, pre, x, post, e2, he, by rw [e1, e3], hne⟩⟩
    show t.size - 1 = ((inOrderRec r').length : Int)
    rw [e1, e3, hs, e2]
    simp only [List.length_append, List.length_cons]
    push_cast
    ring
  · have e' := deleteRec_absent k t.root false ha hm
    refine ⟨t, false, by simp [Delete, e'], ⟨ha, ho, hs⟩, ?_, Or.inr ⟨rfl, hm, rfl⟩⟩
    symm
    apply filter_ne_self
    intro x hx he
    exact hm (mem_keys.2 ⟨x, hx, he⟩)

theorem applyOp_inv (t : BinarySearchTree) (op : Op) (h : Inv t) :
    ∃ t', applyOp t op = some t' ∧ Inv t' := by
  cases op with
  | insert c =>
    obtain ⟨t', b, e, hi, _⟩ := Insert_spec t c h
    exact ⟨t', by simp [applyOp, e], hi⟩
  | delete k =>
    obtain ⟨t', b, e, hi, _⟩ := Delete_spec t k h
    exact ⟨t', by simp [applyOp, e], hi⟩

/-- Every sequence of operations runs to completion and keeps the invariant. -/
theorem runOps_inv : ∀ (ops : List Op) (t : BinarySearchTree), Inv t →
    ∃ t', runOps t ops = some t' ∧ Inv t' := by
  intro ops
  induction ops with
  | nil => intro t h; exact ⟨t, rfl, h⟩
  | cons op rest ih =>
    intro t h
    obtain ⟨t1, e1, h1⟩ := applyOp_inv t op h
    obtain ⟨t2, e2, h2⟩ := ih t1 h1
    exact ⟨t2, by simp [runOps, e1, e2], h2⟩

theorem reachable_inv {t : BinarySearchTree} (h : Reachable t) : Inv t := by
  obtain ⟨ops, e⟩ := h
  obtain ⟨t', e', hi⟩ := runOps_inv ops BinarySearchTree.new inv_new
  rw [e] at e'
  cases e'
  exact hi

/-! ## Bulk insertion and deletion -/

theorem insertAll_spec : ∀ (rs : List Course) (t : BinarySearchTree), Inv t →
    ∃ t', insertAll t rs = some t' ∧ Inv t' ∧
      ∀ k, k ∈ keys t'.root ↔ (k ∈ keys t.root ∨ k ∈ rs.map Course.courseNumber) := by
  intro rs
  induction rs with
  | nil => intro t h; exact ⟨t, rfl, h, by simp⟩
  | cons c cs ih =>
    intro t h
    obtain ⟨t1, b, e, h1, hc⟩ := Insert_spec t c h
    obtain ⟨t2, e2, h2, hk⟩ := ih t1 h1
    refine ⟨t2, by simp [insertAll, e, e2], h2, ?_⟩
    intro k
    rw [hk k]
    have hmem : k ∈ keys t1.root ↔ (k = c.courseNumber ∨ k ∈ keys t.root) := by
      rcases hc with ⟨_, _, _, pre, post, e3, e4, _, _⟩ | ⟨_, hm, e3⟩
      · simp only [keys, e3, e4, List.map_append, List.map_cons, List.mem_append,
          List.mem_cons]
        tauto
      · rw [e3]
        constructor
        · exact Or.inr
        · rintro (rfl | hk')
          · exact hm
          · exact hk'
    rw [hmem]
    simp only [List.map_cons, List.mem_cons]
    tauto

theorem eq_null_of_keys_nil {t : Node} (h : ∀ k, k ∉ keys t) : t = Node.null := by
  cases t with
  | null => rfl
  | mk c l r hh =>
    exfalso
    apply h c.courseNumber
    rw [keys_mk]
    simp

theorem deleteAll_spec : ∀ (ks : List String) (t : BinarySearchTree), Inv t →
    ks.Nodup → (∀ k, k ∈ keys t.root ↔ k ∈ ks) →
    deleteAll t ks = some (⟨Node.null, 0⟩, List.replicate ks.length true) := by
  intro ks
  induction ks with
  | nil =>
    intro t h _ hk
    have hr : t.root = Node.null := eq_null_of_keys_nil (fun k hm => by simpa using (hk k).1 hm)
    obtain ⟨_, _, hs⟩ := h
    rw [hr] at hs
    have : t = ⟨Node.null, 0⟩ := by
      cases t with
      | mk root size =>
        simp only at hr hs
        subst hr
        simp only [inOrderRec, List.length_nil, Nat.cast_zero] at hs
        rw [hs]
    rw [this]
    rfl
  | cons k ks ih =>
    intro t h hn hk
    obtain ⟨hnk, hn'⟩ := List.nodup_cons.1 hn
    obtain ⟨t1, b, e, h1, hf, hc⟩ := Delete_spec t k h
    have hkin : k ∈ keys t.root := (hk k).2 (List.mem_cons_self _ _)
    have hb : b = true := by
      rcases hc with ⟨hb, _⟩ | ⟨_, hm, _⟩
      · exact hb
      · exact absurd hkin hm
    subst hb
    have hk1 : ∀ k', k' ∈ keys t1.root ↔ k' ∈ ks := by
      intro k'
      have : k' ∈ keys t1.root ↔ (k' ∈ keys t.root ∧ k' ≠ k) := by
        simp only [keys, hf, List.mem_map, List.mem_filter, decide_eq_true_eq]
        constructor
        · rintro ⟨x, ⟨hx, hne⟩, rfl⟩
          exact ⟨⟨x, hx, rfl⟩, hne⟩
        · rintro ⟨⟨x, hx, rfl⟩, hne⟩
          exact ⟨x, ⟨hx, hne⟩, rfl⟩
      rw [this, hk k', List.mem_cons]
      constructor
      · rintro ⟨h1 | h1, h2⟩
        · exact absurd h1 h2
        · exact h1
      · intro h1
        exact ⟨Or.inr h1, fun e' => hnk (e' ▸ h1)⟩
    have e2 := ih t1 h1 hn' hk1
    simp [deleteAll, e, e2, List.replicate_succ]

theorem sampleTree_reachable : Reachable sampleTree :=
  ⟨[Op.insert csci101, Op.insert csci201], by decide⟩

/-! ## Verified properties -/

/-- C1: every sequence of `Insert` and `Delete` calls on the empty tree runs to
completion, and the in-order traversal of the resulting tree lists the keys in
strictly ascending order of `operator<`; in particular no key occurs twice. -/
theorem inOrder_strictly_ascending (ops : List Op) :
    ∃ t, runOps BinarySearchTree.new ops = some t ∧
      List.Pairwise (fun a b => strLt a b = true) ((InOrder t).map Course.courseNumber) ∧
      ((InOrder t).map Course.courseNumber).Nodup := by
  obtain ⟨t, e, _, ho, _⟩ := runOps_inv ops BinarySearchTree.new inv_new
  have hp : List.Pairwise (fun a b : String => a < b)
      ((InOrder t).map Course.courseNumber) := by
    rw [List.pairwise_map]; exact ho
  refine ⟨t, e, hp.imp (fun {a b} h => (strLt_iff a b).2 h), ?_⟩
  exact hp.imp (fun {a b} h => ne_of_lt h)

/-- C2: every sequence of `Insert` and `Delete` calls on the empty tree runs to
completion, and in the resulting tree the heights of the two subtrees of every
node differ by at most one, an absent subtree having height 0. -/
theorem reachable_height_balanced (ops : List Op) :
    ∃ t, runOps BinarySearchTree.new ops = some t ∧ HeightBalanced t.root := by
  obtain ⟨t, e, ha, _, _⟩ := runOps_inv ops BinarySearchTree.new inv_new
  exact ⟨t, e, heightBalanced_of_avl t.root ha⟩

/-- C3: on a reachable tree `Insert(r)` returns, its flag `inserted` is true
exactly when `r.courseNumber` is not a key of the tree, and then the in-order
sequence of the new tree is the old one with `r` put between the records with
smaller keys and the records with larger keys, all of them unchanged. -/
theorem insert_iff_absent (t : BinarySearchTree) (r : Course) (h : Reachable t) :
    ∃ t' inserted, Insert t r = some (t', inserted) ∧
      (inserted = true ↔ r.courseNumber ∉ keys t.root) ∧
      (inserted = true →
        ∃ pre post, InOrder t = pre ++ post ∧ InOrder t' = pre ++ r :: post ∧
          (∀ x ∈ pre, strLt x.courseNumber r.courseNumber = true) ∧
          (∀ x ∈ post, strLt r.courseNumber x.courseNumber = true)) := by
  obtain ⟨t', b, e, _, hc⟩ := Insert_spec t r (reachable_inv h)
  refine ⟨t', b, e, ?_, ?_⟩
  · rcases hc with ⟨hb, hm, _⟩ | ⟨hb, hm, _⟩
    · simp [hb, hm]
    · simp [hb, hm]
  · intro hb
    rcases hc with ⟨_, _, _, pre, post, e1, e2, hp, hq⟩ | ⟨hb', _, _⟩
    · exact ⟨pre, post, e1, e2, fun x hx => (strLt_iff _ _).2 (hp x hx),
        fun x hx => (strLt_iff _ _).2 (hq x hx)⟩
    · rw [hb] at hb'; cases hb'

theorem insert_iff_absent_witness :
    ∃ t' inserted, Insert sampleTree csci301 = some (t', inserted) ∧
      (inserted = true ↔ csci301.courseNumber ∉ keys sampleTree.root) ∧
      (inserted = true →
        ∃ pre post, InOrder sampleTree = pre ++ post ∧ InOrder t' = pre ++ csci301 :: post ∧
          (∀ x ∈ pre, strLt x.courseNumber csci301.courseNumber = true) ∧
          (∀ x ∈ post, strLt csci301.courseNumber x.courseNumber = true)) :=
  insert_iff_absent sampleTree csci301 sampleTree_reachable

/-- C4: on a reachable tree `Delete(k)` returns, its result is true exactly when
`k` is a key of the tree, and then the in-order sequence of the new tree is the
old one with the single record keyed `k` taken out, every other record being
kept unchanged and in the same place. -/
theorem delete_iff_present (t : BinarySearchTree) (k : String) (h : Reachable t) :
    ∃ t' deleted, Delete t k = some (t', deleted) ∧
      (deleted = true ↔ k ∈ keys t.root) ∧
      (deleted = true →
        ∃ pre x post, InOrder t = pre ++ x :: post ∧ x.courseNumber = k ∧
          InOrder t' = pre ++ post ∧ ∀ y ∈ pre ++ post, y.courseNumber ≠ k) := by
  obtain ⟨t', b, e, _, _, hc⟩ := Delete_spec t k (reachable_inv h)
  refine ⟨t', b, e, ?_, ?_⟩
  · rcases hc with ⟨hb, _, pre, x, post, e1, hx, _⟩ | ⟨hb, hm, _⟩
    · have : k ∈ keys t.root := mem_keys.2 ⟨x, by rw [e1]; simp, hx⟩
      simp [hb, this]
    · simp [hb, hm]
  · intro hb
    rcases hc with ⟨_, _, pre, x, post, e1, hx, e2, hne⟩ | ⟨hb', _, _⟩
    · exact ⟨pre, x, post, e1, hx, e2, hne⟩
    · rw [hb] at hb'; cases hb'

theorem delete_iff_present_witness :
    ∃ t' deleted, Delete sampleTree "CSCI101" = some (t', deleted) ∧
      (deleted = true ↔ "CSCI101" ∈ keys sampleTree.root) ∧
      (deleted = true →
        ∃ pre x post, InOrder sampleTree = pre ++ x :: post ∧ x.courseNumber = "CSCI101" ∧
          InOrder t' = pre ++ post ∧ ∀ y ∈ pre ++ post, y.courseNumber ≠ "CSCI101") :=
  delete_iff_present sampleTree "CSCI101" sampleTree_reachable

/-- C5, as stated, fails: the tree holding the empty record is reachable, it
stores a record under the upper-cased identifier `""`, and `Search("")` still
returns the empty record, the not-found indicator. -/
theorem search_notFound_counterexample :
    Reachable emptyRecordTree ∧
      toUpper "" ∈ keys emptyRecordTree.root ∧
      Search emptyRecordTree "" = Course.empty :=
  ⟨⟨[Op.insert Course.empty], by decide⟩, by decide, by decide⟩

/-- C5, amended: on a reachable tree `Search(id)` upper-cases `id` and returns
the stored record whose key is the upper-cased `id` when there is one, and the
empty record when there is none; the result is the empty record exactly when no
stored record has that key or the record stored under it is itself the empty
record. -/
theorem search_spec (t : BinarySearchTree) (id : String) (h : Reachable t) :
    (∀ x ∈ InOrder t, x.courseNumber = toUpper id → Search t id = x) ∧
    (toUpper id ∉ keys t.root → Search t id = Course.empty) ∧
    (Search t id = Course.empty ↔
      (toUpper id ∉ keys t.root ∨ (toUpper id = "" ∧ Course.empty ∈ InOrder t))) := by
  obtain ⟨_, ho, _⟩ := reachable_inv h
  have h1 : ∀ x ∈ InOrder t, x.courseNumber = toUpper id → Search t id = x := by
    intro x hx he
    unfold Search
    rw [← he]
    exact searchRec_found t.root x ho hx
  have h2 : toUpper id ∉ keys t.root → Search t id = Course.empty :=
    fun hm => searchRec_absent (toUpper id) t.root hm
  refine ⟨h1, h2, ?_⟩
  constructor
  · intro hs
    by_cases hm : toUpper id ∈ keys t.root
    · right
      obtain ⟨x, hx, he⟩ := mem_keys.1 hm
      have hxe : x = Course.empty := by rw [← h1 x hx he, hs]
      subst hxe
      exact ⟨he.symm, hx⟩
    · exact Or.inl hm
  · rintro (hm | ⟨he, hx⟩)
    · exact h2 hm
    · exact h1 Course.empty hx he.symm

theorem search_spec_witness :
    (∀ x ∈ InOrder sampleTree, x.courseNumber = toUpper "csci201" →
        Search sampleTree "csci201" = x) ∧
    (toUpper "csci201" ∉ keys sampleTree.root → Search sampleTree "csci201" = Course.empty) ∧
    (Search sampleTree "csci201" = Course.empty ↔
      (toUpper "csci201" ∉ keys sampleTree.root ∨
        (toUpper "csci201" = "" ∧ Course.empty ∈ InOrder sampleTree))) :=
  search_spec sampleTree "csci201" sampleTree_reachable

/-- C6, as stated, fails: `csci101` in lower case is not a key of the empty
tree, `Insert` stores it, and `Search` of the same identifier looks for
`CSCI101` and returns the empty record instead of the stored one. -/
theorem insert_search_counterexample :
    Reachable BinarySearchTree.new ∧
      lowerCourse.courseNumber ∉ keys BinarySearchTree.new.root ∧
      ∃ t', Insert BinarySearchTree.new lowerCourse = some (t', true) ∧
        Search t' lowerCourse.courseNumber = Course.empty ∧
        Search t' lowerCourse.courseNumber ≠ lowerCourse :=
  ⟨⟨[], rfl⟩, by decide,
    ⟨Node.mk lowerCourse Node.null Node.null 1, 1⟩, by decide, by decide, by decide⟩

/-- C6, amended: on a reachable tree, for a record `r` whose identifier is not
yet a key and is left unchanged by upper-casing, `Insert(r)` stores it and
`Search(r.courseNumber)` then returns a record equal to `r`. -/
theorem insert_then_search (t : BinarySearchTree) (r : Course) (h : Reachable t)
    (hk : r.courseNumber ∉ keys t.root) (hu : toUpper r.courseNumber = r.courseNumber) :
    ∃ t', Insert t r = some (t', true) ∧ Search t' r.courseNumber = r := by
  obtain ⟨t', b, e, hi, hc⟩ := Insert_spec t r (reachable_inv h)
  rcases hc with ⟨hb, _, _, pre, post, _, e2, _, _⟩ | ⟨_, hm, _⟩
  · subst hb
    refine ⟨t', e, ?_⟩
    unfold Search
    rw [hu]
    exact searchRec_found t'.root r hi.2.1 (by rw [e2]; simp)
  · exact absurd hm hk

theorem insert_then_search_witness :
    ∃ t', Insert sampleTree csci301 = some (t', true) ∧
      Search t' csci301.courseNumber = csci301 :=
  insert_then_search sampleTree csci301 sampleTree_reachable (by decide) (by decide)

/-- C7, as stated, fails: on the reachable tree holding `CSCI101`, inserting the
record keyed `csci101` and deleting `csci101` again leaves `CSCI101` stored, and
`Search("csci101")` returns that record, not the not-found indicator. -/
theorem insert_delete_search_counterexample :
    Reachable singleTree ∧
      ∃ t1 t2, Insert singleTree lowerCourse = some (t1, true) ∧
        Delete t1 lowerCourse.courseNumber = some (t2, true) ∧
        Search t2 lowerCourse.courseNumber = csci101 ∧
        Search t2 lowerCourse.courseNumber ≠ Course.empty :=
  ⟨⟨[Op.insert csci101], by decide⟩,
    ⟨Node.mk csci101 Node.null (Node.mk lowerCourse Node.null Node.null 1) 2, 2⟩,
    singleTree, by decide, by decide, by decide, by decide⟩

/-- C7, amended: on a reachable tree `Insert(r)` followed by
`Delete(r.courseNumber)` both return, the deletion reports true, and
`Search(r.courseNumber)` afterwards returns the not-found indicator exactly when
the identifier is left unchanged by upper-casing or its upper-cased form is not
a key of the original tree. -/
theorem insert_delete_then_search (t : BinarySearchTree) (r : Course) (h : Reachable t) :
    ∃ t1 inserted t2, Insert t r = some (t1, inserted) ∧
      Delete t1 r.courseNumber = some (t2, true) ∧
      (Search t2 r.courseNumber = Course.empty ↔
        (toUpper r.courseNumber = r.courseNumber ∨
          toUpper r.courseNumber ∉ keys t.root)) := by
  obtain ⟨t1, b, e1, hi1, hc1⟩ := Insert_spec t r (reachable_inv h)
  obtain ⟨t2, d, e2, hi2, hf, hc2⟩ := Delete_spec t1 r.courseNumber hi1
  have hmem1 : ∀ k, k ∈ keys t1.root ↔ (k = r.courseNumber ∨ k ∈ keys t.root) := by
    intro k
    rcases hc1 with ⟨_, _, _, pre, post, e3, e4, _, _⟩ | ⟨_, hm, e3⟩
    · simp only [keys, e3, e4, List.map_append, List.map_cons, List.mem_append,
        List.mem_cons]
      tauto
    · rw [e3]
      constructor
      · exact Or.inr
      · rintro (rfl | hk')
        · exact hm
        · exact hk'
  have hmem2 : ∀ k, k ∈ keys t2.root ↔ (k ∈ keys t.root ∧ k ≠ r.courseNumber) := by
    intro k
    have : k ∈ keys t2.root ↔ (k ∈ keys t1.root ∧ k ≠ r.courseNumber) := by
      simp only [keys, hf, List.mem_map, List.mem_filter, decide_eq_true_eq]
      constructor
      · rintro ⟨x, ⟨hx, hne⟩, rfl⟩
        exact ⟨⟨x, hx, rfl⟩, hne⟩
      · rintro ⟨⟨x, hx, rfl⟩, hne⟩
        exact ⟨x, ⟨hx, hne⟩, rfl⟩
    rw [this, hmem1 k]
    tauto
  have hd : d = true := by
    rcases hc2 with ⟨hd, _⟩ | ⟨_, hm, _⟩
    · exact hd
    · exact absurd ((hmem1 r.courseNumber).2 (Or.inl rfl)) hm
  subst hd
  refine ⟨t1, b, t2, e1, e2, ?_⟩
  constructor
  · intro hs
    by_contra hcon
    push_neg at hcon
    obtain ⟨hne, hin⟩ := hcon
    have hin2 : toUpper r.courseNumber ∈ keys t2.root :=
      (hmem2 _).2 ⟨hin, hne⟩
    obtain ⟨x, hx, he⟩ := mem_keys.1 hin2
    have hfound : Search t2 r.courseNumber = x := by
      unfold Search
      rw [← he]
      exact searchRec_found t2.root x hi2.2.1 hx
    have hxe : x = Course.empty := by rw [← hfound, hs]
    have hup : toUpper r.courseNumber = "" := by rw [← he, hxe]; rfl
    have hr : r.courseNumber = "" := toUpper_eq_empty hup
    exact hne (by rw [hup, hr])
  · intro hor
    apply searchRec_absent
    intro hin2
    obtain ⟨hin, hne⟩ := (hmem2 _).1 hin2
    rcases hor with hu | hn
    · exact hne hu
    · exact hn hin

theorem insert_delete_then_search_witness :
    ∃ t1 inserted t2, Insert sampleTree csci301 = some (t1, inserted) ∧
      Delete t1 csci301.courseNumber = some (t2, true) ∧
      (Search t2 csci301.courseNumber = Course.empty ↔
        (toUpper csci301.courseNumber = csci301.courseNumber ∨
          toUpper csci301.courseNumber ∉ keys sampleTree.root)) :=
  insert_delete_then_search sampleTree csci301 sampleTree_reachable

/-- C8: on a reachable tree, `Insert` of a record whose identifier is already a
key returns with `inserted` false and leaves the tree as it was: the same nodes
with the same records and stored heights, and the same `Size`. -/
theorem insert_duplicate_noop (t : BinarySearchTree) (r : Course) (h : Reachable t)
    (hk : r.courseNumber ∈ keys t.root) :
    ∃ t', Insert t r = some (t', false) ∧ t'.root = t.root ∧ Size t' = Size t := by
  obtain ⟨ha, ho, _⟩ := reachable_inv h
  have e := insertRec_dup r t.root false ha ho hk
  exact ⟨t, by simp [Insert, e], rfl, rfl⟩

theorem insert_duplicate_noop_witness :
    ∃ t', Insert sampleTree ⟨"CSCI201", "Another title", []⟩ = some (t', false) ∧
      t'.root = sampleTree.root ∧ Size t' = Size sampleTree :=
  insert_duplicate_noop sampleTree ⟨"CSCI201", "Another title", []⟩ sampleTree_reachable
    (by decide)

/-- C9: on a reachable tree, `Delete` of a key that is not stored returns false
and leaves the tree as it was: the same nodes with the same records and stored
heights, and the same `Size`. -/
theorem delete_absent_noop (t : BinarySearchTree) (k : String) (h : Reachable t)
    (hk : k ∉ keys t.root) :
    ∃ t', Delete t k = some (t', false) ∧ t'.root = t.root ∧ Size t' = Size t := by
  obtain ⟨ha, _, _⟩ := reachable_inv h
  have e := deleteRec_absent k t.root false ha hk
  exact ⟨t, by simp [Delete, e], rfl, rfl⟩

theorem delete_absent_noop_witness :
    ∃ t', Delete sampleTree "CSCI999" = some (t', false) ∧
      t'.root = sampleTree.root ∧ Size t' = Size sampleTree :=
  delete_absent_noop sampleTree "CSCI999" sampleTree_reachable (by decide)

/-- C10: inserting records with pairwise distinct identifiers into the empty
tree and then deleting all those identifiers, in any order, succeeds at every
step; every `Delete` returns true and the final tree is empty: null root,
`Size` 0 and empty in-order, pre-order and post-order traversals. -/
theorem delete_all_empties (rs : List Course) (ks : List String)
    (hn : (rs.map Course.courseNumber).Nodup)
    (hp : ks.Perm (rs.map Course.courseNumber)) :
    ∃ t t', insertAll BinarySearchTree.new rs = some t ∧
      deleteAll t ks = some (t', List.replicate ks.length true) ∧
      t'.root = Node.null ∧ Size t' = 0 ∧
      InOrder t' = [] ∧ PreOrder t' = [] ∧ PostOrder t' = [] := by
  obtain ⟨t, e, hi, hk⟩ := insertAll_spec rs BinarySearchTree.new inv_new
  have hk' : ∀ k, k ∈ keys t.root ↔ k ∈ ks := by
    intro k
    rw [hk k, hp.mem_iff]
    simp [BinarySearchTree.new, keys, inOrderRec]
  have e2 := deleteAll_spec ks t hi (hp.nodup_iff.2 hn) hk'
  exact ⟨t, ⟨Node.null, 0⟩, e, e2, rfl, rfl, rfl, rfl, rfl⟩

theorem delete_all_empties_witness :
    ∃ t t', insertAll BinarySearchTree.new [csci101, csci201, csci301] = some t ∧
      deleteAll t ["CSCI201", "CSCI301", "CSCI101"] =
        some (t', List.replicate ["CSCI201", "CSCI301", "CSCI101"].length true) ∧
      t'.root = Node.null ∧ Size t' = 0 ∧
      InOrder t' = [] ∧ PreOrder t' = [] ∧ PostOrder t' = [] :=
  delete_all_empties [csci101, csci201, csci301] ["CSCI201", "CSCI301", "CSCI101"]
    (by decide) (by decide)

/-! ## Size, exact heights, rotations and the successor -/

theorem countNodes_eq_length : ∀ t : Node, countNodes t = (inOrderRec t).length := by
  intro t
  induction t with
  | null => rfl
  | mk c l r h ihl ihr =>
    simp only [countNodes, inOrderRec, List.length_append, List.length_cons, ihl, ihr]
    omega

theorem inv_size_eq_countNodes {t : BinarySearchTree} (h : Inv t) :
    Size t = (countNodes t.root : Int) := by
  rw [countNodes_eq_length]; exact h.2.2

theorem heightsExact_of_avl : ∀ t : Node, AVL t → HeightsExact t := by
  intro t
  induction t with
  | null => intro _; trivial
  | mk c l r h ihl ihr =>
    intro ha
    obtain ⟨hl, hr, hh, _, _⟩ := (avl_mk c l r h).1 ha
    have hpos : 1 ≤ h := by
      have := nodeHeight_nonneg l hl
      have := nodeHeight_nonneg r hr
      omega
    refine ⟨ihl hl, ihr hr, ?_, hpos, ?_⟩
    · rw [← nodeHeight_eq_height _ ha, nodeHeight_mk]
    · simp only [balanceFactor]
      rw [nodeHeight_eq_height l hl, nodeHeight_eq_height r hr]

theorem InsertInt_eq (t : BinarySearchTree) (c : Course) :
    InsertInt t c =
      (Insert t c).bind
        (fun p => if p.2 = true ∧ ¬ t.size < intMax then none else some p) := by
  unfold InsertInt Insert
  cases insertRec t.root c false with
  | none => rfl
  | some p =>
    obtain ⟨r, ins⟩ := p
    cases ins
    · simp
    · by_cases hlt : t.size < intMax <;> simp [hlt]

theorem DeleteInt_eq (t : BinarySearchTree) (k : String) :
    DeleteInt t k =
      (Delete t k).bind
        (fun p => if p.2 = true ∧ ¬ intMin < t.size then none else some p) := by
  unfold DeleteInt Delete
  cases deleteRec t.root k false with
  | none => rfl
  | some p =>
    obtain ⟨r, del⟩ := p
    cases del
    · simp
    · by_cases hlt : intMin < t.size <;> simp [hlt]

/-- A call with `size` an `int` that has a result has the result of the call
counting without a bound, and keeps `size` at most `INT_MAX`. -/
theorem applyOpInt_some {t t' : BinarySearchTree} {op : Op}
    (e : applyOpInt t op = some t') :
    applyOp t op = some t' ∧ (t.size ≤ intMax → t'.size ≤ intMax) := by
  cases op with
  | insert c =>
    simp only [applyOpInt, applyOp, InsertInt, Insert] at e ⊢
    cases hi : insertRec t.root c false with
    | none => rw [hi] at e; cases e
    | some p =>
      obtain ⟨r, ins⟩ := p
      rw [hi] at e
      cases ins
      · simp only [Bool.false_eq_true, if_false, Option.map_some', Option.some.injEq] at e ⊢
        subst e
        exact ⟨rfl, fun h => h⟩
      · by_cases hlt : t.size < intMax
        · simp only [if_true, if_pos hlt, Option.map_some', Option.some.injEq] at e ⊢
          subst e
          refine ⟨rfl, fun _ => ?_⟩
          show t.size + 1 ≤ intMax
          omega
        · simp only [if_true, if_neg hlt, Option.map_none'] at e
          cases e
  | delete k =>
    simp only [applyOpInt, applyOp, DeleteInt, Delete] at e ⊢
    cases hi : deleteRec t.root k false with
    | none => rw [hi] at e; cases e
    | some p =>
      obtain ⟨r, del⟩ := p
      rw [hi] at e
      cases del
      · simp only [Bool.false_eq_true, if_false, Option.map_some', Option.some.injEq] at e ⊢
        subst e
        exact ⟨rfl, fun h => h⟩
      · by_cases hlt : intMin < t.size
        · simp only [if_true, if_pos hlt, Option.map_some', Option.some.injEq] at e ⊢
          subst e
          refine ⟨rfl, fun h => ?_⟩
          show t.size - 1 ≤ intMax
          omega
        · simp only [if_true, if_neg hlt, Option.map_none'] at e
          cases e

theorem runOpsInt_some : ∀ (ops : List Op) (t t' : BinarySearchTree),
    runOpsInt t ops = some t' →
      runOps t ops = some t' ∧ (t.size ≤ intMax → t'.size ≤ intMax) := by
  intro ops
  induction ops with
  | nil =>
    intro t t' e
    simp only [runOpsInt, Option.some.injEq] at e
    subst e
    exact ⟨rfl, fun h => h⟩
  | cons op rest ih =>
    intro t t' e
    simp only [runOpsInt] at e
    cases h1 : applyOpInt t op with
    | none => rw [h1] at e; cases e
    | some t1 =>
      rw [h1] at e
      obtain ⟨e1, r1⟩ := applyOpInt_some h1
      obtain ⟨e2, r2⟩ := ih t1 t' e
      refine ⟨?_, fun h => r2 (r1 h)⟩
      simp only [runOps, e1]
      exact e2

/-- A tree reachable with `size` an `int` is reachable, and its `size` is at
most `INT_MAX`. -/
theorem reachableInt_spec {t : BinarySearchTree} (h : ReachableInt t) :
    Reachable t ∧ Size t ≤ intMax := by
  obtain ⟨ops, e⟩ := h
  obtain ⟨e1, r1⟩ := runOpsInt_some ops _ _ e
  exact ⟨⟨ops, e1⟩, r1 (by decide)⟩

theorem sampleTree_reachableInt : ReachableInt sampleTree :=
  ⟨[Op.insert csci101, Op.insert csci201], by decide⟩

/-- A sequence of calls short enough for the count to stay in the range of `int`
runs to completion. -/
theorem runOpsInt_total : ∀ (ops : List Op) (t : BinarySearchTree), Inv t →
    t.size + (ops.length : Int) ≤ intMax → ∃ t', runOpsInt t ops = some t' := by
  intro ops
  induction ops with
  | nil => intro t _ _; exact ⟨t, rfl⟩
  | cons op rest ih =>
    intro t hi hb
    have hs : t.size = (countNodes t.root : Int) := inv_size_eq_countNodes hi
    have h0 : (0 : Int) ≤ (countNodes t.root : Int) := Int.ofNat_nonneg _
    have hl : (0 : Int) ≤ (rest.length : Int) := Int.ofNat_nonneg _
    simp only [List.length_cons, Nat.cast_add, Nat.cast_one] at hb
    have hM : intMax = 2147483647 := rfl
    have hm : intMin = -2147483648 := rfl
    cases op with
    | insert c =>
      obtain ⟨t1, b, e, hi1, hc⟩ := Insert_spec t c hi
      have hsz : t1.size ≤ t.size + 1 := by
        rcases hc with ⟨_, _, h1, _⟩ | ⟨_, _, h1⟩
        · omega
        · subst h1; omega
      have hlt : t.size < intMax := by omega
      have e1 : applyOpInt t (Op.insert c) = some t1 := by
        simp only [applyOpInt]
        rw [InsertInt_eq, e]
        simp [hlt]
      obtain ⟨t', e'⟩ := ih t1 hi1 (by omega)
      exact ⟨t', by simp only [runOpsInt, e1]; exact e'⟩
    | delete k =>
      obtain ⟨t1, b, e, hi1, _, hc⟩ := Delete_spec t k hi
      have hsz : t1.size ≤ t.size := by
        rcases hc with ⟨_, h1, _⟩ | ⟨_, _, h1⟩
        · omega
        · subst h1; omega
      have hlt : intMin < t.size := by omega
      have e1 : applyOpInt t (Op.delete k) = some t1 := by
        simp only [applyOpInt]
        rw [DeleteInt_eq, e]
        simp [hlt]
      obtain ⟨t', e'⟩ := ih t1 hi1 (by omega)
      exact ⟨t', by simp only [runOpsInt, e1]; exact e'⟩

/-- C11: a sequence of `Insert` and `Delete` calls on the empty tree that is short
enough for `size` to stay in the range of `int` runs to completion; and after
every sequence that keeps `size` in that range, `Size()` is the number of nodes,
at most `INT_MAX`.  From there an `Insert` of an absent key raises both by
exactly one, provided `size` is below `INT_MAX` (at `INT_MAX` the increment
overflows and the call has no result); a `Delete` of a stored key lowers both by
exactly one, whatever the number of children of the deleted node; and a rejected
`Insert` or a missed `Delete` returns the tree as it was. -/
theorem size_counts_nodes (ops : List Op) :
    ((ops.length : Int) ≤ intMax → ∃ t, runOpsInt BinarySearchTree.new ops = some t) ∧
    ∀ t, runOpsInt BinarySearchTree.new ops = some t →
      Size t = (countNodes t.root : Int) ∧ Size t ≤ intMax ∧
      (∀ r : Course,
        (r.courseNumber ∉ keys t.root ∧ Size t < intMax ∧
          ∃ t', InsertInt t r = some (t', true) ∧
            Size t' = Size t + 1 ∧ countNodes t'.root = countNodes t.root + 1) ∨
        (r.courseNumber ∉ keys t.root ∧ Size t = intMax ∧ InsertInt t r = none) ∨
        (r.courseNumber ∈ keys t.root ∧ InsertInt t r = some (t, false))) ∧
      (∀ k : String,
        (k ∈ keys t.root ∧
          ∃ t', DeleteInt t k = some (t', true) ∧
            Size t' = Size t - 1 ∧ countNodes t'.root + 1 = countNodes t.root) ∨
        (k ∉ keys t.root ∧ DeleteInt t k = some (t, false))) := by
  refine ⟨fun hlen => runOpsInt_total ops _ inv_new (by
    show (0 : Int) + (ops.length : Int) ≤ intMax
    omega), ?_⟩
  intro t h
  obtain ⟨hr, hmax⟩ := reachableInt_spec ⟨ops, h⟩
  have hi := reachable_inv hr
  have hs := inv_size_eq_countNodes hi
  refine ⟨hs, hmax, ?_, ?_⟩
  · intro r
    obtain ⟨t', b, e', hi', hc⟩ := Insert_spec t r hi
    have hs' := inv_size_eq_countNodes hi'
    rcases hc with ⟨hb, hm, hsz, _⟩ | ⟨hb, hm, he⟩
    · subst hb
      by_cases hlt : t.size < intMax
      · refine Or.inl ⟨hm, hlt, t', ?_, hsz, ?_⟩
        · rw [InsertInt_eq, e']
          simp [hlt]
        · have : (countNodes t'.root : Int) = (countNodes t.root : Int) + 1 := by
            rw [← hs', ← hs]; exact hsz
          exact_mod_cast this
      · refine Or.inr (Or.inl ⟨hm, le_antisymm hmax (not_lt.1 hlt), ?_⟩)
        rw [InsertInt_eq, e']
        simp [hlt]
    · subst hb
      subst he
      refine Or.inr (Or.inr ⟨hm, ?_⟩)
      rw [InsertInt_eq, e']
      simp
  · intro k
    obtain ⟨t', b, e', hi', _, hc⟩ := Delete_spec t k hi
    have hs' := inv_size_eq_countNodes hi'
    rcases hc with ⟨hb, hsz, pre, x, post, e1, hx, _, _⟩ | ⟨hb, hm, he⟩
    · subst hb
      have hm : k ∈ keys t.root := mem_keys.2 ⟨x, by rw [e1]; simp, hx⟩
      have hc : (countNodes t'.root : Int) + 1 = (countNodes t.root : Int) := by
        rw [← hs', ← hs]
        show t'.size + 1 = t.size
        rw [hsz]; ring
      have hpos : intMin < t.size := by
        have h0 : (0 : Int) ≤ (countNodes t'.root : Int) := Int.ofNat_nonneg _
        have h1 : t.size = (countNodes t.root : Int) := hs
        have h2 : intMin = -2147483648 := rfl
        omega
      refine Or.inl ⟨hm, t', ?_, hsz, by exact_mod_cast hc⟩
      rw [DeleteInt_eq, e']
      simp [hpos]
    · subst hb
      subst he
      refine Or.inr ⟨hm, ?_⟩
      rw [DeleteInt_eq, e']
      simp

theorem size_counts_nodes_witness :
    (∃ t, runOpsInt BinarySearchTree.new [Op.insert csci101, Op.insert csci201] = some t) ∧
    Size sampleTree = (countNodes sampleTree.root : Int) ∧ Size sampleTree ≤ intMax ∧
    (∀ r : Course,
      (r.courseNumber ∉ keys sampleTree.root ∧ Size sampleTree < intMax ∧
        ∃ t', InsertInt sampleTree r = some (t', true) ∧
          Size t' = Size sampleTree + 1 ∧
          countNodes t'.root = countNodes sampleTree.root + 1) ∨
      (r.courseNumber ∉ keys sampleTree.root ∧ Size sampleTree = intMax ∧
        InsertInt sampleTree r = none) ∨
      (r.courseNumber ∈ keys sampleTree.root ∧
        InsertInt sampleTree r = some (sampleTree, false))) ∧
    (∀ k : String,
      (k ∈ keys sampleTree.root ∧
        ∃ t', DeleteInt sampleTree k = some (t', true) ∧
          Size t' = Size sampleTree - 1 ∧
          countNodes t'.root + 1 = countNodes sampleTree.root) ∨
      (k ∉ keys sampleTree.root ∧ DeleteInt sampleTree k = some (sampleTree, false))) :=
  ⟨(size_counts_nodes [Op.insert csci101, Op.insert csci201]).1 (by decide),
    (size_counts_nodes [Op.insert csci101, Op.insert csci201]).2 sampleTree (by decide)⟩

/-- C17: `rotateLeft(x)` on a node `x` with right child `y` returns the subtree
rooted at `y`, with `x` as its left child holding the former left subtree of
`y`, the stored height of `x` recomputed first and that of `y` after it, and
with the same in-order sequence; `rotateRight(y)` on a node `y` with left child
`x` does the mirror image. -/
theorem rotations_preserve_inOrder (xc yc : Course) (a b c : Node) (xh yh : Int) :
    (rotateLeft (Node.mk xc a (Node.mk yc b c yh) xh) =
        some (Node.mk yc
          (Node.mk xc a b (1 + max (nodeHeight a) (nodeHeight b))) c
          (1 + max (1 + max (nodeHeight a) (nodeHeight b)) (nodeHeight c))) ∧
      inOrderRec (Node.mk yc
          (Node.mk xc a b (1 + max (nodeHeight a) (nodeHeight b))) c
          (1 + max (1 + max (nodeHeight a) (nodeHeight b)) (nodeHeight c))) =
        inOrderRec (Node.mk xc a (Node.mk yc b c yh) xh)) ∧
    (rotateRight (Node.mk yc (Node.mk xc a b xh) c yh) =
        some (Node.mk xc a
          (Node.mk yc b c (1 + max (nodeHeight b) (nodeHeight c)))
          (1 + max (nodeHeight a) (1 + max (nodeHeight b) (nodeHeight c)))) ∧
      inOrderRec (Node.mk xc a
          (Node.mk yc b c (1 + max (nodeHeight b) (nodeHeight c)))
          (1 + max (nodeHeight a) (1 + max (nodeHeight b) (nodeHeight c)))) =
        inOrderRec (Node.mk yc (Node.mk xc a b xh) c yh)) := by
  refine ⟨⟨rfl, ?_⟩, ⟨rfl, ?_⟩⟩
  · simp [inOrderRec]
  · simp [inOrderRec]

/-- C20: after every sequence of `Insert` and `Delete` calls on the empty tree
every node's stored height is the height of its subtree, so it is at least 1
and `balanceFactor` is the difference of the heights of the two subtrees. -/
theorem stored_heights_exact (ops : List Op) :
    ∃ t, runOps BinarySearchTree.new ops = some t ∧ HeightsExact t.root := by
  obtain ⟨t, e, ha, _, _⟩ := runOps_inv ops BinarySearchTree.new inv_new
  exact ⟨t, e, heightsExact_of_avl t.root ha⟩

theorem rotateRightT_erase (dbg : Bool) (t : Node) :
    (rotateRightT dbg t).map Prod.fst = rotateRight t := by
  rcases t with _ | ⟨yc, _ | ⟨xc, xl, xr, xh⟩, yr, yh⟩ <;> rfl

theorem rotateLeftT_erase (dbg : Bool) (t : Node) :
    (rotateLeftT dbg t).map Prod.fst = rotateLeft t := by
  rcases t with _ | ⟨xc, xl, _ | ⟨yc, yl, yr, yh⟩, xh⟩ <;> rfl

theorem insertRebalanceT_erase (dbg : Bool) (t : Node) (c : Course) :
    (insertRebalanceT dbg t c).map Prod.fst = insertRebalance t c := by
  rcases t with _ | ⟨nc, _ | ⟨lc, ll, _ | ⟨mc, ml, mr, mh⟩, lh⟩,
    _ | ⟨rc, _ | ⟨pc, pl, pr, ph⟩, rr, rh⟩, h⟩ <;>
  first
    | rfl
    | (simp only [insertRebalanceT, insertRebalance, updateHeight, rotateRightT, rotateLeftT,
        rotateRight, rotateLeft]
       split_ifs <;> rfl)

theorem deleteRebalanceT_erase (dbg : Bool) (t : Node) :
    (deleteRebalanceT dbg t).map Prod.fst = deleteRebalance t := by
  rcases t with _ | ⟨nc, _ | ⟨lc, ll, _ | ⟨mc, ml, mr, mh⟩, lh⟩,
    _ | ⟨rc, _ | ⟨pc, pl, pr, ph⟩, rr, rh⟩, h⟩ <;>
  first
    | rfl
    | (simp only [deleteRebalanceT, deleteRebalance, updateHeight, rotateRightT, rotateLeftT,
        rotateRight, rotateLeft]
       split_ifs <;> rfl)

theorem insertRecT_erase (dbg : Bool) (c : Course) :
    ∀ (t : Node) (d : Bool),
      (insertRecT dbg t c d).map (fun r => (r.1, r.2.1)) = insertRec t c d := by
  intro t
  induction t with
  | null => intro d; rfl
  | mk nc l r h ihl ihr =>
    intro d
    simp only [insertRecT, insertRec]
    split_ifs with h1 h2
    · rw [← ihl d]
      cases e1 : insertRecT dbg l c d with
      | none => rfl
      | some p =>
        obtain ⟨l', ins, ev1⟩ := p
        simp only [Option.map_some']
        rw [← insertRebalanceT_erase dbg]
        cases e2 : insertRebalanceT dbg (Node.mk nc l' r h) c with
        | none => rfl
        | some q => rfl
    · rw [← ihr d]
      cases e1 : insertRecT dbg r c d with
      | none => rfl
      | some p =>
        obtain ⟨r', ins, ev1⟩ := p
        simp only [Option.map_some']
        rw [← insertRebalanceT_erase dbg]
        cases e2 : insertRebalanceT dbg (Node.mk nc l r' h) c with
        | none => rfl
        | some q => rfl
    · rfl

/-- One unfolding of `deleteRecT` at a node. -/
theorem deleteRecT_mk (dbg : Bool) (rc : Course) (l r : Node) (h : Int) (k : String)
    (d : Bool) :
    deleteRecT dbg (Node.mk rc l r h) k d =
      if strLt k rc.courseNumber then
        match deleteRecT dbg l k d with
        | none => none
        | some (l', d', ev1) =>
          match deleteRebalanceT dbg (Node.mk rc l' r h) with
          | none => none
          | some (n, ev2) => some (n, d', trace dbg (Event.goingLeftToDelete k) ++ ev1 ++ ev2)
      else if strLt rc.courseNumber k then
        match deleteRecT dbg r k d with
        | none => none
        | some (r', d', ev1) =>
          match deleteRebalanceT dbg (Node.mk rc l r' h) with
          | none => none
          | some (n, ev2) => some (n, d', trace dbg (Event.goingRightToDelete k) ++ ev1 ++ ev2)
      else
        if isNull l || isNull r then
          if isNull (if isNull l then r else l) then
            some (Node.null, true, trace dbg (Event.deleting k))
          else
            match deleteRebalanceT dbg (if isNull l then r else l) with
            | none => none
            | some (n, ev) => some (n, true, trace dbg (Event.deleting k) ++ ev)
        else
          match minValueNode r with
          | Node.null => none
          | Node.mk tc _ _ _ =>
            match deleteRecT dbg r tc.courseNumber true with
            | none => none
            | some (r', d', ev1) =>
              match deleteRebalanceT dbg (Node.mk tc l r' h) with
              | none => none
              | some (n, ev2) => some (n, d', trace dbg (Event.deleting k) ++ ev1 ++ ev2) := by
  rw [deleteRecT]

theorem deleteRecT_erase (dbg : Bool) :
    ∀ (t : Node) (k : String) (d : Bool),
      (deleteRecT dbg t k d).map (fun r => (r.1, r.2.1)) = deleteRec t k d := by
  intro t
  induction t with
  | null => intro k d; rfl
  | mk nc l r h ihl ihr =>
    intro k d
    rw [deleteRecT_mk, deleteRec_mk]
    generalize (if isNull l = true then r else l) = temp
    split_ifs with h1 h2 h3 h4
    · rw [← ihl k d]
      cases e1 : deleteRecT dbg l k d with
      | none => rfl
      | some p =>
        obtain ⟨l', d', ev1⟩ := p
        simp only [Option.map_some']
        rw [← deleteRebalanceT_erase dbg]
        cases e2 : deleteRebalanceT dbg (Node.mk nc l' r h) with
        | none => rfl
        | some q => rfl
    · rw [← ihr k d]
      cases e1 : deleteRecT dbg r k d with
      | none => rfl
      | some p =>
        obtain ⟨r', d', ev1⟩ := p
        simp only [Option.map_some']
        rw [← deleteRebalanceT_erase dbg]
        cases e2 : deleteRebalanceT dbg (Node.mk nc l r' h) with
        | none => rfl
        | some q => rfl
    · rfl
    · rw [← deleteRebalanceT_erase dbg]
      cases e2 : deleteRebalanceT dbg temp with
      | none => rfl
      | some q => rfl
    · cases e0 : minValueNode r with
      | null => rfl
      | mk tc tl tr th =>
        simp only []
        rw [← ihr tc.courseNumber true]
        cases e1 : deleteRecT dbg r tc.courseNumber true with
        | none => rfl
        | some p =>
          obtain ⟨r', d', ev1⟩ := p
          simp only [Option.map_some']
          rw [← deleteRebalanceT_erase dbg]
          cases e2 : deleteRebalanceT dbg (Node.mk tc l r' h) with
          | none => rfl
          | some q => rfl

/-- Dropping the trace of `InsertT` gives `Insert`. -/
theorem InsertT_erase (dbg : Bool) (t : BinarySearchTree) (c : Course) :
    (InsertT dbg t c).map (fun r => (r.1, r.2.1)) = Insert t c := by
  simp only [InsertT, Insert]
  rw [← insertRecT_erase dbg c t.root false]
  cases insertRecT dbg t.root c false with
  | none => rfl
  | some p => rfl

/-- Dropping the trace of `DeleteT` gives `Delete`. -/
theorem DeleteT_erase (dbg : Bool) (t : BinarySearchTree) (k : String) :
    (DeleteT dbg t k).map (fun r => (r.1, r.2.1)) = Delete t k := by
  simp only [DeleteT, Delete]
  rw [← deleteRecT_erase dbg t.root k false]
  cases deleteRecT dbg t.root k false with
  | none => rfl
  | some p => rfl

/-! ## The two rebalancing examples -/

/-- C13: inserting three records with strictly increasing keys `a < b < c`, in
that order, into the empty tree succeeds three times; the trace of the three
calls holds exactly one rotation line, a left rotation at `a`, written by the
third call; and the final tree has `b` at the root, `a` as left child, `c` as
right child, and height 2. -/
theorem increasing_triple_rotates_left (a b c : Course)
    (hab : strLt a.courseNumber b.courseNumber = true)
    (hbc : strLt b.courseNumber c.courseNumber = true) :
    InsertT true BinarySearchTree.new a =
      some (⟨Node.mk a Node.null Node.null 1, 1⟩, true, [Event.insertAt a.courseNumber]) ∧
    InsertT true ⟨Node.mk a Node.null Node.null 1, 1⟩ b =
      some (⟨Node.mk a Node.null (Node.mk b Node.null Node.null 1) 2, 2⟩, true,
        [Event.goingRightFrom a.courseNumber, Event.insertAt b.courseNumber,
          Event.balanceFactorAt a.courseNumber (-1)]) ∧
    InsertT true ⟨Node.mk a Node.null (Node.mk b Node.null Node.null 1) 2, 2⟩ c =
      some (⟨Node.mk b (Node.mk a Node.null Node.null 1) (Node.mk c Node.null Node.null 1) 2, 3⟩,
        true,
        [Event.goingRightFrom a.courseNumber, Event.goingRightFrom b.courseNumber,
          Event.insertAt c.courseNumber, Event.balanceFactorAt b.courseNumber (-1),
          Event.balanceFactorAt a.courseNumber (-2), Event.rotateLeftAt a.courseNumber]) ∧
    ([Event.insertAt a.courseNumber] ++
      [Event.goingRightFrom a.courseNumber, Event.insertAt b.courseNumber,
          Event.balanceFactorAt a.courseNumber (-1)] ++
      [Event.goingRightFrom a.courseNumber, Event.goingRightFrom b.courseNumber,
          Event.insertAt c.courseNumber, Event.balanceFactorAt b.courseNumber (-1),
          Event.balanceFactorAt a.courseNumber (-2),
          Event.rotateLeftAt a.courseNumber]).filter Event.isRotation =
      [Event.rotateLeftAt a.courseNumber] ∧
    height (Node.mk b (Node.mk a Node.null Node.null 1) (Node.mk c Node.null Node.null 1) 2)
      = 2 := by
  have hab' : a.courseNumber < b.courseNumber := (strLt_iff _ _).1 hab
  have hbc' : b.courseNumber < c.courseNumber := (strLt_iff _ _).1 hbc
  have hba : strLt b.courseNumber a.courseNumber = false :=
    (strLt_false_iff _ _).2 (lt_asymm hab')
  have hcb : strLt c.courseNumber b.courseNumber = false :=
    (strLt_false_iff _ _).2 (lt_asymm hbc')
  have hac : strLt a.courseNumber c.courseNumber = true :=
    (strLt_iff _ _).2 (lt_trans hab' hbc')
  have hca : strLt c.courseNumber a.courseNumber = false :=
    (strLt_false_iff _ _).2 (lt_asymm (lt_trans hab' hbc'))
  refine ⟨rfl, ?_, ?_, by simp [Event.isRotation], by simp [height]⟩
  · simp [InsertT, insertRecT, insertRebalanceT, updateHeight, balanceFactor,
      nodeHeight, trace, hab, hba]
  · simp [InsertT, insertRecT, insertRebalanceT, rotateLeftT, updateHeight, balanceFactor,
      nodeHeight, trace, hbc, hcb, hac, hca]

theorem increasing_triple_rotates_left_witness :
    InsertT true BinarySearchTree.new csci101 =
      some (⟨Node.mk csci101 Node.null Node.null 1, 1⟩, true,
        [Event.insertAt csci101.courseNumber]) ∧
    InsertT true ⟨Node.mk csci101 Node.null Node.null 1, 1⟩ csci201 =
      some (⟨Node.mk csci101 Node.null (Node.mk csci201 Node.null Node.null 1) 2, 2⟩, true,
        [Event.goingRightFrom csci101.courseNumber, Event.insertAt csci201.courseNumber,
          Event.balanceFactorAt csci101.courseNumber (-1)]) ∧
    InsertT true ⟨Node.mk csci101 Node.null (Node.mk csci201 Node.null Node.null 1) 2, 2⟩
        csci301 =
      some (⟨Node.mk csci201 (Node.mk csci101 Node.null Node.null 1)
          (Node.mk csci301 Node.null Node.null 1) 2, 3⟩,
        true,
        [Event.goingRightFrom csci101.courseNumber, Event.goingRightFrom csci201.courseNumber,
          Event.insertAt csci301.courseNumber, Event.balanceFactorAt csci201.courseNumber (-1),
          Event.balanceFactorAt csci101.courseNumber (-2),
          Event.rotateLeftAt csci101.courseNumber]) ∧
    ([Event.insertAt csci101.courseNumber] ++
      [Event.goingRightFrom csci101.courseNumber, Event.insertAt csci201.courseNumber,
          Event.balanceFactorAt csci101.courseNumber (-1)] ++
      [Event.goingRightFrom csci101.courseNumber, Event.goingRightFrom csci201.courseNumber,
          Event.insertAt csci301.courseNumber, Event.balanceFactorAt csci201.courseNumber (-1),
          Event.balanceFactorAt csci101.courseNumber (-2),
          Event.rotateLeftAt csci101.courseNumber]).filter Event.isRotation =
      [Event.rotateLeftAt csci101.courseNumber] ∧
    height (Node.mk csci201 (Node.mk csci101 Node.null Node.null 1)
      (Node.mk csci301 Node.null Node.null 1) 2) = 2 :=
  increasing_triple_rotates_left csci101 csci201 csci301 (by decide) (by decide)

/-- A right-skewed chain of three nodes is not a tree that `Insert` and `Delete`
calls produce: its root is out of balance. -/
theorem chain_not_reachable (a b c : Course) (ha hb hc n : Int) :
    ¬ Reachable
      ⟨Node.mk a Node.null (Node.mk b Node.null (Node.mk c Node.null Node.null hc) hb) ha,
        n⟩ := by
  intro h
  obtain ⟨hav, _, _⟩ := reachable_inv h
  obtain ⟨_, hr, _, h1, _⟩ := (avl_mk _ _ _ _).1 hav
  obtain ⟨_, hcc, hbh, _, _⟩ := (avl_mk _ _ _ _).1 hr
  obtain ⟨_, _, hch, _, _⟩ := (avl_mk _ _ _ _).1 hcc
  simp only [nodeHeight_null, nodeHeight_mk] at h1 hbh hch
  omega

theorem fourTree_reachable : Reachable fourTree :=
  ⟨[Op.insert csci101, Op.insert csci201, Op.insert csci301, Op.insert csci401], by decide⟩

theorem getlineAll_eq_nil {d : Char} {s : List Char} (h : getlineAll d s = []) : s = [] := by
  cases s with
  | nil => rfl
  | cons c cs =>
    simp only [getlineAll] at h
    split_ifs at h
    cases e : getlineAll d cs with
    | nil => simp [e] at h
    | cons tok rest => simp [e] at h

theorem getlineAll_no_delim (d : Char) :
    ∀ (s : List Char), ∀ tok ∈ getlineAll d s, d ∉ tok := by
  intro s
  induction s with
  | nil => intro tok h; simp [getlineAll] at h
  | cons c cs ih =>
    intro tok h
    simp only [getlineAll] at h
    split_ifs at h with hc
    · rcases List.mem_cons.1 h with rfl | h
      · simp
      · exact ih tok h
    · cases e : getlineAll d cs with
      | nil =>
        simp only [e, List.mem_singleton] at h
        subst h
        simpa using fun e' => hc e'.symm
      | cons t rest =>
        simp only [e, List.mem_cons] at h
        rcases h with rfl | h
        · have := ih t (by rw [e]; simp)
          simp only [List.mem_cons, not_or]
          exact ⟨fun e' => hc e'.symm, this⟩
        · exact ih tok (by rw [e]; simp [h])

theorem intercalate_cons_cons (sep a b : List Char) (l : List (List Char)) :
    List.intercalate sep (a :: b :: l) = a ++ sep ++ List.intercalate sep (b :: l) := by
  simp [List.intercalate, List.intersperse]

theorem intercalate_singleton (sep a : List Char) : List.intercalate sep [a] = a := by
  simp [List.intercalate, List.intersperse]

/-- Joining the tokens of `getlineAll` with the delimiter gives the stream back,
up to one final delimiter. -/
theorem getlineAll_intercalate (d : Char) :
    ∀ s : List Char, s = List.intercalate [d] (getlineAll d s) ∨
      s = List.intercalate [d] (getlineAll d s) ++ [d] := by
  intro s
  induction s with
  | nil => left; simp [getlineAll, List.intercalate]
  | cons c cs ih =>
    simp only [getlineAll]
    split_ifs with hc
    · subst hc
      cases e : getlineAll c cs with
      | nil =>
        right
        rw [getlineAll_eq_nil e, intercalate_singleton]
        rfl
      | cons t rest =>
        rw [e] at ih
        rw [intercalate_cons_cons]
        rcases ih with ih | ih
        · left; rw [← ih]; rfl
        · right
          conv_lhs => rw [ih]
          simp
    · cases e : getlineAll d cs with
      | nil =>
        left
        rw [getlineAll_eq_nil e, intercalate_singleton]
      | cons t rest =>
        rw [e] at ih
        simp only []
        cases rest with
        | nil =>
          rw [intercalate_singleton] at ih ⊢
          rcases ih with ih | ih
          · left; rw [← ih]
          · right; rw [ih]; simp
        | cons t2 rest2 =>
          rw [intercalate_cons_cons] at ih ⊢
          rcases ih with ih | ih
          · left; rw [ih]; simp
          · right; rw [ih]; simp

theorem trimToken_eq (tok : List Char) :
    trimToken tok = (tok.dropWhile isSpace).rdropWhile isSpace := rfl

/-- What the two `erase` calls do to a token. -/
theorem trimToken_spec (tok : List Char) :
    (∃ pre suf, tok = pre ++ trimToken tok ++ suf ∧
      (∀ c ∈ pre, isSpace c = true) ∧ (∀ c ∈ suf, isSpace c = true)) ∧
    (∀ c, (trimToken tok).head? = some c → isSpace c = false) ∧
    (∀ c, (trimToken tok).getLast? = some c → isSpace c = false) := by
  have hsplit : tok.dropWhile isSpace =
      trimToken tok ++ ((tok.dropWhile isSpace).reverse.takeWhile isSpace).reverse := by
    have := List.takeWhile_append_dropWhile isSpace (tok.dropWhile isSpace).reverse
    have h2 := congrArg List.reverse this
    rw [List.reverse_append, List.reverse_reverse] at h2
    rw [trimToken]
    exact h2.symm
  refine ⟨⟨tok.takeWhile isSpace,
    ((tok.dropWhile isSpace).reverse.takeWhile isSpace).reverse, ?_, ?_, ?_⟩, ?_, ?_⟩
  · rw [List.append_assoc, ← hsplit, List.takeWhile_append_dropWhile]
  · intro c hc; exact List.mem_takeWhile_imp hc
  · intro c hc; exact List.mem_takeWhile_imp (List.mem_reverse.1 hc)
  · intro c hc
    have h1 := List.head?_dropWhile_not isSpace tok
    rw [hsplit] at h1
    cases e : trimToken tok with
    | nil => rw [e] at hc; simp at hc
    | cons x xs =>
      rw [e] at hc h1
      simp only [List.head?_cons, Option.some.injEq] at hc
      subst hc
      simpa using h1
  · intro c hc
    by_cases hne : trimToken tok = []
    · rw [hne] at hc; simp at hc
    · have h1 := List.rdropWhile_last_not isSpace (tok.dropWhile isSpace)
        (by rw [← trimToken_eq]; exact hne)
      have h2 : (trimToken tok).getLast? = some ((trimToken tok).getLast hne) :=
        List.getLast?_eq_getLast _ hne
      rw [h2, Option.some.injEq] at hc
      subst hc
      simpa [trimToken_eq] using h1

theorem trimToken_all_space {tok : List Char} (h : ∀ c ∈ tok, isSpace c = true) :
    trimToken tok = [] := by
  have : tok.dropWhile isSpace = [] := List.dropWhile_eq_nil_iff.2 (by simpa using h)
  simp [trimToken, this]

theorem recordOfLine_of_short {line : String} (h : (Split line).length < 2) :
    recordOfLine line = none := by
  unfold recordOfLine
  cases e : Split line with
  | nil => rfl
  | cons a as =>
    cases as with
    | nil => rfl
    | cons b bs =>
      rw [e] at h
      simp only [List.length_cons] at h
      omega

theorem recordOfLine_of_long {line : String} (h : ¬ (Split line).length < 2) :
    recordOfLine line =
      some ⟨(Split line).getD 0 "", (Split line).getD 1 "",
        ((Split line).drop 2).filter (fun tok => tok ≠ "")⟩ := by
  unfold recordOfLine
  cases e : Split line with
  | nil => rw [e] at h; simp at h
  | cons a as =>
    cases as with
    | nil => rw [e] at h; simp at h
    | cons b bs => rfl

/-- The loop of `loadCourses` inserts the records of the well-formed lines. -/
theorem loadLines_fst (dbg : Bool) :
    ∀ (lines : List String) (t : BinarySearchTree),
      (loadLines dbg lines t).map Prod.fst = insertAll t (lines.filterMap recordOfLine) := by
  intro lines
  induction lines with
  | nil => intro t; rfl
  | cons line rest ih =>
    intro t
    simp only [loadLines]
    split_ifs with h1 h2
    · subst h1
      have : recordOfLine "" = none := by decide
      rw [List.filterMap_cons_none this]
      exact ih t
    · rw [List.filterMap_cons_none (recordOfLine_of_short h2)]
      exact ih t
    · rw [List.filterMap_cons_some (recordOfLine_of_long h2)]
      simp only [insertAll]
      rw [← InsertT_erase dbg]
      cases e : InsertT dbg t
          ⟨(Split line).getD 0 "", (Split line).getD 1 "",
            ((Split line).drop 2).filter (fun tok => tok ≠ "")⟩ with
      | none => rfl
      | some p =>
        obtain ⟨t', b, ev⟩ := p
        simp only [Option.map_some']
        rw [← ih t']
        cases loadLines dbg rest t' with
        | none => rfl
        | some q => rfl

/-- C15: the loader inserts exactly the records of the well-formed lines, in
source order.  From the empty tree the load always runs to the end and its
tree is the one obtained by inserting, in order, the record of every line that
is not blank and has at least two fields (id the first field, name the second,
prerequisites the non-empty fields from the third onward); a blank line or a
line with fewer than two fields has no record and leaves the loop state as it
was.  The two-line example source gives two records, `Search("CSCI201")` has
prerequisites `["CSCI101"]`, and the line `BADLINE` alone leaves the tree empty. -/
theorem loader_inserts_wellformed :
    (∀ (dbg : Bool) (content filePath : String),
      ∃ t ev, loadCourses dbg (some content) filePath BinarySearchTree.new = some (t, ev) ∧
        insertAll BinarySearchTree.new
          (((getlineAll '\n' content.data).map String.mk).filterMap recordOfLine) = some t) ∧
    (∀ line : String, recordOfLine line =
      if line = "" ∨ (Split line).length < 2 then none
      else some ⟨(Split line).getD 0 "", (Split line).getD 1 "",
        ((Split line).drop 2).filter (fun tok => tok ≠ "")⟩) ∧
    (∀ (dbg : Bool) (line : String) (rest : List String) (t : BinarySearchTree),
      line = "" ∨ (Split line).length < 2 →
        loadLines dbg (line :: rest) t = loadLines dbg rest t) ∧
    (loadCourses true (some sampleSource) "courses.csv" BinarySearchTree.new).map
        (fun r => (Size r.1, InOrder r.1, (Search r.1 "CSCI201").preReqs)) =
      some (2, [csci101, csci201], ["CSCI101"]) ∧
    (loadCourses true (some "BADLINE") "courses.csv" BinarySearchTree.new).map Prod.fst =
      some BinarySearchTree.new := by
  refine ⟨?_, ?_, ?_, by decide, by decide⟩
  · intro dbg content filePath
    obtain ⟨t, e, _, _⟩ := insertAll_spec
      (((getlineAll '\n' content.data).map String.mk).filterMap recordOfLine)
      BinarySearchTree.new inv_new
    have h := loadLines_fst dbg ((getlineAll '\n' content.data).map String.mk)
      BinarySearchTree.new
    rw [e] at h
    cases e2 : loadLines dbg ((getlineAll '\n' content.data).map String.mk)
        BinarySearchTree.new with
    | none => rw [e2] at h; cases h
    | some p =>
      obtain ⟨t', ev⟩ := p
      rw [e2] at h
      simp only [Option.map_some', Option.some.injEq] at h
      subst h
      exact ⟨t', ev, by simp [loadCourses, e2], e⟩
  · intro line
    split_ifs with h
    · rcases h with h | h
      · subst h; decide
      · exact recordOfLine_of_short h
    · push_neg at h
      exact recordOfLine_of_long (not_lt.2 h.2)
  · intro dbg line rest t h
    rcases h with h | h
    · subst h; simp [loadLines]
    · simp [loadLines, h]

/-- C16: `Split` cuts the line at its commas and trims each piece.  The pieces,
joined again with commas, give the line back (up to one final comma), so they
come in the order of the line and hold no comma; each returned field is its
piece without the leading and trailing characters of `" \t\r\n"`, so it neither
starts nor ends with one of them, and a piece made only of such characters
gives the empty field. -/
theorem split_fields (line : String) :
    ∃ raw : List (List Char),
      Split line = raw.map (fun tok => String.mk (trimToken tok)) ∧
      (line.data = List.intercalate [','] raw ∨
        line.data = List.intercalate [','] raw ++ [',']) ∧
      (∀ tok ∈ raw, ',' ∉ tok ∧
        (∃ pre suf, tok = pre ++ trimToken tok ++ suf ∧
          (∀ c ∈ pre, isSpace c = true) ∧ (∀ c ∈ suf, isSpace c = true)) ∧
        ((∀ c ∈ tok, isSpace c = true) → trimToken tok = [])) ∧
      (∀ f ∈ Split line, ',' ∉ f.data ∧
        (∀ c, f.data.head? = some c → isSpace c = false) ∧
        (∀ c, f.data.getLast? = some c → isSpace c = false)) := by
  refine ⟨getlineAll ',' line.data, rfl, getlineAll_intercalate ',' line.data, ?_, ?_⟩
  · intro tok htok
    exact ⟨getlineAll_no_delim ',' line.data tok htok, (trimToken_spec tok).1,
      trimToken_all_space⟩
  · intro f hf
    simp only [Split, List.mem_map] at hf
    obtain ⟨tok, htok, rfl⟩ := hf
    obtain ⟨⟨pre, suf, e, _, _⟩, hh, hl⟩ := trimToken_spec tok
    refine ⟨?_, hh, hl⟩
    intro hc
    apply getlineAll_no_delim ',' line.data tok htok
    rw [e]
    simp only [List.mem_append]
    exact Or.inl (Or.inr hc)

/-- C18 fails on the code: the source whose only line is `BADLINE` is not blank
and has a single field; the loader skips it and writes nothing to `cout`,
whether the trace is on or off. -/
theorem malformed_line_no_diagnostic :
    "BADLINE" ≠ "" ∧ (Split "BADLINE").length < 2 ∧
    loadCourses true (some "BADLINE\n") "courses.csv" BinarySearchTree.new =
      some (BinarySearchTree.new, []) ∧
    loadCourses false (some "BADLINE\n") "courses.csv" BinarySearchTree.new =
      some (BinarySearchTree.new, []) := by
  decide

/-! ## Every balanced search tree is reachable -/

theorem eq_null_of_nodeHeight_le {t : Node} (ha : AVL t) (h : nodeHeight t ≤ 0) :
    t = Node.null := by
  cases t with
  | null => rfl
  | mk c l r hh =>
    obtain ⟨hl, hr, e, _, _⟩ := (avl_mk c l r hh).1 ha
    have := nodeHeight_nonneg l hl
    have := nodeHeight_nonneg r hr
    rw [nodeHeight_mk] at h
    omega

theorem insertRebalance_balanced {c : Course} {l r : Node} (h : Int) (x : Course)
    (hb1 : -1 ≤ nodeHeight l - nodeHeight r) (hb2 : nodeHeight l - nodeHeight r ≤ 1) :
    insertRebalance (Node.mk c l r h) x =
      some (Node.mk c l r (1 + max (nodeHeight l) (nodeHeight r))) := by
  simp only [insertRebalance, updateHeight, balanceFactor]
  rw [if_neg (by omega), if_neg (by omega)]

/-- Taking the leaf chosen by `deepest` out of a balanced search tree leaves a
balanced tree, and inserting that record again gives the tree back. -/
theorem removeDeepest_spec :
    ∀ t : Node, AVL t → Ordered t → t ≠ Node.null →
      AVL (removeDeepest t) ∧
      (nodeHeight (removeDeepest t) = nodeHeight t ∨
        nodeHeight (removeDeepest t) = nodeHeight t - 1) ∧
      (∃ pre post, inOrderRec t = pre ++ deepest t :: post ∧
        inOrderRec (removeDeepest t) = pre ++ post) ∧
      ∀ d, insertRec (removeDeepest t) (deepest t) d = some (t, true) := by
  intro t
  induction t with
  | null => intro _ _ h; exact absurd rfl h
  | mk c l r h ihl ihr =>
    intro ha ho _
    obtain ⟨hl, hr, hh, hb1, hb2⟩ := (avl_mk c l r h).1 ha
    obtain ⟨hol, hor, hlt, hgt⟩ := (ordered_mk c l r h).1 ho
    have nl := nodeHeight_nonneg l hl
    have nr := nodeHeight_nonneg r hr
    by_cases hleaf : (isNull l && isNull r) = true
    · have el : l = Node.null := by
        cases l with
        | null => rfl
        | mk _ _ _ _ => simp [isNull] at hleaf
      have er : r = Node.null := by
        cases r with
        | null => rfl
        | mk _ _ _ _ => simp [isNull] at hleaf
      subst el; subst er
      simp only [removeDeepest, deepest, isNull, Bool.and_self, if_true]
      refine ⟨trivial, ?_, ⟨[], [], by simp [inOrderRec], rfl⟩, ?_⟩
      · right
        rw [nodeHeight_null, nodeHeight_mk]
        rw [nodeHeight_null] at hh
        omega
      · intro d
        rw [nodeHeight_null] at hh
        have : h = 1 := by omega
        subst this
        rfl
    · by_cases hcmp : nodeHeight r ≤ nodeHeight l
      · have hne : l ≠ Node.null := by
          intro el
          subst el
          rw [nodeHeight_null] at hcmp
          have er := eq_null_of_nodeHeight_le hr hcmp
          subst er
          simp [isNull] at hleaf
        obtain ⟨ha', hh', ⟨pre, post, e1, e2⟩, hins⟩ := ihl hl hol hne
        have nl' := nodeHeight_nonneg _ ha'
        have hx : (deepest l).courseNumber < c.courseNumber :=
          hlt _ (by rw [e1]; simp)
        simp only [removeDeepest, deepest, hleaf, hcmp, if_true, if_false, updateHeight,
          Bool.false_eq_true]
        refine ⟨?_, ?_, ⟨pre, post ++ c :: inOrderRec r, ?_, ?_⟩, ?_⟩
        · rw [avl_mk]
          refine ⟨ha', hr, rfl, ?_, ?_⟩ <;> omega
        · simp only [nodeHeight_mk]; omega
        · simp [inOrderRec, e1]
        · simp [inOrderRec, e2]
        · intro d
          simp only [insertRec, strLt_iff, hx, if_true, hins d]
          rw [insertRebalance_balanced _ _ hb1 hb2, hh]
      · have hne : r ≠ Node.null := by
          intro er
          subst er
          rw [nodeHeight_null] at hcmp
          omega
        obtain ⟨ha', hh', ⟨pre, post, e1, e2⟩, hins⟩ := ihr hr hor hne
        have nr' := nodeHeight_nonneg _ ha'
        have hx : c.courseNumber < (deepest r).courseNumber :=
          hgt _ (by rw [e1]; simp)
        simp only [removeDeepest, deepest, hleaf, hcmp, if_true, if_false, updateHeight,
          Bool.false_eq_true]
        refine ⟨?_, ?_, ⟨inOrderRec l ++ c :: pre, post, ?_, ?_⟩, ?_⟩
        · rw [avl_mk]
          refine ⟨hl, ha', rfl, ?_, ?_⟩ <;> omega
        · simp only [nodeHeight_mk]; omega
        · simp [inOrderRec, e1]
        · simp [inOrderRec, e2]
        · intro d
          simp only [insertRec, strLt_iff, hx, lt_asymm hx, if_true, if_false, hins d]
          rw [insertRebalance_balanced _ _ hb1 hb2, hh]

theorem runOps_append : ∀ (a b : List Op) (t : BinarySearchTree),
    runOps t (a ++ b) = (runOps t a).bind (fun t' => runOps t' b) := by
  intro a
  induction a with
  | nil => intro b t; rfl
  | cons op rest ih =>
    intro b t
    simp only [List.cons_append, runOps]
    cases applyOp t op with
    | none => rfl
    | some t' => exact ih b t'

/-- Every tree that satisfies the height invariant and the search-tree order is
produced by a sequence of `Insert` calls on the empty tree. -/
theorem avl_reachable : ∀ (n : Nat) (t : Node), (inOrderRec t).length = n →
    AVL t → Ordered t → Reachable ⟨t, (n : Int)⟩ := by
  intro n
  induction n with
  | zero =>
    intro t hlen _ _
    have : t = Node.null := by
      cases t with
      | null => rfl
      | mk c l r h => simp [inOrderRec] at hlen
    subst this
    exact ⟨[], rfl⟩
  | succ n ih =>
    intro t hlen ha ho
    have hne : t ≠ Node.null := by
      intro e; subst e; simp [inOrderRec] at hlen
    obtain ⟨ha', _, ⟨pre, post, e1, e2⟩, hins⟩ := removeDeepest_spec t ha ho hne
    have hlen' : (inOrderRec (removeDeepest t)).length = n := by
      rw [e1] at hlen
      rw [e2]
      simp only [List.length_append, List.length_cons] at hlen ⊢
      omega
    have ho' : Ordered (removeDeepest t) := by
      show (inOrderRec (removeDeepest t)).Pairwise _
      rw [e2]
      have hp : (pre ++ deepest t :: post).Pairwise
          (fun a b => a.courseNumber < b.courseNumber) := by
        rw [← e1]; exact ho
      exact hp.sublist (List.Sublist.append_left (List.sublist_cons_self _ _) pre)
    obtain ⟨ops, hops⟩ := ih (removeDeepest t) hlen' ha' ho'
    refine ⟨ops ++ [Op.insert (deepest t)], ?_⟩
    rw [runOps_append, hops]
    simp [runOps, applyOp, Insert, hins false]

theorem runOpsInt_append : ∀ (a b : List Op) (t : BinarySearchTree),
    runOpsInt t (a ++ b) = (runOpsInt t a).bind (fun t' => runOpsInt t' b) := by
  intro a
  induction a with
  | nil => intro b t; rfl
  | cons op rest ih =>
    intro b t
    simp only [List.cons_append, runOpsInt]
    cases applyOpInt t op with
    | none => rfl
    | some t' => exact ih b t'

/-- Every tree of at most `INT_MAX` nodes that satisfies the height invariant and
the search-tree order is produced by a sequence of `Insert` calls on the empty
tree with `size` staying an `int`. -/
theorem avl_reachableInt : ∀ (n : Nat) (t : Node), (inOrderRec t).length = n →
    AVL t → Ordered t → (n : Int) ≤ intMax → ReachableInt ⟨t, (n : Int)⟩ := by
  intro n
  induction n with
  | zero =>
    intro t hlen _ _ _
    have : t = Node.null := by
      cases t with
      | null => rfl
      | mk c l r h => simp [inOrderRec] at hlen
    subst this
    exact ⟨[], rfl⟩
  | succ n ih =>
    intro t hlen ha ho hmax
    have hne : t ≠ Node.null := by
      intro e; subst e; simp [inOrderRec] at hlen
    obtain ⟨ha', _, ⟨pre, post, e1, e2⟩, hins⟩ := removeDeepest_spec t ha ho hne
    have hlen' : (inOrderRec (removeDeepest t)).length = n := by
      rw [e1] at hlen
      rw [e2]
      simp only [List.length_append, List.length_cons] at hlen ⊢
      omega
    have ho' : Ordered (removeDeepest t) := by
      show (inOrderRec (removeDeepest t)).Pairwise _
      rw [e2]
      have hp : (pre ++ deepest t :: post).Pairwise
          (fun a b => a.courseNumber < b.courseNumber) := by
        rw [← e1]; exact ho
      exact hp.sublist (List.Sublist.append_left (List.sublist_cons_self _ _) pre)
    have hlt : (n : Int) < intMax := by
      push_cast at hmax
      omega
    obtain ⟨ops, hops⟩ := ih (removeDeepest t) hlen' ha' ho' (le_of_lt hlt)
    refine ⟨ops ++ [Op.insert (deepest t)], ?_⟩
    rw [runOpsInt_append, hops]
    simp [runOpsInt, applyOpInt, InsertInt, hins false, hlt]

/-- The trees reachable with `size` an `int` are the reachable trees whose
`size` is at most `INT_MAX`. -/
theorem reachableInt_iff (t : BinarySearchTree) :
    ReachableInt t ↔ Reachable t ∧ Size t ≤ intMax := by
  constructor
  · exact reachableInt_spec
  · rintro ⟨hr, hmax⟩
    obtain ⟨ha, ho, hs⟩ := reachable_inv hr
    have key := avl_reachableInt _ t.root rfl ha ho (by rw [← hs]; exact hmax)
    have e : t = ⟨t.root, ((inOrderRec t.root).length : Int)⟩ := by
      cases t
      simp only [BinarySearchTree.mk.injEq, true_and]
      exact hs
    rw [e]
    exact key

/-! ## The height bound -/

theorem indexKey_lt {i j : Nat} (h : i < j) : indexKey i < indexKey j := by
  rw [String.lt_iff_toList_lt]
  show List.replicate i 'a' < List.replicate j 'a'
  induction i generalizing j with
  | zero =>
    obtain ⟨j', rfl⟩ := Nat.exists_eq_succ_of_ne_zero (Nat.pos_iff_ne_zero.1 h)
    exact List.Lex.nil
  | succ i ih =>
    obtain ⟨j', rfl⟩ :=
      Nat.exists_eq_succ_of_ne_zero (Nat.pos_iff_ne_zero.1 (Nat.zero_lt_of_lt h))
    exact List.Lex.cons (ih (Nat.lt_of_succ_lt_succ h))

/-- The Fibonacci tree of height `h` is a balanced search tree of stored height
`h` with `fib (h + 2) - 1` nodes. -/
theorem fibTree_spec : ∀ (h lo : Nat),
    AVL (fibTree h lo) ∧ nodeHeight (fibTree h lo) = (h : Int) ∧ Ordered (fibTree h lo) ∧
    (∀ x ∈ inOrderRec (fibTree h lo),
      ∃ i, lo ≤ i ∧ i + 1 < lo + Nat.fib (h + 2) ∧ x.courseNumber = indexKey i) ∧
    countNodes (fibTree h lo) + 1 = Nat.fib (h + 2) := by
  intro h
  induction h using Nat.twoStepInduction with
  | zero =>
    intro lo
    refine ⟨trivial, rfl, ordered_null, ?_, rfl⟩
    intro x hx
    simp [fibTree, inOrderRec] at hx
  | one =>
    intro lo
    refine ⟨?_, rfl, ?_, ?_, rfl⟩
    · simp [fibTree, AVL, nodeHeight]
    · simp [fibTree, Ordered, inOrderRec]
    · intro x hx
      simp only [fibTree, inOrderRec, List.nil_append, List.mem_singleton] at hx
      subst hx
      exact ⟨lo, le_refl _, by simp [Nat.fib], rfl⟩
  | more h ih0 ih1 =>
    intro lo
    obtain ⟨a1, n1, o1, k1, c1⟩ := ih1 lo
    obtain ⟨a0, n0, o0, k0, c0⟩ := ih0 (lo + Nat.fib (h + 3))
    have hF : Nat.fib (h + 4) = Nat.fib (h + 2) + Nat.fib (h + 3) := Nat.fib_add_two
    have hp3 : 0 < Nat.fib (h + 3) := Nat.fib_pos.2 (by omega)
    have hp2 : 0 < Nat.fib (h + 2) := Nat.fib_pos.2 (by omega)
    have e1 : h + 1 + 2 = h + 3 := rfl
    rw [e1] at k1 c1
    have e4 : h + 2 + 2 = h + 4 := rfl
    rw [e4]
    simp only [fibTree]
    refine ⟨?_, ?_, ?_, ?_, ?_⟩
    · rw [avl_mk, n1, n0]
      refine ⟨a1, a0, ?_, ?_, ?_⟩ <;> push_cast <;> omega
    · rw [nodeHeight_mk]; push_cast; ring
    · rw [ordered_mk]
      refine ⟨o1, o0, ?_, ?_⟩
      · intro x hx
        obtain ⟨i, _, hi2, e⟩ := k1 x hx
        rw [e]
        exact indexKey_lt (by omega)
      · intro x hx
        obtain ⟨i, hi1, _, e⟩ := k0 x hx
        rw [e]
        exact indexKey_lt (by omega)
    · intro x hx
      simp only [inOrderRec, List.mem_append, List.mem_cons] at hx
      rcases hx with hx | hx | hx
      · obtain ⟨i, hi1, hi2, e⟩ := k1 x hx
        exact ⟨i, hi1, by omega, e⟩
      · subst hx
        exact ⟨lo + (Nat.fib (h + 3) - 1), by omega, by omega, rfl⟩
      · obtain ⟨i, hi1, hi2, e⟩ := k0 x hx
        exact ⟨i, by omega, by omega, e⟩
    · simp only [countNodes]
      omega

/-- A height-balanced tree of height `h` has at least `fib (h + 2) - 1` nodes. -/
theorem fib_le_countNodes : ∀ t : Node, HeightBalanced t →
    Nat.fib (height t + 2) ≤ countNodes t + 1 := by
  intro t
  induction t with
  | null => intro _; simp [height, countNodes]
  | mk c l r h ihl ihr =>
    intro hb
    obtain ⟨hl, hr, habs⟩ := hb
    have h1 := ihl hl
    have h2 := ihr hr
    obtain ⟨hb1, hb2⟩ := abs_le.1 habs
    simp only [height, countNodes]
    by_cases hc : height r ≤ height l
    · have e : 1 + max (height l) (height r) + 2 = (height l + 1) + 2 := by
        rw [max_eq_left hc]; omega
      rw [e, Nat.fib_add_two]
      have hm : Nat.fib (height l + 1) ≤ Nat.fib (height r + 2) := Nat.fib_mono (by omega)
      have e2 : height l + 1 + 1 = height l + 2 := rfl
      rw [e2]
      omega
    · have hc' : height l ≤ height r := by omega
      have e : 1 + max (height l) (height r) + 2 = (height r + 1) + 2 := by
        rw [max_eq_right hc']; omega
      rw [e, Nat.fib_add_two]
      have hm : Nat.fib (height r + 1) ≤ Nat.fib (height l + 2) := Nat.fib_mono (by omega)
      have e2 : height r + 1 + 1 = height r + 2 := rfl
      rw [e2]
      omega

theorem logb_key (k n : Nat) :
    ((25 * k : Nat) : Real) < 36 * Real.logb 2 ((n : Real) + 2) ↔
      2 ^ (25 * k) < (n + 2) ^ 36 := by
  have h36 : (36 : Real) * Real.logb 2 ((n : Real) + 2) =
      Real.logb 2 (((n : Real) + 2) ^ 36) := by
    rw [Real.logb_pow]; norm_num
  rw [h36, Real.lt_logb_iff_rpow_lt (by norm_num) (by positivity), Real.rpow_natCast]
  constructor
  · intro h; exact_mod_cast h
  · intro h; exact_mod_cast h

/-- The bound `h ≤ ⌈1.44 * log2 (n + 2)⌉` as an inequality between natural
numbers. -/
theorem ceil_bound_iff (h n : Nat) (hh : 1 ≤ h) :
    (h : Int) ≤ ⌈(1.44 : Real) * Real.logb 2 ((n : Real) + 2)⌉ ↔
      2 ^ (25 * (h - 1)) < (n + 2) ^ 36 := by
  rw [← logb_key]
  have e1 : (h : Int) ≤ ⌈(1.44 : Real) * Real.logb 2 ((n : Real) + 2)⌉ ↔
      ((h : Int) - 1) < ⌈(1.44 : Real) * Real.logb 2 ((n : Real) + 2)⌉ := by
    constructor <;> intro h' <;> omega
  rw [e1, Int.lt_ceil]
  have e2 : (((h : Int) - 1 : Int) : Real) = ((h - 1 : Nat) : Real) := by
    push_cast [Nat.cast_sub hh]; ring
  rw [e2]
  push_cast
  constructor
  · intro h'; nlinarith
  · intro h'; nlinarith

set_option exponentiation.threshold 3000 in
theorem fib_pow_small : ∀ h < 92, 2 ^ (25 * (h - 1)) < (Nat.fib (h + 2) + 1) ^ 36 := by
  decide

theorem fib_pow_big : (Nat.fib 4555 + 1) ^ 36 ≤ 2 ^ (25 * (4553 - 1)) := by
  norm_num [Nat.fib]

theorem fib_94_gt : 2 ^ 64 < Nat.fib 94 := by
  norm_num [Nat.fib]

theorem sparseTree_count : countNodes (fibTree 4553 0) + 1 = Nat.fib 4555 :=
  (fibTree_spec 4553 0).2.2.2.2

theorem sparseTree_reachable : Reachable sparseTree := by
  obtain ⟨ha, _, ho, _, _⟩ := fibTree_spec 4553 0
  have hc := sparseTree_count
  have hlen : (inOrderRec (fibTree 4553 0)).length = Nat.fib 4555 - 1 := by
    rw [← countNodes_eq_length]; omega
  have hpos : 1 ≤ Nat.fib 4555 := Nat.fib_pos.2 (by norm_num)
  have key : Reachable ⟨fibTree 4553 0, ((Nat.fib 4555 - 1 : Nat) : Int)⟩ :=
    avl_reachable (Nat.fib 4555 - 1) (fibTree 4553 0) hlen ha ho
  have e : ((Nat.fib 4555 - 1 : Nat) : Int) = (Nat.fib 4555 : Int) - 1 := by
    rw [Nat.cast_sub hpos, Nat.cast_one]
  rw [e] at key
  exact key

/-- The range of `int` matters for the height bound.  With the counter of
`Insert`, which has no bound, the Fibonacci tree of height 4553 is reachable; it
holds `fib 4555 - 1` records, a number of 952 digits, and 4553 exceeds the
ceiling of `1.44 * log2 (n + 2)` for that number.  No run with `size` an `int`
comes near such a tree. -/
theorem unbounded_count_exceeds_bound :
    Reachable sparseTree ∧ ¬ ReachableInt sparseTree ∧
      ¬ ((height sparseTree.root : Int) ≤
        ⌈(1.44 : Real) * Real.logb 2 (((InOrder sparseTree).length : Real) + 2)⌉) := by
  obtain ⟨ha, hn, _, _, _⟩ := fibTree_spec 4553 0
  have hc := sparseTree_count
  have hh : height (fibTree 4553 0) = 4553 := by
    have := nodeHeight_eq_height _ ha
    rw [hn] at this
    exact_mod_cast this.symm
  refine ⟨sparseTree_reachable, ?_, ?_⟩
  · intro hri
    have hmax : ((Nat.fib 4555 : Int) - 1) ≤ intMax := (reachableInt_spec hri).2
    have hbig : Nat.fib 94 ≤ Nat.fib 4555 := Nat.fib_mono (by norm_num)
    have h94 := fib_94_gt
    have e : intMax = 2147483647 := rfl
    rw [e] at hmax
    have : (Nat.fib 4555 : Int) ≤ 2147483648 := by omega
    have h' : Nat.fib 4555 ≤ 2147483648 := by exact_mod_cast this
    have h64 : (2147483648 : Nat) < 2 ^ 64 := by norm_num
    omega
  · have hlen : (inOrderRec (fibTree 4553 0)).length + 2 = Nat.fib 4555 + 1 := by
      rw [← countNodes_eq_length]; omega
    intro hle
    have hle' : (height (fibTree 4553 0) : Int) ≤
        ⌈(1.44 : Real) * Real.logb 2 (((inOrderRec (fibTree 4553 0)).length : Real) + 2)⌉ :=
      hle
    rw [hh] at hle'
    have hlt := (ceil_bound_iff 4553 _ (by norm_num)).1 hle'
    rw [hlen] at hlt
    exact absurd hlt (not_lt.2 fib_pow_big)

/-- A balanced tree with stored heights exact that holds fewer than `2 ^ 64`
nodes has height at most the ceiling of `1.44 * log2 (n + 2)`, `n` being the
number of its nodes: a balanced tree of height `h` has at least
`fib (h + 2) - 1` nodes. -/
theorem avl_height_bound (t : Node) (ha : AVL t) (hn : countNodes t < 2 ^ 64) :
    (height t : Int) ≤ ⌈(1.44 : Real) * Real.logb 2 ((countNodes t : Real) + 2)⌉ := by
  have hfib := fib_le_countNodes t (heightBalanced_of_avl t ha)
  by_cases h0 : height t = 0
  · rw [h0]
    apply Int.ceil_nonneg
    apply mul_nonneg (by norm_num)
    apply Real.logb_nonneg (by norm_num)
    have : (0 : Real) ≤ (countNodes t : Real) := Nat.cast_nonneg _
    linarith
  · have hlt : height t + 2 < 94 := by
      by_contra hge
      have := Nat.fib_mono (not_lt.1 hge)
      have := fib_94_gt
      omega
    have hsmall := fib_pow_small (height t) (by omega)
    rw [ceil_bound_iff _ _ (by omega)]
    refine lt_of_lt_of_le hsmall ?_
    exact Nat.pow_le_pow_left (by omega) 36

/-- C12: a tree reachable from the empty tree by `Insert` and `Delete` calls,
`size` being an `int`, and holding `n` records has height at most the ceiling of
`1.44 * log2 (n + 2)`. -/
theorem reachable_height_bound (t : BinarySearchTree) (h : ReachableInt t) :
    (height t.root : Int) ≤
      ⌈(1.44 : Real) * Real.logb 2 (((InOrder t).length : Real) + 2)⌉ := by
  obtain ⟨hr, hmax⟩ := reachableInt_spec h
  obtain ⟨ha, _, hs⟩ := reachable_inv hr
  have hlen : countNodes t.root < 2 ^ 64 := by
    have h1 : ((inOrderRec t.root).length : Int) ≤ 2147483647 := by
      rw [← hs]; exact hmax
    have h2 : (inOrderRec t.root).length ≤ 2147483647 := by exact_mod_cast h1
    rw [countNodes_eq_length]
    have h64 : (2147483647 : Nat) < 2 ^ 64 := by norm_num
    omega
  have key := avl_height_bound t.root ha hlen
  rw [countNodes_eq_length] at key
  exact key

theorem reachable_height_bound_witness :
    (height sampleTree.root : Int) ≤
      ⌈(1.44 : Real) * Real.logb 2 (((InOrder sampleTree).length : Real) + 2)⌉ :=
  reachable_height_bound sampleTree
    ⟨[Op.insert csci101, Op.insert csci201], by decide⟩

/-! ## Key-driven and balance-driven rotation choice agree -/

theorem rebalance_agree_left {c nc : Course} {l l' r : Node} (h : Int)
    (hl : AVL l) (hl' : AVL l') (hr : AVL r) (hg : Grown c l l')
    (hb1 : -1 ≤ nodeHeight l - nodeHeight r) (hb2 : nodeHeight l - nodeHeight r ≤ 1) :
    deleteRebalance (Node.mk nc l' r h) = insertRebalance (Node.mk nc l' r h) c := by
  have nl := nodeHeight_nonneg l hl
  have nl' := nodeHeight_nonneg l' hl'
  have nr := nodeHeight_nonneg r hr
  simp only [insertRebalance, deleteRebalance, updateHeight, balanceFactor]
  by_cases hbf : nodeHeight l' - nodeHeight r > 1
  · rw [if_pos hbf, if_pos hbf]
    cases l' with
    | null => rw [nodeHeight_null] at hbf; omega
    | mk lc ll lr lh =>
      rw [nodeHeight_mk] at hbf nl'
      have hheavy : Heavy c (Node.mk lc ll lr lh) := by
        rcases hg with hg | ⟨hg, hg' | hg'⟩
        · rw [nodeHeight_mk] at hg; omega
        · subst hg'; rw [nodeHeight_mk, nodeHeight_null] at hg; omega
        · exact hg'
      simp only [balanceFactor]
      rcases hheavy with ⟨hk, hh1⟩ | ⟨hk, hh1⟩
      · rw [if_pos (by omega)]
        simp only [strLt_iff, hk, if_true]
      · have hk' : ¬ c.courseNumber < lc.courseNumber := lt_asymm hk
        rw [if_neg (by omega)]
        simp only [strLt_iff, hk, hk', if_true, if_false]
  · rw [if_neg hbf, if_neg hbf]
    have hbf2 : ¬ nodeHeight l' - nodeHeight r < -1 := by
      rcases hg with hg | ⟨hg, _⟩ <;> omega
    rw [if_neg hbf2, if_neg hbf2]

theorem rebalance_agree_right {c nc : Course} {l r r' : Node} (h : Int)
    (hl : AVL l) (hr : AVL r) (hr' : AVL r') (hg : Grown c r r')
    (hb1 : -1 ≤ nodeHeight l - nodeHeight r) (hb2 : nodeHeight l - nodeHeight r ≤ 1) :
    deleteRebalance (Node.mk nc l r' h) = insertRebalance (Node.mk nc l r' h) c := by
  have nl := nodeHeight_nonneg l hl
  have nr := nodeHeight_nonneg r hr
  have nr' := nodeHeight_nonneg r' hr'
  simp only [insertRebalance, deleteRebalance, updateHeight, balanceFactor]
  have hbf : ¬ nodeHeight l - nodeHeight r' > 1 := by
    rcases hg with hg | ⟨hg, _⟩ <;> omega
  rw [if_neg hbf, if_neg hbf]
  by_cases hbf2 : nodeHeight l - nodeHeight r' < -1
  · rw [if_pos hbf2, if_pos hbf2]
    cases r' with
    | null => rw [nodeHeight_null] at hbf2; omega
    | mk rc rl rr rh =>
      rw [nodeHeight_mk] at hbf2 nr'
      have hheavy : Heavy c (Node.mk rc rl rr rh) := by
        rcases hg with hg | ⟨hg, hg' | hg'⟩
        · rw [nodeHeight_mk] at hg; omega
        · subst hg'; rw [nodeHeight_mk, nodeHeight_null] at hg; omega
        · exact hg'
      simp only [balanceFactor]
      rcases hheavy with ⟨hk, hh1⟩ | ⟨hk, hh1⟩
      · have hk' : ¬ rc.courseNumber < c.courseNumber := lt_asymm hk
        rw [if_neg (by omega)]
        simp only [strLt_iff, hk, hk', if_true, if_false]
      · rw [if_pos (by omega)]
        simp only [strLt_iff, hk, if_true]
  · rw [if_neg hbf2, if_neg hbf2]

/-- On a tree satisfying the height invariant the two ways of choosing the
rotation give the same result. -/
theorem insertRecByBalance_eq (c : Course) :
    ∀ (t : Node) (d : Bool), AVL t → insertRecByBalance t c d = insertRec t c d := by
  intro t
  induction t with
  | null => intro d _; rfl
  | mk nc l r hh ihl ihr =>
    intro d ha
    obtain ⟨hl, hr, _, hb1, hb2⟩ := (avl_mk nc l r hh).1 ha
    simp only [insertRecByBalance, insertRec]
    split_ifs with h1 h2
    · rw [ihl d hl]
      obtain ⟨l', b, e, hl', hg⟩ := insertRec_avl c l d hl
      simp only [e]
      rw [rebalance_agree_left hh hl hl' hr hg hb1 hb2]
    · rw [ihr d hr]
      obtain ⟨r', b, e, hr', hg⟩ := insertRec_avl c r d hr
      simp only [e]
      rw [rebalance_agree_right hh hl hr hr' hg hb1 hb2]
    · rfl

/-- C23: on a reachable tree, for every record whose id is not yet stored,
`insertRec` returns a result, and it is the result of the variant of
`insertRec` that selects the rebalancing case by balance factors as `deleteRec`
does; the flag is true in both. -/
theorem insert_rotation_choice_agrees (t : BinarySearchTree) (r : Course)
    (h : Reachable t) (hk : r.courseNumber ∉ keys t.root) :
    ∃ n, insertRec t.root r false = some (n, true) ∧
      insertRecByBalance t.root r false = some (n, true) := by
  obtain ⟨ha, ho, _⟩ := reachable_inv h
  obtain ⟨n, b, e, _, _⟩ := insertRec_avl r t.root false ha
  have hb : b = true := by
    rcases insertRec_inOrder r t.root false n b ho e with ⟨hb, _⟩ | ⟨_, _, hm⟩
    · exact hb
    · exact absurd hm hk
  subst hb
  exact ⟨n, e, by rw [insertRecByBalance_eq r t.root false ha, e]⟩

theorem insert_rotation_choice_agrees_witness :
    ∃ n, insertRec sampleTree.root csci301 false = some (n, true) ∧
      insertRecByBalance sampleTree.root csci301 false = some (n, true) :=
  insert_rotation_choice_agrees sampleTree csci301 sampleTree_reachable (by decide)

/-! ## No absent child is read -/

/-- The tail of `insertRec` returns a result exactly when every pointer it reads
is present. -/
theorem insertRebalance_isSome (nc : Course) (l r : Node) (h : Int) (c : Course) :
    (insertRebalance (Node.mk nc l r h) c).isSome =
      (insertRebalanceDerefs (Node.mk nc l r h) c).all Deref.safe := by
  rcases l with _ | ⟨lc, ll, _ | ⟨mc, ml, mr, mh⟩, lh⟩ <;>
  rcases r with _ | ⟨rc, _ | ⟨pc, pl, pr, ph⟩, rr, rh⟩ <;>
  simp only [insertRebalance, insertRebalanceDerefs, updateHeight, rotateRight, rotateLeft] <;>
  split_ifs <;>
  simp [Deref.safe, isNull, leftOf, rightOf]

/-- The tail of `deleteRec` returns a result exactly when every rotation it
calls finds the child it needs. -/
theorem deleteRebalance_isSome (nc : Course) (l r : Node) (h : Int) :
    (deleteRebalance (Node.mk nc l r h)).isSome =
      (deleteRebalanceDerefs (Node.mk nc l r h)).all Deref.safe := by
  rcases l with _ | ⟨lc, ll, _ | ⟨mc, ml, mr, mh⟩, lh⟩ <;>
  rcases r with _ | ⟨rc, _ | ⟨pc, pl, pr, ph⟩, rr, rh⟩ <;>
  simp only [deleteRebalance, deleteRebalanceDerefs, updateHeight, rotateRight, rotateLeft] <;>
  split_ifs <;>
  simp [Deref.safe, isNull, leftOf, rightOf]

/-- Function `insertRec` returns a result exactly when every pointer read on the
way is present. -/
theorem insertRec_isSome (c : Course) :
    ∀ (t : Node) (d : Bool),
      (insertRec t c d).isSome = (insertRecDerefs t c d).all Deref.safe := by
  intro t
  induction t with
  | null => intro d; rfl
  | mk nc l r h ihl ihr =>
    intro d
    simp only [insertRec, insertRecDerefs]
    split_ifs with h1 h2
    · rw [List.all_append, ← ihl d]
      cases e : insertRec l c d with
      | none => rfl
      | some p =>
        obtain ⟨l', ins⟩ := p
        simp only [Option.isSome_some, Bool.true_and]
        rw [← insertRebalance_isSome]
        cases insertRebalance (Node.mk nc l' r h) c <;> rfl
    · rw [List.all_append, ← ihr d]
      cases e : insertRec r c d with
      | none => rfl
      | some p =>
        obtain ⟨r', ins⟩ := p
        simp only [Option.isSome_some, Bool.true_and]
        rw [← insertRebalance_isSome]
        cases insertRebalance (Node.mk nc l r' h) c <;> rfl
    · rfl

/-- One unfolding of `deleteRecDerefs` at a node. -/
theorem deleteRecDerefs_mk (rc : Course) (l r : Node) (h : Int) (k : String) (d : Bool) :
    deleteRecDerefs (Node.mk rc l r h) k d =
      if strLt k rc.courseNumber then
        deleteRecDerefs l k d ++
          match deleteRec l k d with
          | none => []
          | some (l', _) => deleteRebalanceDerefs (Node.mk rc l' r h)
      else if strLt rc.courseNumber k then
        deleteRecDerefs r k d ++
          match deleteRec r k d with
          | none => []
          | some (r', _) => deleteRebalanceDerefs (Node.mk rc l r' h)
      else
        if isNull l || isNull r then
          if isNull (if isNull l then r else l) then []
          else deleteRebalanceDerefs (if isNull l then r else l)
        else
          Deref.course (minValueNode r) ::
            match minValueNode r with
            | Node.null => []
            | Node.mk tc _ _ _ =>
              deleteRecDerefs r tc.courseNumber true ++
                match deleteRec r tc.courseNumber true with
                | none => []
                | some (r', _) => deleteRebalanceDerefs (Node.mk tc l r' h) := by
  rw [deleteRecDerefs]

/-- Function `deleteRec` returns a result exactly when every pointer read on the
way is present. -/
theorem deleteRec_isSome :
    ∀ (t : Node) (k : String) (d : Bool),
      (deleteRec t k d).isSome = (deleteRecDerefs t k d).all Deref.safe := by
  intro t
  induction t with
  | null => intro k d; rfl
  | mk nc l r h ihl ihr =>
    intro k d
    rw [deleteRec_mk, deleteRecDerefs_mk]
    generalize htemp : (if isNull l = true then r else l) = temp
    split_ifs with h1 h2 h3 h4
    · rw [List.all_append, ← ihl k d]
      cases e : deleteRec l k d with
      | none => rfl
      | some p =>
        obtain ⟨l', d'⟩ := p
        simp only [Option.isSome_some, Bool.true_and]
        rw [← deleteRebalance_isSome]
        cases deleteRebalance (Node.mk nc l' r h) <;> rfl
    · rw [List.all_append, ← ihr k d]
      cases e : deleteRec r k d with
      | none => rfl
      | some p =>
        obtain ⟨r', d'⟩ := p
        simp only [Option.isSome_some, Bool.true_and]
        rw [← deleteRebalance_isSome]
        cases deleteRebalance (Node.mk nc l r' h) <;> rfl
    · rfl
    · cases temp with
      | null => simp [isNull] at h4
      | mk tc tl tr th =>
        rw [← deleteRebalance_isSome]
        cases deleteRebalance (Node.mk tc tl tr th) <;> rfl
    · cases e0 : minValueNode r with
      | null => rfl
      | mk tc tl tr th =>
        simp only [List.all_cons, Deref.safe, isNull, Bool.not_false, Bool.true_and]
        rw [List.all_append, ← ihr tc.courseNumber true]
        cases e : deleteRec r tc.courseNumber true with
        | none => rfl
        | some p =>
          obtain ⟨r', d'⟩ := p
          simp only [Option.isSome_some, Bool.true_and]
          rw [← deleteRebalance_isSome]
          cases deleteRebalance (Node.mk tc l r' h) <;> rfl

/-- The third insertion of the sample run reads `node->right->course` at the
root and then calls `rotateLeft` on it. -/
theorem insertRecDerefs_sample :
    insertRecDerefs sampleTree.root csci301 false =
      [Deref.rightCourse
          (Node.mk csci101 Node.null
            (Node.mk csci201 Node.null (Node.mk csci301 Node.null Node.null 1) 2) 3),
        Deref.rotateLeft
          (Node.mk csci101 Node.null
            (Node.mk csci201 Node.null (Node.mk csci301 Node.null Node.null 1) 2) 3)] := by
  decide

/-- C21: on a reachable tree every `Insert` and every `Delete` returns a result,
and every pointer read on the way is present: each `rotateRight(y)` is called
on a node with a left child, each `rotateLeft(x)` on a node with a right child
(the inner rotation of a double rotation included), each read of
`node->left->course` or `node->right->course` in the tests of `insertRec` finds
that child, and so does the read of the successor in `deleteRec`. -/
theorem no_absent_child_read (t : BinarySearchTree) (h : Reachable t) :
    (∀ r : Course, (∃ res, Insert t r = some res) ∧
      ∀ x ∈ insertRecDerefs t.root r false, Deref.safe x = true) ∧
    (∀ k : String, (∃ res, Delete t k = some res) ∧
      ∀ x ∈ deleteRecDerefs t.root k false, Deref.safe x = true) := by
  have hi := reachable_inv h
  constructor
  · intro r
    obtain ⟨t', b, e, _⟩ := Insert_spec t r hi
    refine ⟨⟨(t', b), e⟩, ?_⟩
    obtain ⟨n, b', e', _⟩ := insertRec_avl r t.root false hi.1
    have hs := insertRec_isSome r t.root false
    rw [e', Option.isSome_some] at hs
    exact List.all_eq_true.1 hs.symm
  · intro k
    obtain ⟨t', b, e, _⟩ := Delete_spec t k hi
    refine ⟨⟨(t', b), e⟩, ?_⟩
    obtain ⟨n, b', e', _⟩ := deleteRec_avl t.root k false hi.1
    have hs := deleteRec_isSome t.root k false
    rw [e', Option.isSome_some] at hs
    exact List.all_eq_true.1 hs.symm

theorem no_absent_child_read_witness :
    (∀ r : Course, (∃ res, Insert sampleTree r = some res) ∧
      ∀ x ∈ insertRecDerefs sampleTree.root r false, Deref.safe x = true) ∧
    (∀ k : String, (∃ res, Delete sampleTree k = some res) ∧
      ∀ x ∈ deleteRecDerefs sampleTree.root k false, Deref.safe x = true) :=
  no_absent_child_read sampleTree sampleTree_reachable

/-! ## The balanced tree refines the original tree -/

theorem Original.inOrder_mk_sorted {c : Course} {l r : Original.Node}
    (h : (Original.inOrder (Original.Node.mk c l r)).Pairwise
      (fun a b => a.courseNumber < b.courseNumber)) :
    (Original.inOrder l).Pairwise (fun a b => a.courseNumber < b.courseNumber) ∧
    (Original.inOrder r).Pairwise (fun a b => a.courseNumber < b.courseNumber) ∧
    (∀ x ∈ Original.inOrder l, x.courseNumber < c.courseNumber) ∧
    (∀ x ∈ Original.inOrder r, c.courseNumber < x.courseNumber) := by
  simp only [Original.inOrder, List.pairwise_append, List.pairwise_cons, List.mem_cons] at h
  obtain ⟨hl, ⟨hr1, hr2⟩, hlr⟩ := h
  exact ⟨hl, hr2, fun x hx => hlr x hx c (Or.inl rfl), hr1⟩

/-- The in-order effect of the original insertion of a key that is not stored. -/
theorem Original.insertLoop_inOrder (c : Course) :
    ∀ t : Original.Node,
      (Original.inOrder t).Pairwise (fun a b => a.courseNumber < b.courseNumber) →
      (∀ x ∈ Original.inOrder t, x.courseNumber ≠ c.courseNumber) →
      ∃ pre post, Original.inOrder t = pre ++ post ∧
        Original.inOrder (Original.insertLoop t c) = pre ++ c :: post ∧
        (∀ x ∈ pre, x.courseNumber < c.courseNumber) ∧
        (∀ x ∈ post, c.courseNumber < x.courseNumber) := by
  intro t
  induction t with
  | null =>
    intro _ _
    exact ⟨[], [], rfl, rfl, by simp, by simp⟩
  | mk nc l r ihl ihr =>
    intro ho hne
    obtain ⟨hol, hor, hlt, hgt⟩ := Original.inOrder_mk_sorted ho
    have hnl : ∀ x ∈ Original.inOrder l, x.courseNumber ≠ c.courseNumber :=
      fun x hx => hne x (by simp [Original.inOrder, hx])
    have hnr : ∀ x ∈ Original.inOrder r, x.courseNumber ≠ c.courseNumber :=
      fun x hx => hne x (by simp [Original.inOrder, hx])
    have hnc : nc.courseNumber ≠ c.courseNumber := hne nc (by simp [Original.inOrder])
    simp only [Original.insertLoop, strLt_iff]
    split_ifs with h1
    · obtain ⟨pre, post, e1, e2, hp, hq⟩ := ihl hol hnl
      refine ⟨pre, post ++ nc :: Original.inOrder r, ?_, ?_, hp, ?_⟩
      · simp [Original.inOrder, e1]
      · simp [Original.inOrder, e2]
      · intro x hx
        rcases List.mem_append.1 hx with hx | hx
        · exact hq x hx
        · rcases List.mem_cons.1 hx with rfl | hx
          · exact h1
          · exact lt_trans h1 (hgt x hx)
    · have h2 : nc.courseNumber < c.courseNumber := by
        rcases lt_trichotomy c.courseNumber nc.courseNumber with h3 | h3 | h3
        · exact absurd h3 h1
        · exact absurd h3.symm hnc
        · exact h3
      obtain ⟨pre, post, e1, e2, hp, hq⟩ := ihr hor hnr
      refine ⟨Original.inOrder l ++ nc :: pre, post, ?_, ?_, ?_, hq⟩
      · simp [Original.inOrder, e1]
      · simp [Original.inOrder, e2]
      · intro x hx
        rcases List.mem_append.1 hx with hx | hx
        · exact lt_trans (hlt x hx) h2
        · rcases List.mem_cons.1 hx with rfl | hx
          · exact h2
          · exact hp x hx

/-- A sorted list splits around a new key in one way only. -/
theorem split_unique {pre post pre' post' : List Course} {c : Course}
    (e : pre ++ post = pre' ++ post')
    (hp : ∀ x ∈ pre, x.courseNumber < c.courseNumber)
    (hq : ∀ x ∈ post, c.courseNumber < x.courseNumber)
    (hp' : ∀ x ∈ pre', x.courseNumber < c.courseNumber)
    (hq' : ∀ x ∈ post', c.courseNumber < x.courseNumber) :
    pre = pre' ∧ post = post' := by
  have key : ∀ (a b : List Course), (∀ x ∈ a, x.courseNumber < c.courseNumber) →
      (∀ x ∈ b, c.courseNumber < x.courseNumber) →
      (a ++ b).filter (fun x => decide (x.courseNumber < c.courseNumber)) = a := by
    intro a b ha hb
    rw [List.filter_append]
    have h1 : a.filter (fun x => decide (x.courseNumber < c.courseNumber)) = a := by
      rw [List.filter_eq_self]
      intro x hx
      simpa using ha x hx
    have h2 : b.filter (fun x => decide (x.courseNumber < c.courseNumber)) = [] := by
      rw [List.filter_eq_nil_iff]
      intro x hx
      simpa using le_of_lt (hb x hx)
    rw [h1, h2, List.append_nil]
  have e1 : pre = pre' := by
    rw [← key pre post hp hq, ← key pre' post' hp' hq', e]
  subst e1
  exact ⟨rfl, List.append_cancel_left e⟩

theorem Original.searchLoop_absent (k : String) :
    ∀ t : Original.Node, (∀ x ∈ Original.inOrder t, x.courseNumber ≠ k) →
      Original.searchLoop t k = Course.empty := by
  intro t
  induction t with
  | null => intro _; rfl
  | mk nc l r ihl ihr =>
    intro hne
    have hnc : nc.courseNumber ≠ k := hne nc (by simp [Original.inOrder])
    simp only [Original.searchLoop]
    rw [if_neg hnc]
    split_ifs
    · exact ihl (fun x hx => hne x (by simp [Original.inOrder, hx]))
    · exact ihr (fun x hx => hne x (by simp [Original.inOrder, hx]))

theorem Original.searchLoop_found :
    ∀ (t : Original.Node) (x : Course),
      (Original.inOrder t).Pairwise (fun a b => a.courseNumber < b.courseNumber) →
      x ∈ Original.inOrder t → Original.searchLoop t x.courseNumber = x := by
  intro t
  induction t with
  | null => intro x _ hx; simp [Original.inOrder] at hx
  | mk nc l r ihl ihr =>
    intro x ho hx
    obtain ⟨hol, hor, hlt, hgt⟩ := Original.inOrder_mk_sorted ho
    simp only [Original.inOrder, List.mem_append, List.mem_cons] at hx
    simp only [Original.searchLoop, strLt_iff]
    rcases hx with hx | hx | hx
    · have h1 := hlt x hx
      rw [if_neg (ne_of_gt h1), if_pos h1]
      exact ihl x hol hx
    · subst hx; simp
    · have h1 := hgt x hx
      rw [if_neg (ne_of_lt h1), if_neg (lt_asymm h1)]
      exact ihr x hor hx

/-- Two search trees with the same in-order sequence answer every lookup alike. -/
theorem search_agree {o : Original.Node} {t : Node}
    (e : Original.inOrder o = inOrderRec t) (ho : Ordered t) (k : String) :
    Original.searchLoop o k = searchRec t k := by
  by_cases hm : k ∈ keys t
  · obtain ⟨x, hx, rfl⟩ := mem_keys.1 hm
    rw [searchRec_found t x ho hx]
    apply Original.searchLoop_found
    · rw [e]; exact ho
    · rw [e]; exact hx
  · rw [searchRec_absent k t hm]
    apply Original.searchLoop_absent
    intro x hx he
    rw [e] at hx
    exact hm (mem_keys.2 ⟨x, hx, he⟩)

/-- Inserting the same records, with ids that are pairwise distinct and not yet
stored, into an original tree and a balanced tree with the same in-order
sequence and size keeps the in-order sequences and the sizes equal. -/
theorem refine_insertAll : ∀ (rs : List Course) (o : Original.BinarySearchTree)
    (t : BinarySearchTree), Inv t → Original.inOrder o.root = inOrderRec t.root →
    o.size = t.size → (rs.map Course.courseNumber).Nodup →
    (∀ c ∈ rs, c.courseNumber ∉ keys t.root) →
    ∃ t', insertAll t rs = some t' ∧ Inv t' ∧
      Original.inOrder (Original.insertAll o rs).root = inOrderRec t'.root ∧
      (Original.insertAll o rs).size = t'.size := by
  intro rs
  induction rs with
  | nil => intro o t hi e hs _ _; exact ⟨t, rfl, hi, e, hs⟩
  | cons c cs ih =>
    intro o t hi e hs hn hk
    have hn2 : (c.courseNumber :: cs.map Course.courseNumber).Nodup := hn
    obtain ⟨hnc, hn'⟩ := List.nodup_cons.1 hn2
    have hc : c.courseNumber ∉ keys t.root := hk c (List.mem_cons_self _ _)
    obtain ⟨t1, b, e1, hi1, hcase⟩ := Insert_spec t c hi
    rcases hcase with ⟨hb, _, hsz, pre, post, e2, e3, hp, hq⟩ | ⟨_, hm, _⟩
    · subst hb
      have hoo : (Original.inOrder o.root).Pairwise
          (fun a b => a.courseNumber < b.courseNumber) := by
        rw [e]; exact hi.2.1
      have hone : ∀ x ∈ Original.inOrder o.root, x.courseNumber ≠ c.courseNumber := by
        intro x hx he
        rw [e] at hx
        exact hc (mem_keys.2 ⟨x, hx, he⟩)
      obtain ⟨pre', post', e2', e3', hp', hq'⟩ := Original.insertLoop_inOrder c o.root hoo hone
      obtain ⟨rfl, rfl⟩ := split_unique (by rw [← e2, ← e2', e]) hp hq hp' hq'
      have hk1 : ∀ c' ∈ cs, c'.courseNumber ∉ keys t1.root := by
        intro c' hc' hm
        obtain ⟨x, hx, he⟩ := mem_keys.1 hm
        rw [e3] at hx
        rcases List.mem_append.1 hx with hx | hx
        · exact hk c' (List.mem_cons_of_mem _ hc')
            (mem_keys.2 ⟨x, by rw [e2]; exact List.mem_append_left _ hx, he⟩)
        · rcases List.mem_cons.1 hx with rfl | hx
          · exact hnc (by rw [he]; exact List.mem_map_of_mem _ hc')
          · exact hk c' (List.mem_cons_of_mem _ hc')
              (mem_keys.2 ⟨x, by rw [e2]; exact List.mem_append_right _ hx, he⟩)
      obtain ⟨t', e4, hi', e5, e6⟩ := ih (Original.Insert o c) t1 hi1
        (by simp only [Original.Insert]; rw [e3', e3])
        (by simp only [Original.Insert]; rw [hs, hsz])
        hn' hk1
      exact ⟨t', by simp [insertAll, e1, e4], hi', e5, e6⟩
    · exact absurd hm hc

theorem toUpper_char_of_not_lower (c : Char) (h : c.isLower = false) : c.toUpper = c := by
  unfold Char.toUpper
  simp only [Char.isLower, Bool.and_eq_false_iff, decide_eq_false_iff_not] at h
  have : ¬ (c.toNat ≥ 97 ∧ c.toNat ≤ 122) := by
    rintro ⟨h1, h2⟩
    rcases h with h | h
    · apply h
      show (97 : UInt32) ≤ c.val
      rw [UInt32.le_def]
      exact h1
    · apply h
      show c.val ≤ (122 : UInt32)
      rw [UInt32.le_def]
      exact h2
  simp only [this, if_false]

/-- A string without lower-case letters is left unchanged by upper-casing. -/
theorem toUpper_of_no_lower (k : String) (h : ∀ ch ∈ k.data, ch.isLower = false) :
    toUpper k = k := by
  unfold toUpper
  have : k.data.map Char.toUpper = k.data := by
    conv_rhs => rw [← List.map_id k.data]
    apply List.map_congr_left
    intro ch hch
    exact toUpper_char_of_not_lower ch (h ch hch)
  rw [this]

/-- C22: for records with pairwise distinct ids, inserted in the same order
into the original tree and into the balanced tree (both empty at first), the
balanced insertions all succeed and the two trees have the same `Size`, the
same in-order sequence of records, and the same `Search` result for every key
without lower-case letters (for any key, the original search of the upper-cased
key is the balanced `Search` of the key). -/
theorem avl_refines_original (rs : List Course)
    (hn : (rs.map Course.courseNumber).Nodup) :
    ∃ t, insertAll BinarySearchTree.new rs = some t ∧
      Original.Size (Original.insertAll Original.BinarySearchTree.new rs) = Size t ∧
      Original.InOrder (Original.insertAll Original.BinarySearchTree.new rs) = InOrder t ∧
      (∀ k : String, (∀ ch ∈ k.data, ch.isLower = false) →
        Original.Search (Original.insertAll Original.BinarySearchTree.new rs) k =
          Search t k) ∧
      (∀ k : String,
        Original.Search (Original.insertAll Original.BinarySearchTree.new rs) (toUpper k) =
          Search t k) := by
  obtain ⟨t, e, hi, e1, e2⟩ := refine_insertAll rs Original.BinarySearchTree.new
    BinarySearchTree.new inv_new rfl rfl hn (by intro c _ hm; simp [BinarySearchTree.new, keys, inOrderRec] at hm)
  refine ⟨t, e, e2, e1, ?_, ?_⟩
  · intro k hk
    unfold Original.Search Search
    rw [toUpper_of_no_lower k hk]
    exact search_agree e1 hi.2.1 k
  · intro k
    exact search_agree e1 hi.2.1 (toUpper k)

theorem avl_refines_original_witness :
    ∃ t, insertAll BinarySearchTree.new [csci101, csci201, csci301] = some t ∧
      Original.Size (Original.insertAll Original.BinarySearchTree.new
        [csci101, csci201, csci301]) = Size t ∧
      Original.InOrder (Original.insertAll Original.BinarySearchTree.new
        [csci101, csci201, csci301]) = InOrder t ∧
      (∀ k : String, (∀ ch ∈ k.data, ch.isLower = false) →
        Original.Search (Original.insertAll Original.BinarySearchTree.new
          [csci101, csci201, csci301]) k = Search t k) ∧
      (∀ k : String,
        Original.Search (Original.insertAll Original.BinarySearchTree.new
          [csci101, csci201, csci301]) (toUpper k) = Search t k) :=
  avl_refines_original [csci101, csci201, csci301] (by decide)

end CourseCatalogAVL
